import Mathlib

/-!
The run list (`linkpair.c`) of the `mvd_add` plugin of nmergec.

A shallow embedding of `src/plugins/mvd_add/linkpair.c`.

* A C pointer to a `linkpair` is an address `Nat` into a heap; a pointer that may be
  `NULL` is an `Option Nat`. A function that dereferences its argument at once takes a `Nat`.
* The heap is a `List LinkPair`; `calloc` appends a zeroed cell and returns its index.
  Allocation is taken to succeed. `free` is not modelled (a freed cell stays readable).
* Reading through `NULL` or through an address outside the heap is undefined behaviour in C
  and is the result `none` here.
* Every node owns its run, so the run is stored by value inside the node.
* `pair.c` and `bitset.c` are not among the sources: the few primitives used by
  `linkpair.c` are modelled from the specification's contract for them.
* `match.c` is embedded over the same runs; matches linked by `next` live in a heap of
  their own, and the suffix tree is a parameter.
* `linkpair_list_circular` uses a hashmap keyed by the text of an address; the map is a
  list of keys, and the key left by the absent `u_print` is a parameter.
* `plugin_log.c` is embedded over a buffer of bytes; the macro `SCRATCH_LEN` is a
  parameter, and a write outside the buffer is the result `none`.
-/

namespace NMerge

/-! ## Version sets (contract only) -/

/-- Modelled from the spec: the `bitset` type of the absent `bitset.c`, "a set of small
non-negative integers (version IDs)". -/
abbrev BitSet := Finset Nat

/-- Modelled from the spec: `bitset_create` of the absent `bitset.c`, "create() -> empty set". -/
def bitset_create : BitSet := ∅

/-- Modelled from the spec: `bitset_set` of the absent `bitset.c`, "set(v)". -/
def bitset_set (bs : BitSet) (v : Nat) : BitSet := insert v bs

/-- Modelled from the spec: `bitset_clear_bit` of the absent `bitset.c`, "clear(v)". -/
def bitset_clear_bit (bs : BitSet) (v : Nat) : BitSet := bs.erase v

/-- Modelled from the spec: `bitset_intersects` of the absent `bitset.c`,
"intersects(a,b) -> bool". -/
def bitset_intersects (a b : BitSet) : Bool := decide ((a ∩ b).Nonempty)

/-- Modelled from the spec: `bitset_or` of the absent `bitset.c`, "union(a,b) -> a∪b". -/
def bitset_or (a b : BitSet) : BitSet := a ∪ b

/-- Modelled from the spec: `bitset_and_not` of the absent `bitset.c`, "and_not(a,b) -> a∖b". -/
def bitset_and_not (a b : BitSet) : BitSet := a \ b

/-- Modelled from the spec: `bitset_next_set_bit` of the absent `bitset.c`,
"next_set_at_or_after(v) -> smallest member ≥ v, or v itself if v is a member"; `-1` when
there is no such member. -/
def bitset_next_set_bit (bs : BitSet) (v : Nat) : Int :=
  if h : (bs.filter (fun x => v ≤ x)).Nonempty then ((bs.filter (fun x => v ≤ x)).min' h : Nat)
  else -1

/-! ## Text runs ("pairs") -/

/-- Modelled from the spec: the kind of a run, "kind ∈ {ordinary, hint, parent, child}". -/
inductive PairKind where
  | ordinary
  | hint
  | parent
  | child
  deriving DecidableEq, Repr

/-- Modelled from the spec: the `pair` type of the absent `pair.c`,
"{ version_set, text_span, kind }". The text is a list of UTF-16 code units. -/
structure Pair where
  versions : BitSet
  data : List Nat
  kind : PairKind
  deriving DecidableEq

/-- Modelled from the spec: `pair_versions` of the absent `pair.c`. -/
def pair_versions (p : Pair) : BitSet := p.versions

/-- Modelled from the spec: `pair_len` of the absent `pair.c`, the length of the run's text. -/
def pair_len (p : Pair) : Nat := p.data.length

/-- Modelled from the spec: `pair_is_hint` of the absent `pair.c`. -/
def pair_is_hint (p : Pair) : Bool := decide (p.kind = PairKind.hint)

/-- Modelled from the spec: `pair_is_ordinary` of the absent `pair.c`. -/
def pair_is_ordinary (p : Pair) : Bool := decide (p.kind = PairKind.ordinary)

/-- Modelled from the spec: `pair_is_child` of the absent `pair.c`. -/
def pair_is_child (p : Pair) : Bool := decide (p.kind = PairKind.child)

/-- Modelled from the spec: `pair_is_parent` of the absent `pair.c`. -/
def pair_is_parent (p : Pair) : Bool := decide (p.kind = PairKind.parent)

/-- Modelled from the spec: `pair_create_basic` of the absent `pair.c`, an ordinary run. -/
def pair_create_basic (versions : BitSet) (data : List Nat) : Pair :=
  { versions := versions, data := data, kind := PairKind.ordinary }

/-- Modelled from the spec: `pair_create_hint` of the absent `pair.c`, "a hint run takes
exclusive ownership of a freshly created version set"; a hint has no text. -/
def pair_create_hint (versions : BitSet) : Pair :=
  { versions := versions, data := [], kind := PairKind.hint }

/-- Modelled from the spec: `pair_split` of the absent `pair.c`. "split ... mutates a run
in place into its left half and returns a newly allocated right half"; the run is split
before offset `at_` ("ap" / "ple" for "apple" at 2). The first component is the run left
in `*p`, the second the returned run (`none` would be `NULL`). -/
def pair_split (p : Pair) (at_ : Nat) : Pair × Option Pair :=
  ({ p with data := p.data.take at_ }, some { p with data := p.data.drop at_ })

/-! ## Run-list nodes and the heap -/

/-- The `struct linkpair_struct` of `linkpair.c`. -/
structure LinkPair where
  p : Pair
  left : Option Nat
  right : Option Nat
  st_off : Int
  deriving DecidableEq

/-- The store of all allocated `linkpair` objects, addressed by index. -/
abbrev Heap := List LinkPair

/-- A field assignment `a->f = ...`: read the object at `a`, write it back changed. -/
def modify (h : Heap) (a : Nat) (f : LinkPair → LinkPair) : Option Heap :=
  match h[a]? with
  | none => none
  | some nd => some (h.set a (f nd))

/-- An assignment through a pointer that is skipped when the pointer is `NULL`:
`if ( q != NULL ) q->f = ...`. -/
def modifyIfPresent (h : Heap) (q : Option Nat) (f : LinkPair → LinkPair) : Option Heap :=
  match q with
  | none => some h
  | some a => modify h a f

/-- The function `linkpair_create`: a zeroed object wrapping `p`, with its address. -/
def linkpair_create (h : Heap) (p : Pair) : Heap × Nat :=
  (h ++ [{ p := p, left := none, right := none, st_off := 0 }], h.length)

/-- The function `linkpair_replace`. Every `old_lp->...` is read when its statement runs. -/
def linkpair_replace (h : Heap) (old_lp new_lp : Nat) : Option Heap := do
  let o ← h[old_lp]?
  let h1 ← modifyIfPresent h o.left (fun x => { x with right := some new_lp })
  let o1 ← h1[old_lp]?
  let h2 ← modifyIfPresent h1 o1.right (fun x => { x with left := some new_lp })
  let o2 ← h2[old_lp]?
  let h3 ← modify h2 new_lp (fun x => { x with right := o2.right })
  let o3 ← h3[old_lp]?
  let h4 ← modify h3 new_lp (fun x => { x with left := o3.left })
  modify h4 old_lp (fun x => { x with left := none, right := none })

/-- The loop of `linkpair_list_len`, with a bound on the number of iterations. -/
def linkpair_list_len_loop : Nat → Heap → Option Nat → Nat → Option Nat
  | 0, _, _, _ => none
  | _ + 1, _, none, len => some len
  | fuel + 1, h, some a, len =>
    match h[a]? with
    | none => none
    | some nd => linkpair_list_len_loop fuel h nd.right (len + 1)

/-- The function `linkpair_list_len`. A walk over more cells than the heap holds has met
a cell twice and never ends: that is `none`. -/
def linkpair_list_len (h : Heap) (lp : Option Nat) : Option Nat :=
  linkpair_list_len_loop (h.length + 1) h lp 0

/-- The loop of `linkpair_to_pairs`, with a bound on the number of iterations. -/
def linkpair_to_pairs_loop : Nat → Heap → Option Nat → List Pair → Option (List Pair)
  | 0, _, _, _ => none
  | _ + 1, _, none, da => some da
  | fuel + 1, h, some a, da =>
    match h[a]? with
    | none => none
    | some nd => linkpair_to_pairs_loop fuel h nd.right (da ++ [nd.p])

/-- The function `linkpair_to_pairs`: the runs from `lp` rightwards. -/
def linkpair_to_pairs (h : Heap) (lp : Option Nat) : Option (List Pair) := do
  let _npairs ← linkpair_list_len h lp
  linkpair_to_pairs_loop (h.length + 1) h lp []

/-- The function `linkpair_add_hint`. -/
def linkpair_add_hint (h : Heap) (lp : Nat) (version : Nat) : Option Heap := do
  let n ← h[lp]?
  let l ← n.left
  let ln ← h[l]?
  if pair_is_hint ln.p then
    modify h l (fun x => { x with p := { x.p with versions := bitset_set x.p.versions version } })
  else if bitset_next_set_bit (pair_versions ln.p) version ≠ (version : Int) then
    let bs := bitset_set bitset_create version
    let hint := pair_create_hint bs
    let (h1, hint_lp) := linkpair_create h hint
    let n1 ← h1[lp]?
    let h2 ← modify h1 hint_lp (fun x => { x with left := n1.left })
    let h3 ← modify h2 hint_lp (fun x => { x with right := some lp })
    let n3 ← h3[lp]?
    let l3 ← n3.left
    let h4 ← modify h3 l3 (fun x => { x with right := some hint_lp })
    modify h4 lp (fun x => { x with left := some hint_lp })
  else
    some h

/-- The function `linkpair_split`. The branches for child and parent runs are empty. -/
def linkpair_split (h : Heap) (lp : Nat) (at_ : Nat) : Option Heap := do
  let n ← h[lp]?
  if pair_is_ordinary n.p then
    let (p1, q1) := pair_split n.p at_
    let h0 := h.set lp { n with p := p1 }
    match q1 with
    | none => some h0
    | some q =>
      let (h1, lp2) := linkpair_create h0 q
      let n1 ← h1[lp]?
      let h2 ← modify h1 lp2 (fun x => { x with right := n1.right })
      let x2 ← h2[lp2]?
      let h3 ← modifyIfPresent h2 x2.right (fun x => { x with left := some lp2 })
      let h4 ← modify h3 lp (fun x => { x with right := some lp2 })
      modify h4 lp2 (fun x => { x with left := some lp })
  else if pair_is_child n.p then
    some h
  else if pair_is_parent n.p then
    some h
  else
    some h

/-- The function `linkpair_node_to_right`. -/
def linkpair_node_to_right (h : Heap) (lp : Nat) : Option Bool := do
  let n ← h[lp]?
  match n.right with
  | none => some false
  | some r =>
    let rn ← h[r]?
    if pair_is_hint rn.p then some true
    else some (bitset_intersects (pair_versions n.p) (pair_versions rn.p))

/-- The function `linkpair_node_overhang`. -/
def linkpair_node_overhang (h : Heap) (lp : Nat) : Option BitSet := do
  let n ← h[lp]?
  let bs := bitset_or bitset_create (pair_versions n.p)
  let r ← n.right
  let rn ← h[r]?
  if pair_is_hint rn.p then
    let pp := rn.p
    let bs1 := bitset_or bs (pair_versions pp)
    let bs2 := if pair_is_hint pp then bitset_clear_bit bs1 0 else bs1
    let x ← rn.right
    let xn ← h[x]?
    some (bitset_and_not bs2 (pair_versions xn.p))
  else
    some (bitset_and_not bs (pair_versions rn.p))

/-- The function `linkpair_add_at_node`; the result is the new heap and the returned flag. -/
def linkpair_add_at_node (h : Heap) (lp after : Nat) : Option (Heap × Bool) := do
  let n ← h[lp]?
  let bs1 := pair_versions n.p
  let r ← n.right
  let rn ← h[r]?
  let lp1 := if pair_is_hint rn.p then r else lp
  let c ← h[lp1]?
  let h1 ← modify h after (fun x => { x with right := c.right })
  let h2 ← modify h1 after (fun x => { x with left := some lp1 })
  let c2 ← h2[lp1]?
  let h3 ← modifyIfPresent h2 c2.right (fun x => { x with left := some after })
  let h4 ← modify h3 lp1 (fun x => { x with right := some after })
  let a ← h4[after]?
  some (h4, bitset_intersects bs1 (pair_versions a.p))

/-- The function `linkpair_add_after`; the result is the new heap and the returned flag. -/
def linkpair_add_after (h : Heap) (lp after : Nat) : Option (Heap × Bool) := do
  let ntr ← linkpair_node_to_right h lp
  if !ntr then
    let n ← h[lp]?
    let h1 ← modify h after (fun x => { x with right := n.right })
    let h2 ← modify h1 after (fun x => { x with left := some lp })
    let n2 ← h2[lp]?
    let h3 ← modifyIfPresent h2 n2.right (fun x => { x with left := some after })
    let h4 ← modify h3 lp (fun x => { x with right := some after })
    some (h4, true)
  else
    some (h, false)

/-- The function `linkpair_remove`. -/
def linkpair_remove (h : Heap) (lp : Nat) : Option Heap := do
  let n ← h[lp]?
  let h1 ← modifyIfPresent h n.left (fun x => { x with right := n.right })
  let n1 ← h1[lp]?
  let h2 ← modifyIfPresent h1 n1.right (fun x => { x with left := n1.left })
  some h2

/-! ## Well-formed lists -/

/-- The left and right links of the cell at `a`, when `a` is allocated. -/
def links (h : Heap) (a : Nat) : Option (Option Nat × Option Nat) :=
  (h[a]?).map (fun nd => (nd.left, nd.right))

/-- The first address of `l`, or `next` when `l` is empty. -/
def headOr (l : List Nat) (next : Option Nat) : Option Nat :=
  match l with
  | [] => next
  | b :: _ => some b

/-- The last address of `l`, or `prev` when `l` is empty. -/
def lastOr : List Nat → Option Nat → Option Nat
  | [], prev => prev
  | a :: rest, _ => lastOr rest (some a)

/-- `Seg h prev l next`: the cells at the addresses `l` are doubly linked in this order,
the first one has `prev` on its left and the last one has `next` on its right. -/
def Seg (h : Heap) : Option Nat → List Nat → Option Nat → Prop
  | _, [], _ => True
  | prev, a :: rest, next => links h a = some (prev, headOr rest next) ∧ Seg h (some a) rest next

instance Seg.decide (h : Heap) : (prev : Option Nat) → (l : List Nat) → (next : Option Nat) →
    Decidable (Seg h prev l next)
  | _, [], _ => isTrue trivial
  | prev, a :: rest, next =>
    match Seg.decide h (some a) rest next with
    | isTrue hr =>
      if hl : links h a = some (prev, headOr rest next) then isTrue ⟨hl, hr⟩
      else isFalse (fun hc => hl hc.1)
    | isFalse hr => isFalse (fun hc => hr hc.2)

/-- A well-formed acyclic list: the addresses `l`, all different, are doubly linked from
left to right; the first has no left neighbour (the single start) and the last has no right
neighbour (the single end). For every node `x` of it, `x.right.left = x` and
`x.left.right = x` when these neighbours exist. -/
def IsList (h : Heap) (l : List Nat) : Prop :=
  l.Nodup ∧ Seg h none l none

instance IsList.decide (h : Heap) (l : List Nat) : Decidable (IsList h l) :=
  inferInstanceAs (Decidable (l.Nodup ∧ Seg h none l none))

/-- The runs wrapped by the cells at the addresses `l`, in this order. -/
def runs (h : Heap) (l : List Nat) : List Pair :=
  l.filterMap (fun a => (h[a]?).map LinkPair.p)

/-- The list `l` with the address `old` replaced by `new`. -/
def replaceAddr (l : List Nat) (old new : Nat) : List Nat :=
  l.map (fun a => if a = old then new else a)

/-! ## Test data of `make_test_data` -/

/-- The run `p1` of `make_test_data`: versions {3,27}, text "banana". -/
def p1 : Pair := pair_create_basic {3, 27} [98, 97, 110, 97, 110, 97]

/-- The run `p2` of `make_test_data`: versions {5,17}, text "apple". -/
def p2 : Pair := pair_create_basic {5, 17} [97, 112, 112, 108, 101]

/-- The run `p3` of `make_test_data`: versions {7,14,19}, text "pear". -/
def p3 : Pair := pair_create_basic {7, 14, 19} [112, 101, 97, 114]

/-- The run `p4` of `make_test_data`: versions {7,14,22}, text "orange". -/
def p4 : Pair := pair_create_basic {7, 14, 22} [111, 114, 97, 110, 103, 101]

/-- The run `pl` of `make_test_data`: versions {3,23}, text "orange". -/
def pl : Pair := pair_create_basic {3, 23} [111, 114, 97, 110, 103, 101]

/-- The run `pr` of `make_test_data`: versions {3,21}, text "guava". -/
def pr : Pair := pair_create_basic {3, 21} [103, 117, 97, 118, 97]

/-- The heap after `make_test_data` and `linkpair_test_links`: `lp1`, `lp2`, `lp3` at the
addresses 0, 1, 2 are linked in this order; `lp4`, `lpl`, `lpr` at 3, 4, 5 are detached. -/
def testHeap : Heap :=
  [ { p := p1, left := none, right := some 1, st_off := 0 },
    { p := p2, left := some 0, right := some 2, st_off := 0 },
    { p := p3, left := some 1, right := none, st_off := 0 },
    { p := p4, left := none, right := none, st_off := 0 },
    { p := pl, left := none, right := none, st_off := 0 },
    { p := pr, left := none, right := none, st_off := 0 } ]

/-- The list `l` with the address `x` inserted right after the address `n`. -/
def insertAfter : List Nat → Nat → Nat → List Nat
  | [], _, _ => []
  | a :: t, n, x => if a = n then a :: x :: t else a :: insertAfter t n x

/-- A heap for the overhang: the ordinary run with versions {0,1} at address 0 is followed
by a hint with versions {2} at address 1 and an ordinary run with versions {3} at 2. -/
def overhangHeap : Heap :=
  [ { p := pair_create_basic {0, 1} [97], left := none, right := some 1, st_off := 0 },
    { p := pair_create_hint {2}, left := some 0, right := some 2, st_off := 0 },
    { p := pair_create_basic {3} [98], left := some 1, right := none, st_off := 0 } ]

/-- The heap of `linkpair_test_overhang` before the hint is added: `lpl` at address 0 and
`lpr` at address 1 are linked, `lp4` at address 2 is detached. -/
def testHeapLR : Heap :=
  [ { p := pl, left := none, right := some 1, st_off := 0 },
    { p := pr, left := some 0, right := none, st_off := 0 },
    { p := p4, left := none, right := none, st_off := 0 } ]

/-- A heap in which `lp1` at address 0 is followed by `lp2` at address 1; the detached
run at address 2 carries the versions {5,17,40}, among them every version of `lp2`. -/
def coverHeap : Heap :=
  [ { p := p1, left := none, right := some 1, st_off := 0 },
    { p := p2, left := some 0, right := none, st_off := 0 },
    { p := pair_create_basic {5, 17, 40} [120], left := none, right := none, st_off := 0 } ]

/-! ## Node-boundary predicates and the scan to the right -/

/-- The function `linkpair_trailing_node`. -/
def linkpair_trailing_node (h : Heap) (lp : Nat) : Option Bool := do
  let n ← h[lp]?
  match n.left with
  | none => some false
  | some l =>
    let ln ← h[l]?
    if pair_is_hint ln.p || bitset_intersects (pair_versions ln.p) (pair_versions n.p) then
      some true
    else
      some false

/-- The function `linkpair_node_to_left`. -/
def linkpair_node_to_left (h : Heap) (lp : Nat) : Option Bool := do
  let n ← h[lp]?
  match n.left with
  | none => some false
  | some l =>
    let ln ← h[l]?
    if pair_is_hint ln.p then some true
    else some (bitset_intersects (pair_versions n.p) (pair_versions ln.p))

/-- The function `linkpair_free`. The two calls of `bitset_tostring` only fill local
buffers and are left out. -/
def linkpair_free (h : Heap) (lp : Nat) : Option Bool := do
  let n ← h[lp]?
  match n.left with
  | none => some true
  | some l =>
    let ln ← h[l]?
    if !pair_is_hint ln.p then
      some (!bitset_intersects (pair_versions ln.p) (pair_versions n.p))
    else
      some true

/-- The loop of `linkpair_next`, with a bound on the number of iterations. -/
def linkpair_next_loop : Nat → Heap → Option Nat → BitSet → Option (Option Nat)
  | 0, _, _, _ => none
  | _ + 1, _, none, _ => some none
  | fuel + 1, h, some a, bs =>
    match h[a]? with
    | none => none
    | some c =>
      if !bitset_intersects bs (pair_versions c.p) then linkpair_next_loop fuel h c.right bs
      else some (some a)

/-- The function `linkpair_next`: the returned pointer (`some none` is `NULL`). It only
reads the heap and `bs`. A walk over more cells than the heap holds never ends: `none`. -/
def linkpair_next (h : Heap) (lp : Nat) (bs : BitSet) : Option (Option Nat) := do
  let n ← h[lp]?
  linkpair_next_loop (h.length + 1) h n.right bs

/-- Whether the run of the cell at `a` shares a version with `bs`. -/
def hits (h : Heap) (bs : BitSet) (a : Nat) : Bool :=
  match h[a]? with
  | none => false
  | some c => bitset_intersects bs (pair_versions c.p)

/-- The list of the spec's example: `p1`, `p2`, `p3`, `p4` linked in this order at the
addresses 0, 1, 2, 3. -/
def exampleHeap : Heap :=
  [ { p := p1, left := none, right := some 1, st_off := 0 },
    { p := p2, left := some 0, right := some 2, st_off := 0 },
    { p := p3, left := some 1, right := some 3, st_off := 0 },
    { p := p4, left := some 2, right := none, st_off := 0 } ]

/-- The version set `bs5` of `make_test_data`: {7,14}. -/
def bs5 : BitSet := {7, 14}

/-! ## Matches (`match.c`)

A `match` is stored by value. The C `int` fields are integers. In `match_follows`,
`match_advance` and `match_inc_len`, whose operands the caller sets freely, the result of
every `int` operation on them is reduced to 32 bits by `wrap_int`; an index that is
incremented right after `pairs[i]` has been read lies inside the array and is incremented
as it is. `match_clone` and the sums over a chain are written without the reduction. The
array `pairs` is a list, and an index outside it is an undefined read (`none`). A
`match *` to the next match of a chain is an address. The suffix tree is an external
collaborator: its root position and the function `suffixtree_advance_pos` are parameters
of `match_single`. -/

/-- The constant `KDIST` of `match.c`. -/
def KDIST : Int := 2

/-- The constant `INT_MAX` of `limits.h`, for a 32-bit `int`. -/
def INT_MAX : Int := 2147483647

/-- The constant `INT_MIN` of `limits.h`, for a 32-bit `int`. -/
def INT_MIN : Int := -2147483648

/-- The value that an `int` operation stores when its result over the integers is `x`: the
32-bit two's complement value, which is `x` itself when `INT_MIN ≤ x ≤ INT_MAX`. The C
standard leaves signed overflow undefined; the compiled code wraps around. -/
def wrap_int (x : Int) : Int := (x + 2147483648) % 4294967296 - 2147483648

/-- The `struct match_struct` of `match.c`, without the pointer `st` to the suffix tree.
The field `end` is named `end_`. -/
structure Match where
  start_p : Int
  end_p : Int
  start_pos : Int
  end_pos : Int
  st_off : Int
  prev_p : Int
  prev_pos : Int
  len : Int
  end_ : Int
  pairs : List Pair
  bs : Option BitSet
  next : Option Nat
  deriving DecidableEq

/-- Modelled from the spec: `bitset_and` of the absent `bitset.c`, the "intersection" of the
version-set interface; the first set is narrowed in place. -/
def bitset_and (a b : BitSet) : BitSet := a ∩ b

/-- Modelled from the spec: `pair_data` of the absent `pair.c`, the text of the run. -/
def pair_data (p : Pair) : List Nat := p.data

/-- The array read `pairs[i]`. -/
def pair_at (pairs : List Pair) (i : Int) : Option Pair :=
  if 0 ≤ i then pairs[i.toNat]? else none

/-- The array read `data[i]` inside the storage `data`; outside it the read is undefined. -/
def data_at (data : List Nat) (i : Int) : Option Nat :=
  if 0 ≤ i then data[i.toNat]? else none

/-- The function `match_create`, for a successful allocation. -/
def match_create (i j : Int) (pairs : List Pair) (end_ : Int) : Match :=
  { start_p := i, end_p := i, start_pos := j, end_pos := j, st_off := 0, prev_p := i,
    prev_pos := j, len := 0, end_ := end_, pairs := pairs, bs := none, next := none }

/-- The function `match_set_versions`. -/
def match_set_versions (m : Match) (bs : BitSet) : Match := { m with bs := some bs }

/-- The function `match_set_st_offset`. -/
def match_set_st_offset (m : Match) (off : Int) : Match := { m with st_off := off }

/-- The function `match_inc_len`. -/
def match_inc_len (m : Match) : Match := { m with len := wrap_int (m.len + 1) }

/-- The function `match_clone`, for a successful allocation: the parent after the call and
the clone. The last assignment of the source is `mt->st_off += mt->len`, on the parent. -/
def match_clone (mt : Match) : Match × Match :=
  let mt2 := mt
  let mt2 := { mt2 with start_p := mt.end_p }
  let mt2 := { mt2 with start_pos := mt.end_pos }
  let mt2 := { mt2 with len := 0 }
  let mt1 := { mt with st_off := mt.st_off + mt.len }
  (mt1, mt2)

/-- The loop of `next_pair`; the first argument counts the indices from `i` to `end`. -/
def next_pair_loop : Nat → List Pair → Int → Option BitSet → Option Int
  | 0, _, _, _ => some (-1)
  | k + 1, pairs, i, bs => do
    let b ← bs
    let p ← pair_at pairs i
    if !bitset_intersects b (pair_versions p) then next_pair_loop k pairs (i + 1) bs
    else some i

/-- The function `next_pair`. -/
def next_pair (pairs : List Pair) (end_ : Int) (pos : Int) (bs : Option BitSet) : Option Int :=
  next_pair_loop (end_ + 1 - pos).toNat pairs pos bs

/-- The `while` loop of `match_follows` on `pairs_dist` and `i`, with a bound on the number
of iterations; the result is the final `pairs_dist`. -/
def match_follows_loop : Nat → Match → Match → Int → Int → Option Int
  | 0, _, _, _, _ => none
  | fuel + 1, first, second, pairs_dist, i =>
    if pairs_dist ≤ KDIST then do
      let j ← next_pair first.pairs first.end_ (i + 1) first.bs
      if j ≠ -1 then
        let p ← pair_at first.pairs j
        let p_len : Int := pair_len p
        let pairs_dist1 :=
          if j < second.start_p then wrap_int (pairs_dist + p_len)
          else if j = second.start_p then wrap_int (pairs_dist + second.end_pos)
          else pairs_dist
        match_follows_loop fuel first second pairs_dist1 (j + 1)
      else some pairs_dist
    else some pairs_dist

/-- The function `match_follows`. Every iteration of its loop moves `i` forward by at
least two, so that the bound on the iterations is never used up. -/
def match_follows (first second : Match) : Option Bool := do
  let pairs_dist ←
    if second.start_p = first.end_p then some (wrap_int (second.start_pos - first.end_pos))
    else if second.start_p > first.end_p then do
      let p ← pair_at first.pairs first.end_p
      let pairs_dist0 : Int := wrap_int ((pair_len p : Int) - wrap_int (first.end_pos + 1))
      match_follows_loop ((first.end_ - first.end_p).toNat + 2) first second pairs_dist0
        first.end_p
    else some INT_MAX
  let st_dist := wrap_int (second.st_off - wrap_int (first.st_off + first.len))
  some (decide (pairs_dist ≤ KDIST ∧ st_dist ≥ 0 ∧ st_dist ≤ KDIST))

/-- The `for` loop of `match_advance` over the pairs `i`, ..., `end`; the first argument
counts these indices. The result is the match and the returned character. -/
def match_advance_scan : Nat → Int → Match → Option (Match × Nat)
  | 0, _, m => some (m, 0)
  | k + 1, i, m => do
    let p ← pair_at m.pairs i
    let mbs ← m.bs
    if bitset_intersects mbs (pair_versions p) then
      let m1 := { m with bs := some (bitset_and mbs (pair_versions p)) }
      if pair_len p > 0 then
        let c ← data_at (pair_data p) 0
        some ({ m1 with end_p := i, end_pos := 0 }, c)
      else match_advance_scan k (i + 1) m1
    else match_advance_scan k (i + 1) m

/-- The function `match_advance`: the match after the call and the returned character.
Modelled from the spec: a run's text span is "a reference into externally-owned version
text", so that `data[++m->end_pos]` of the `else` branch, an index at or after the end of
the run, reads what that text holds after the run. `beyond i` lists the code units stored
after the text of the run `pairs[i]` (the test arrays of the repository hold a single 0
there); a read past them is outside the storage and undefined (`none`). -/
def match_advance (beyond : Int → List Nat) (m : Match) : Option (Match × Nat) := do
  let m0 := { m with prev_p := m.end_p, prev_pos := m.end_pos }
  let p ← pair_at m0.pairs m0.end_p
  if (pair_len p : Int) > wrap_int (m0.end_pos + 1) then
    match_advance_scan (m0.end_ - m0.end_p).toNat (m0.end_p + 1) m0
  else
    let m1 := { m0 with end_pos := wrap_int (m0.end_pos + 1) }
    let c ← data_at (pair_data p ++ beyond m0.end_p) m1.end_pos
    some (m1, c)

/-- The `do ... while ( 1 )` loop of `match_single`. The loop has no bound of its own:
`fuel` bounds the number of calls of `match_advance`, and the result is `none` when it is
used up. Modelled from the spec: `suffixtree_advance_pos` of the absent suffix tree,
"advance one character from a tree position, returning whether the tree still matches", is
the parameter `adv`: `some` of the new position when the tree matches, `none` otherwise. -/
def match_single_loop {Loc : Type} (adv : Loc → Nat → Option Loc) (beyond : Int → List Nat) :
    Nat → Match → Loc → Option Match
  | 0, _, _ => none
  | fuel + 1, m, loc =>
    match match_advance beyond m with
    | none => none
    | some (m1, c) =>
      if c ≠ 0 then
        match adv loc c with
        | some loc1 => match_single_loop adv beyond fuel (match_inc_len m1) loc1
        | none => some m1
      else some m1

/-- The function `match_single`: the match after the call and the returned flag; `root` is
the position `suffixtree_root` gives, `fuel` the bound on the iterations of the loop. -/
def match_single {Loc : Type} (adv : Loc → Nat → Option Loc) (root : Loc)
    (beyond : Int → List Nat) (fuel : Nat) (m : Match) : Option (Match × Bool) :=
  (match_single_loop adv beyond fuel m root).map (fun m1 => (m1, decide (m1.len > 0)))

/-- One iteration of the loop of `match_single` in which `match_advance` returns a
character other than 0 that the suffix tree accepts. -/
def accepts {Loc : Type} (adv : Loc → Nat → Option Loc) (beyond : Int → List Nat) (m : Match)
    (loc : Loc) (m1 : Match) (loc1 : Loc) : Prop :=
  ∃ m0 c, match_advance beyond m = some (m0, c) ∧ c ≠ 0 ∧ adv loc c = some loc1 ∧
    m1 = match_inc_len m0

/-- An iteration of the loop of `match_single` that leaves the loop: `match_advance`
returns the end marker 0 or a character the suffix tree rejects. -/
def stops {Loc : Type} (adv : Loc → Nat → Option Loc) (beyond : Int → List Nat) (m : Match)
    (loc : Loc) (m1 : Match) : Prop :=
  ∃ c, match_advance beyond m = some (m1, c) ∧ (c = 0 ∨ adv loc c = none)

/-- Exactly `k` accepting iterations in a row. -/
def acceptsN {Loc : Type} (adv : Loc → Nat → Option Loc) (beyond : Int → List Nat) :
    Nat → Match → Loc → Match → Loc → Prop
  | 0, m, loc, m1, loc1 => m1 = m ∧ loc1 = loc
  | k + 1, m, loc, m1, loc1 =>
    ∃ m0 loc0, accepts adv beyond m loc m0 loc0 ∧ acceptsN adv beyond k m0 loc0 m1 loc1

/-- The characters remaining in the end run of `first` after its cursor, plus the lengths
of the runs strictly between `first.end_p` and `second.start_p` whose version set
intersects the tracked set `bs`. -/
def skipped_len (pairs : List Pair) (bs : BitSet) (end_p end_pos start_p : Int) : Int :=
  ((pair_at pairs end_p).map (fun p => (pair_len p : Int) - (end_pos + 1))).getD 0 +
    (((List.range pairs.length).filter (fun (i : Nat) => decide (end_p < (i : Int)) &&
        decide ((i : Int) < start_p) &&
        ((pairs[i]?).map (fun p => bitset_intersects bs (pair_versions p))).getD false)).map
      (fun (i : Nat) => (((pairs[i]?).map pair_len).getD 0 : Int))).sum

/-- A match at the first character of "pear" in the pairs `p3`, `p4`, tracking {7,14}. -/
def advanceInput : Match :=
  match_set_versions (match_create 0 0 [p3, p4] 1) bs5

/-- A match with the suffix-tree offset 10 and the length 3. -/
def cloneInput : Match :=
  { match_set_st_offset (match_create 0 2 [p1] 0) 10 with end_pos := 4, len := 3 }

/-- A run of the version 1 with the given text. -/
def runOne (data : List Nat) : Pair := pair_create_basic {1} data

/-- Four runs of the version 1 with the lengths 1, 1, 5, 1. -/
def gapPairs : List Pair :=
  [runOne [97], runOne [98], runOne [99, 100, 101, 102, 103], runOne [104]]

/-- A match of length 1 that ends at the only character of the first run of `gapPairs`. -/
def gapFirst : Match :=
  { match_set_versions (match_create 0 0 gapPairs 3) {1} with len := 1 }

/-- A match that starts at the last run of `gapPairs`, at the suffix-tree offset 1. -/
def gapSecond : Match :=
  match_set_st_offset (match_set_versions (match_create 3 0 gapPairs 3) {1}) 1

/-- A match that ended at offset 1 of "banana", with the length 2 from the offset 5. -/
def sameFirst : Match :=
  { match_set_st_offset (match_create 0 0 [p1] 0) 5 with end_pos := 1, len := 2 }

/-- A match that starts at offset 3 of "banana", at the suffix-tree offset 8. -/
def sameSecond : Match := match_set_st_offset (match_create 0 3 [p1] 0) 8

/-- A suffix tree that accepts every character, with a single position. -/
def acceptAll : Unit → Nat → Option Unit := fun _ _ => some ()

/-- The storage of the test arrays of the repository: a single 0 after the text of every
run. -/
def zeroTerminated : Int → List Nat := fun _ => [0]

/-- A match at the last character of "pear", the only run. -/
def lastCharInput : Match :=
  { match_set_versions (match_create 0 3 [p3] 0) bs5 with len := 0 }

/-- A match that ended in the same run in which `overflowSecond` starts, with the
suffix-tree offset `INT_MAX` and the length 1. -/
def overflowFirst : Match :=
  { match_set_st_offset (match_create 0 0 [p1] 0) 2147483647 with len := 1 }

/-- A match with the suffix-tree offset `-INT_MAX`. -/
def overflowSecond : Match := match_set_st_offset (match_create 0 0 [p1] 0) (-2147483647)

/-- A match that ended at offset 1 of "banana". -/
def farFirst : Match := { match_create 0 0 [p1] 0 with end_pos := 1 }

/-- A match that `match_create` makes with the start offset `INT_MIN`. -/
def farSecond : Match := match_create 0 (-2147483648) [p1] 0

/-- The match `advanceInput` after `match_single` has accepted the first character of
"orange" and met the end of the pairs. -/
def advanceFinal : Match :=
  match_set_versions { advanceInput with prev_p := 1, prev_pos := 0, end_p := 1, len := 1 }
    (bitset_and bs5 (pair_versions p4))

/-! ## Chains of matches -/

/-- The store of all allocated `match` objects, addressed by index: the field `next` of a
match is an address in it. -/
abbrev MatchHeap := List Match

/-- `MChain mh p l`: following `next` from the pointer `p` visits the matches at the
addresses `l` in this order and then meets `NULL`. -/
def MChain (mh : MatchHeap) : Option Nat → List Nat → Prop
  | p, [] => p = none
  | p, a :: rest => p = some a ∧
    match mh[a]? with
    | none => False
    | some m => MChain mh m.next rest

instance MChain.decide (mh : MatchHeap) : (p : Option Nat) → (l : List Nat) →
    Decidable (MChain mh p l)
  | p, [] => inferInstanceAs (Decidable (p = none))
  | p, a :: rest =>
    match hc : mh[a]? with
    | none => isFalse (fun h => by simp only [MChain, hc] at h; exact h.2)
    | some m =>
      match MChain.decide mh m.next rest with
      | isTrue hr =>
        if hp : p = some a then isTrue (by simp only [MChain, hc]; exact ⟨hp, hr⟩)
        else isFalse (fun h => hp h.1)
      | isFalse hr => isFalse (fun h => by simp only [MChain, hc] at h; exact hr h.2)

/-- A match that starts at offset 0 of "banana", before the end of `sameFirst` at offset
1, at the suffix-tree offset 8. -/
def backSecond : Match := match_set_st_offset (match_create 0 0 [p1] 0) 8

/-- The pointer reached from `p` by following `right` links `k` times. -/
def right_steps (h : Heap) : Nat → Option Nat → Option Nat
  | 0, p => p
  | k + 1, p =>
    match p with
    | none => none
    | some a => right_steps h k ((h[a]?).bind LinkPair.right)

/-- A heap with a child run at address 0 and a parent run at address 1, both with the
text "apple" and each a list of one node. -/
def childHeap : Heap :=
  [ { p := { p2 with kind := PairKind.child }, left := none, right := none, st_off := 0 },
    { p := { p2 with kind := PairKind.parent }, left := none, right := none, st_off := 0 } ]

/-! ## The check for circular lists -/

/-- Modelled from the spec: the content of the key buffer handed to the absent
`hashmap.c`. The check is "address-based cycle detection via an identity hashmap" over
string-formatted addresses: a key is the text that `snprintf` with `%lx` makes of a
pointer (two pointers have the same text exactly when they are equal, `NULL` prints as
`0`), or some other content of the buffer. -/
inductive Key where
  | text (ptr : Option Nat)
  | other (n : Nat)
  deriving DecidableEq

/-- Modelled from the spec: `ascii_to_uchar` of the absent sources, applied to the text of
the pointer `ptr`: the same text as a `UChar` string. -/
def ascii_to_uchar (ptr : Option Nat) : Key := Key.text ptr

/-- Modelled from the spec: the `hashmap` of the absent `hashmap.c`, used as the set of
the keys put so far (the value stored is always the text "junk"). -/
abbrev HashMap := List Key

/-- Modelled from the spec: `hashmap_create` of the absent `hashmap.c`, an empty map. -/
def hashmap_create : HashMap := []

/-- Modelled from the spec: `hashmap_put` of the absent `hashmap.c`. -/
def hashmap_put (hm : HashMap) (key : Key) : HashMap := key :: hm

/-- Modelled from the spec: `hashmap_contains` of the absent `hashmap.c`. -/
def hashmap_contains (hm : HashMap) (key : Key) : Bool := decide (key ∈ hm)

/-- The two loops of `linkpair_list_circular` are the same code but for the link they
follow (`dir` is `right` in the first and `left` in the second): the walk stops with
`res = 1` at a pointer whose key is in the map, and with `res` unchanged at `NULL`. The
result is `res` and the map. An iteration that goes on has put the key of one more
allocated cell, so `h.length + 1` iterations are never used up. -/
def linkpair_list_circular_loop (dir : LinkPair → Option Nat) :
    Nat → Heap → HashMap → Option Nat → Option (Bool × HashMap)
  | 0, _, _, _ => none
  | _ + 1, _, hm, none => some (false, hm)
  | fuel + 1, h, hm, some a =>
    if hashmap_contains hm (ascii_to_uchar (some a)) then some (true, hm)
    else
      match h[a]? with
      | none => none
      | some nd =>
        linkpair_list_circular_loop dir fuel h (hashmap_put hm (ascii_to_uchar (some a))) (dir nd)

/-- The function `linkpair_list_circular`. Before the first loop the source calls
`u_print( key, ckey, strlen(ckey) )`, where `ckey` holds the text of `lp->right`, and puts
`key` into the map; `u_print` is not among the sources (the loops fill `key` with another
function, `ascii_to_uchar`), and the content of `key` after that call, for a given
pointer, is the parameter `u_print`. The second loop is skipped when the first one has
set `res`. -/
def linkpair_list_circular (u_print : Option Nat → Key) (h : Heap) (lp : Nat) : Option Bool :=
  match h[lp]? with
  | none => none
  | some n =>
    match linkpair_list_circular_loop LinkPair.right (h.length + 1) h
        (hashmap_put hashmap_create (u_print n.right)) n.right with
    | none => none
    | some (true, _) => some true
    | some (false, hm) =>
      match linkpair_list_circular_loop LinkPair.left (h.length + 1) h hm n.left with
      | none => none
      | some (res, _) => some res

/-- The allocated addresses whose key is not in the map. -/
def unvisited (h : Heap) (hm : HashMap) : Finset Nat :=
  (Finset.range h.length).filter (fun a => ascii_to_uchar (some a) ∉ hm)

/-- The list of the spec's example closed into a ring by right links: the right link of
the last node `p4` (address 3) is set to the earlier node `p2` (address 1). -/
def ringHeap : Heap :=
  [ { p := p1, left := none, right := some 1, st_off := 0 },
    { p := p2, left := some 0, right := some 2, st_off := 0 },
    { p := p3, left := some 1, right := some 3, st_off := 0 },
    { p := p4, left := some 2, right := some 1, st_off := 0 } ]

/-- The list of the spec's example closed into a ring by left links only: the left link
of the first node `p1` (address 0) is set to the later node `p3` (address 2). -/
def leftRingHeap : Heap :=
  [ { p := p1, left := some 2, right := some 1, st_off := 0 },
    { p := p2, left := some 0, right := some 2, st_off := 0 },
    { p := p3, left := some 1, right := some 3, st_off := 0 },
    { p := p4, left := some 2, right := none, st_off := 0 } ]

/-! ## The diagnostic log (`plugin_log.c`) -/

/-- The `struct plugin_log_struct` of `plugin_log.c`: the bytes of the caller's buffer
that `scratch` points to, and `pos`. -/
structure PluginLog where
  scratch : List Nat
  pos : Int
  deriving DecidableEq

/-- The C library's `strlen` on the bytes at a `char` pointer: the number of bytes before
the first 0. -/
def strlen (s : List Nat) : Nat := (s.takeWhile (fun c => c ≠ 0)).length

/-- The C library's `memcpy( &buf[at_], src, n )`. A write outside the buffer is undefined
behaviour and the result `none`. -/
def memcpy (buf : List Nat) (at_ : Int) (src : List Nat) (n : Nat) : Option (List Nat) :=
  if 0 ≤ at_ ∧ at_.toNat + n ≤ buf.length ∧ n ≤ src.length then
    some (buf.take at_.toNat ++ src.take n ++ buf.drop (at_.toNat + n))
  else none

/-- The assignment `buf[at_] = b`. A write outside the buffer is undefined behaviour and
the result `none`. -/
def store (buf : List Nat) (at_ : Int) (b : Nat) : Option (List Nat) :=
  if 0 ≤ at_ ∧ at_.toNat < buf.length then some (buf.set at_.toNat b) else none

/-- The C library's `vsnprintf( str, size, fmt, ap )`, as the bytes it leaves in `str`:
`rendered` is the text that `fmt` expands to with the arguments `ap`; at most `size - 1`
bytes of it are stored, followed by 0. -/
def vsnprintf (size : Nat) (rendered : List Nat) : List Nat := rendered.take (size - 1) ++ [0]

/-- The function `plugin_log_create`: `calloc` zeroes `pos`, `scratch` is the buffer. -/
def plugin_log_create (buffer : List Nat) : PluginLog := { scratch := buffer, pos := 0 }

/-- The function `plugin_log_pos`. -/
def plugin_log_pos (log : PluginLog) : Int := log.pos

/-- The function `plugin_log_add`. The macro `SCRATCH_LEN` is not defined in the sources
and is a parameter; `rendered` stands for the expansion of `fmt` with the variable
arguments. The byte 37 is the character `%`. The sum `strlen(str)+log->pos` is that of the
integers (a `pos` that is not negative and the length of a string in memory do not wrap
in `size_t`). -/
def plugin_log_add (SCRATCH_LEN : Nat) (log : PluginLog) (fmt rendered : List Nat) :
    Option PluginLog :=
  let fmt_len := strlen fmt
  let nconvs := (fmt.take fmt_len).count 37
  if nconvs > 0 then
    let str := vsnprintf 128 rendered
    if (strlen str : Int) + log.pos < (SCRATCH_LEN : Int) then
      match memcpy log.scratch log.pos str (strlen str) with
      | none => none
      | some s1 =>
        match store s1 (log.pos + (strlen str : Int)) 0 with
        | none => none
        | some s2 => some { scratch := s2, pos := log.pos + (strlen str : Int) }
    else some log
  else
    if (strlen fmt : Int) + log.pos < (SCRATCH_LEN : Int) then
      match memcpy log.scratch log.pos fmt (strlen fmt) with
      | none => none
      | some s1 =>
        match store s1 (log.pos + (strlen fmt : Int)) 0 with
        | none => none
        | some s2 => some { scratch := s2, pos := log.pos + (strlen fmt : Int) }
    else some log

/-- The function `plugin_log_clear`. -/
def plugin_log_clear (log : PluginLog) : Option PluginLog :=
  match store log.scratch 0 0 with
  | none => none
  | some s => some { scratch := s, pos := 0 }

/-- The function `plugin_log_buffer`. -/
def plugin_log_buffer (log : PluginLog) : List Nat := log.scratch

/-- The text that `plugin_log_add` has to append: the bytes of `str` before its
terminator when `fmt` has a `%`, those of `fmt` otherwise. -/
def log_text (fmt rendered : List Nat) : List Nat :=
  if (fmt.take (strlen fmt)).count 37 > 0 then
    (vsnprintf 128 rendered).take (strlen (vsnprintf 128 rendered))
  else fmt.take (strlen fmt)

/-- A call on the log: `plugin_log_add` with a format and its expansion, or
`plugin_log_clear`. -/
inductive LogCall where
  | add (fmt rendered : List Nat)
  | clear

/-- One call on the log. -/
def plugin_log_call (SCRATCH_LEN : Nat) (log : PluginLog) : LogCall → Option PluginLog
  | LogCall.add fmt rendered => plugin_log_add SCRATCH_LEN log fmt rendered
  | LogCall.clear => plugin_log_clear log

/-- A sequence of calls on the log, with the state after every call. An out-of-bounds
write in any call makes the whole result `none`. -/
def plugin_log_calls (SCRATCH_LEN : Nat) : PluginLog → List LogCall → Option (List PluginLog)
  | _, [] => some []
  | log, c :: cs =>
    match plugin_log_call SCRATCH_LEN log c with
    | none => none
    | some log1 =>
      match plugin_log_calls SCRATCH_LEN log1 cs with
      | none => none
      | some rest => some (log1 :: rest)

/-- The format "%s". -/
def fmtS : List Nat := [37, 115, 0]

/-- The format "match: failed to create match object\n" of `match.c`, as its first bytes
"match: failed". -/
def fmtPlain : List Nat := [109, 97, 116, 99, 104, 58, 32, 102, 97, 105, 108, 101, 100, 0]

/-- The bounds of a log over a buffer of `SCRATCH_LEN` bytes: `0 ≤ pos < SCRATCH_LEN`. -/
def LogInv (SCRATCH_LEN : Nat) (log : PluginLog) : Prop :=
  0 ≤ log.pos ∧ log.pos < (SCRATCH_LEN : Int) ∧ log.scratch.length = SCRATCH_LEN

instance LogInv.decide (SCRATCH_LEN : Nat) (log : PluginLog) :
    Decidable (LogInv SCRATCH_LEN log) :=
  inferInstanceAs (Decidable (_ ∧ _ ∧ _))

/-- How `pos` may move in one call: `plugin_log_add` does not decrease it,
`plugin_log_clear` sets it to 0. -/
def LogStep (before : PluginLog) (c : LogCall) (after : PluginLog) : Prop :=
  match c with
  | LogCall.add _ _ => before.pos ≤ after.pos
  | LogCall.clear => after.pos = 0

instance LogStep.decide (before : PluginLog) (c : LogCall) (after : PluginLog) :
    Decidable (LogStep before c after) :=
  match c with
  | LogCall.add _ _ => inferInstanceAs (Decidable (before.pos ≤ after.pos))
  | LogCall.clear => inferInstanceAs (Decidable (after.pos = 0))

/-- `LogSteps log calls states`: every call moves `pos` as `LogStep` says, from the state
before it to the state after it. -/
def LogSteps : PluginLog → List LogCall → List PluginLog → Prop
  | _, [], _ => True
  | _, _ :: _, [] => True
  | log, c :: cs, log1 :: rest => LogStep log c log1 ∧ LogSteps log1 cs rest

instance LogSteps.decide : (log : PluginLog) → (calls : List LogCall) →
    (states : List PluginLog) → Decidable (LogSteps log calls states)
  | _, [], _ => isTrue trivial
  | _, _ :: _, [] => isTrue trivial
  | log, c :: cs, log1 :: rest =>
    match LogSteps.decide log1 cs rest with
    | isTrue hr =>
      if hl : LogStep log c log1 then isTrue ⟨hl, hr⟩ else isFalse (fun hc => hl hc.1)
    | isFalse hr => isFalse (fun hc => hr hc.2)

/-! ## Lemmas on heaps and segments -/

theorem links_eq_some {h : Heap} {a : Nat} {x y : Option Nat} :
    links h a = some (x, y) ↔ ∃ nd, h[a]? = some nd ∧ nd.left = x ∧ nd.right = y := by
  unfold links
  cases hc : h[a]? with
  | none => simp
  | some nd => simp

theorem links_of_get {h : Heap} {a : Nat} {nd : LinkPair} (hc : h[a]? = some nd) :
    links h a = some (nd.left, nd.right) := by
  simp [links, hc]

theorem lt_of_get {h : Heap} {a : Nat} {nd : LinkPair} (hc : h[a]? = some nd) :
    a < h.length := by
  by_contra hlt
  rw [List.getElem?_eq_none (by omega)] at hc
  cases hc

theorem links_set (h : Heap) (a b : Nat) (nd : LinkPair) :
    links (h.set a nd) b =
      if a = b then (if a < h.length then some (nd.left, nd.right) else none) else links h b := by
  unfold links
  rw [List.getElem?_set]
  split_ifs <;> simp

theorem Seg_congr {h h1 : Heap} :
    ∀ (l : List Nat) (prev next : Option Nat), (∀ a ∈ l, links h1 a = links h a) →
      (Seg h1 prev l next ↔ Seg h prev l next)
  | [], _, _, _ => by simp [Seg]
  | a :: rest, prev, next, hl => by
    have h1a : links h1 a = links h a := hl a (by simp)
    have ih := Seg_congr rest (some a) next (fun b hb => hl b (by simp [hb]))
    simp [Seg, h1a, ih]

theorem Seg_set_of_not_mem {h : Heap} {l : List Nat} {prev next : Option Nat} {a : Nat}
    {nd : LinkPair} (ha : a ∉ l) : Seg (h.set a nd) prev l next ↔ Seg h prev l next := by
  apply Seg_congr
  intro b hb
  have : a ≠ b := fun e => ha (e ▸ hb)
  simp [links_set, this]

theorem Seg_lt {h : Heap} : ∀ {l : List Nat} {prev next : Option Nat},
    Seg h prev l next → ∀ a ∈ l, a < h.length
  | [], _, _, _ => by simp
  | b :: rest, prev, next, hs => by
    intro a ha
    obtain ⟨hb, hrest⟩ := hs
    rcases List.mem_cons.1 ha with e | e
    · obtain ⟨nd, hnd, _⟩ := links_eq_some.1 hb
      exact e ▸ lt_of_get hnd
    · exact Seg_lt hrest a e

theorem links_append_of_lt {h : Heap} {a : Nat} (x : LinkPair) (ha : a < h.length) :
    links (h ++ [x]) a = links h a := by
  simp [links, List.getElem?_append_left ha]

theorem Seg_append_heap {h : Heap} {l : List Nat} {prev next : Option Nat} (x : LinkPair)
    (hs : Seg h prev l next) : Seg (h ++ [x]) prev l next := by
  refine (Seg_congr l prev next ?_).2 hs
  intro a ha
  exact links_append_of_lt x (Seg_lt hs a ha)

theorem headOr_append (l1 l2 : List Nat) (next : Option Nat) :
    headOr (l1 ++ l2) next = headOr l1 (headOr l2 next) := by
  cases l1 <;> simp [headOr]

theorem lastOr_cons (a : Nat) (l : List Nat) (prev : Option Nat) :
    lastOr (a :: l) prev = lastOr l (some a) := rfl

theorem lastOr_nil (prev : Option Nat) : lastOr [] prev = prev := rfl

theorem lastOr_concat : ∀ (l : List Nat) (a : Nat) (prev : Option Nat),
    lastOr (l ++ [a]) prev = some a
  | [], _, _ => rfl
  | b :: t, a, _ => lastOr_concat t a (some b)

theorem Seg_append {h : Heap} : ∀ (l1 l2 : List Nat) (prev next : Option Nat),
    Seg h prev (l1 ++ l2) next ↔
      Seg h prev l1 (headOr l2 next) ∧ Seg h (lastOr l1 prev) l2 next
  | [], l2, prev, next => by simp [Seg, lastOr_nil]
  | a :: rest, l2, prev, next => by
    have ih := @Seg_append h rest l2 (some a) next
    have e : headOr (rest ++ l2) next = headOr rest (headOr l2 next) := headOr_append _ _ _
    show (links h a = some (prev, headOr (rest ++ l2) next) ∧ Seg h (some a) (rest ++ l2) next) ↔
      (links h a = some (prev, headOr rest (headOr l2 next)) ∧
        Seg h (some a) rest (headOr l2 next)) ∧ Seg h (lastOr rest (some a)) l2 next
    rw [e, ih]
    tauto

theorem Seg_concat {h : Heap} (l : List Nat) (a : Nat) (prev next : Option Nat) :
    Seg h prev (l ++ [a]) next ↔
      Seg h prev l (some a) ∧ links h a = some (lastOr l prev, next) := by
  rw [Seg_append]
  simp [Seg, headOr]

theorem modify_eq {h : Heap} {a : Nat} {nd : LinkPair} (f : LinkPair → LinkPair)
    (hc : h[a]? = some nd) : modify h a f = some (h.set a (f nd)) := by
  simp [modify, hc]

theorem get_set_self {h : Heap} {a : Nat} {nd : LinkPair} (x : LinkPair)
    (hc : h[a]? = some nd) : (h.set a x)[a]? = some x := by
  simp [List.getElem?_set, lt_of_get hc]

theorem get_set_ne {h : Heap} {a b : Nat} (x : LinkPair) (hne : a ≠ b) :
    (h.set a x)[b]? = h[b]? := by
  simp [List.getElem?_set, hne]

theorem links_congr_get {h h1 : Heap} {b : Nat} (e : h1[b]? = h[b]?) :
    links h1 b = links h b := by
  simp [links, e]

theorem Seg_of_frame {h h1 : Heap} {l : List Nat} {prev next : Option Nat}
    (hf : ∀ b ∈ l, h1[b]? = h[b]?) (hs : Seg h prev l next) : Seg h1 prev l next :=
  (Seg_congr l prev next (fun b hb => links_congr_get (hf b hb))).2 hs

/-- Redirecting the right link of the last cell of a segment. -/
theorem Seg_relink_right {h : Heap} {l : List Nat} {prev nx : Option Nat} (nx1 : Option Nat)
    (hs : Seg h prev l nx) (hnd : l.Nodup) :
    ∃ h1, modifyIfPresent h (lastOr l none) (fun x => { x with right := nx1 }) = some h1 ∧
      Seg h1 prev l nx1 ∧ h1.length = h.length ∧ (∀ b : Nat, b ∉ l → h1[b]? = h[b]?) ∧
      (∀ b : Nat, (h1[b]?).map LinkPair.p = (h[b]?).map LinkPair.p) := by
  rcases List.eq_nil_or_concat l with e | ⟨t, p, e⟩
  · subst e
    exact ⟨h, by simp [modifyIfPresent, lastOr], trivial, rfl, fun _ _ => rfl, fun _ => rfl⟩
  · rw [List.concat_eq_append] at e
    subst e
    obtain ⟨hst, hp⟩ := (Seg_concat t p prev nx).1 hs
    obtain ⟨pn, hpn, hpl, _⟩ := links_eq_some.1 hp
    have hpt : p ∉ t := by
      have := List.nodup_append.1 hnd
      intro hm
      exact this.2.2 hm (by simp)
    refine ⟨h.set p { pn with right := nx1 }, ?_, ?_, by simp, ?_, ?_⟩
    · simp [modifyIfPresent, lastOr_concat, modify_eq _ hpn]
    · rw [Seg_concat]
      refine ⟨(Seg_set_of_not_mem hpt).2 hst, ?_⟩
      simp [links_set, lt_of_get hpn, hpl]
    · intro b hb
      have : p ≠ b := by
        intro e
        exact hb (by simp [e])
      exact get_set_ne _ this
    · intro b
      by_cases e : p = b
      · subst e
        simp [get_set_self _ hpn, hpn]
      · simp [get_set_ne _ e]

/-- Redirecting the left link of the first cell of a segment. -/
theorem Seg_relink_left {h : Heap} {l : List Nat} {prev next : Option Nat} (pv1 : Option Nat)
    (hs : Seg h prev l next) (hnd : l.Nodup) :
    ∃ h1, modifyIfPresent h (headOr l none) (fun x => { x with left := pv1 }) = some h1 ∧
      Seg h1 pv1 l next ∧ h1.length = h.length ∧ (∀ b : Nat, b ∉ l → h1[b]? = h[b]?) ∧
      (∀ b : Nat, (h1[b]?).map LinkPair.p = (h[b]?).map LinkPair.p) := by
  cases l with
  | nil => exact ⟨h, by simp [modifyIfPresent, headOr], trivial, rfl, fun _ _ => rfl, fun _ => rfl⟩
  | cons a t =>
    obtain ⟨ha, hst⟩ := hs
    obtain ⟨an, han, _, har⟩ := links_eq_some.1 ha
    have hat : a ∉ t := (List.nodup_cons.1 hnd).1
    refine ⟨h.set a { an with left := pv1 }, ?_, ?_, by simp, ?_, ?_⟩
    · simp [modifyIfPresent, headOr, modify_eq _ han]
    · refine ⟨?_, (Seg_set_of_not_mem hat).2 hst⟩
      simp [links_set, lt_of_get han, har]
    · intro b hb
      have : a ≠ b := by
        intro e
        exact hb (by simp [e])
      exact get_set_ne _ this
    · intro b
      by_cases e : a = b
      · subst e
        simp [get_set_self _ han, han]
      · simp [get_set_ne _ e]

theorem list_len_loop_of_Seg {h : Heap} : ∀ (l : List Nat) (prev : Option Nat) (fuel len : Nat),
    Seg h prev l none → l.length < fuel →
      linkpair_list_len_loop fuel h (headOr l none) len = some (len + l.length)
  | [], _, fuel, len, _, hf => by
    obtain ⟨k, rfl⟩ : ∃ k, fuel = k + 1 := ⟨fuel - 1, by simp at hf; omega⟩
    simp [headOr, linkpair_list_len_loop]
  | a :: rest, prev, fuel, len, hs, hf => by
    obtain ⟨k, rfl⟩ : ∃ k, fuel = k + 1 := ⟨fuel - 1, by simp at hf; omega⟩
    obtain ⟨ha, hst⟩ := hs
    obtain ⟨an, han, _, har⟩ := links_eq_some.1 ha
    have ih := list_len_loop_of_Seg rest (some a) k (len + 1) hst (by simp at hf; omega)
    have e : linkpair_list_len_loop (k + 1) h (some a) len =
        linkpair_list_len_loop k h (headOr rest none) (len + 1) := by
      simp [linkpair_list_len_loop, han, har]
    show linkpair_list_len_loop (k + 1) h (some a) len = _
    rw [e, ih]
    simp only [List.length_cons, Option.some.injEq]
    omega

theorem to_pairs_loop_of_Seg {h : Heap} : ∀ (l : List Nat) (prev : Option Nat) (fuel : Nat)
    (da : List Pair), Seg h prev l none → l.length < fuel →
      linkpair_to_pairs_loop fuel h (headOr l none) da = some (da ++ runs h l)
  | [], _, fuel, da, _, hf => by
    obtain ⟨k, rfl⟩ : ∃ k, fuel = k + 1 := ⟨fuel - 1, by simp at hf; omega⟩
    simp [headOr, linkpair_to_pairs_loop, runs]
  | a :: rest, prev, fuel, da, hs, hf => by
    obtain ⟨k, rfl⟩ : ∃ k, fuel = k + 1 := ⟨fuel - 1, by simp at hf; omega⟩
    obtain ⟨ha, hst⟩ := hs
    obtain ⟨an, han, _, har⟩ := links_eq_some.1 ha
    have ih := to_pairs_loop_of_Seg rest (some a) k (da ++ [an.p]) hst (by simp at hf; omega)
    have e : linkpair_to_pairs_loop (k + 1) h (some a) da =
        linkpair_to_pairs_loop k h (headOr rest none) (da ++ [an.p]) := by
      simp [linkpair_to_pairs_loop, han, har]
    show linkpair_to_pairs_loop (k + 1) h (some a) da = _
    rw [e, ih]
    simp [runs, han]

theorem length_le_of_nodup_lt {l : List Nat} {n : Nat} (hnd : l.Nodup) (hlt : ∀ a ∈ l, a < n) :
    l.length ≤ n := by
  have hsub : l.toFinset ⊆ Finset.range n := by
    intro a ha
    simp only [List.mem_toFinset] at ha
    simpa using hlt a ha
  have := Finset.card_le_card hsub
  rwa [List.toFinset_card_of_nodup hnd, Finset.card_range] at this

theorem IsList.length_le {h : Heap} {l : List Nat} (hl : IsList h l) : l.length ≤ h.length :=
  length_le_of_nodup_lt hl.1 (Seg_lt hl.2)

theorem list_len_of_IsList {h : Heap} {l : List Nat} (hl : IsList h l) :
    linkpair_list_len h (headOr l none) = some l.length := by
  have := list_len_loop_of_Seg l none (h.length + 1) 0 hl.2 (by have := hl.length_le; omega)
  simpa [linkpair_list_len] using this

theorem to_pairs_of_IsList {h : Heap} {l : List Nat} (hl : IsList h l) :
    linkpair_to_pairs h (headOr l none) = some (runs h l) := by
  have := to_pairs_loop_of_Seg l none (h.length + 1) [] hl.2 (by have := hl.length_le; omega)
  simp [linkpair_to_pairs, list_len_of_IsList hl, this]

/-- Cutting a well-formed list at one of its nodes. -/
theorem IsList.cut {h : Heap} {l : List Nat} {n : Nat} (hl : IsList h l) (hn : n ∈ l) :
    ∃ l1 l2 nd, l = l1 ++ n :: l2 ∧ l1.Nodup ∧ l2.Nodup ∧ n ∉ l1 ∧ n ∉ l2 ∧
      (∀ a ∈ l1, a ∉ l2) ∧ Seg h none l1 (some n) ∧ Seg h (some n) l2 none ∧
      h[n]? = some nd ∧ nd.left = lastOr l1 none ∧ nd.right = headOr l2 none := by
  obtain ⟨l1, l2, rfl⟩ := List.append_of_mem hn
  obtain ⟨hnd, hs⟩ := hl
  obtain ⟨hs1, hs2⟩ := (Seg_append l1 (n :: l2) none none).1 hs
  obtain ⟨hln, hs3⟩ := hs2
  obtain ⟨nd, hnd1, hl1, hr1⟩ := links_eq_some.1 hln
  obtain ⟨d1, d2, d3⟩ := List.nodup_append.1 hnd
  obtain ⟨d4, d5⟩ := List.nodup_cons.1 d2
  refine ⟨l1, l2, nd, rfl, d1, d5, ?_, d4, ?_, hs1, hs3, hnd1, hl1, hr1⟩
  · intro hm
    exact d3 hm (by simp)
  · intro a ha hm
    exact d3 ha (by simp [hm])

theorem nodup_middle {l1 l2 : List Nat} {n : Nat} (d1 : l1.Nodup) (d2 : l2.Nodup)
    (n1 : n ∉ l1) (n2 : n ∉ l2) (dj : ∀ a ∈ l1, a ∉ l2) : (l1 ++ n :: l2).Nodup := by
  rw [List.nodup_append]
  refine ⟨d1, List.nodup_cons.2 ⟨n2, d2⟩, ?_⟩
  intro a ha hb
  rcases List.mem_cons.1 hb with e | e
  · exact n1 (e ▸ ha)
  · exact dj a ha e

theorem replaceAddr_of_not_mem {l : List Nat} {old : Nat} (new : Nat) (ho : old ∉ l) :
    replaceAddr l old new = l := by
  unfold replaceAddr
  conv_rhs => rw [← List.map_id l]
  apply List.map_congr_left
  intro a ha
  have : a ≠ old := fun e => ho (e ▸ ha)
  simp [this]

theorem replaceAddr_middle {l1 l2 : List Nat} {old : Nat} (new : Nat) (h1 : old ∉ l1)
    (h2 : old ∉ l2) : replaceAddr (l1 ++ old :: l2) old new = l1 ++ new :: l2 := by
  have e1 := replaceAddr_of_not_mem new h1
  have e2 := replaceAddr_of_not_mem new h2
  unfold replaceAddr at *
  simp [e1, e2]

/-- The effect of `linkpair_replace` on a well-formed list cut at `old`. -/
theorem replace_cut {h : Heap} {l1 l2 : List Nat} {old new : Nat} {od nn : LinkPair}
    (d1 : l1.Nodup) (d2 : l2.Nodup) (o1 : old ∉ l1) (o2 : old ∉ l2)
    (dj : ∀ a ∈ l1, a ∉ l2) (s1 : Seg h none l1 (some old)) (s2 : Seg h (some old) l2 none)
    (hod : h[old]? = some od) (hol : od.left = lastOr l1 none) (hor : od.right = headOr l2 none)
    (n1 : new ∉ l1) (n2 : new ∉ l2) (hne : new ≠ old) (hnn : h[new]? = some nn) :
    ∃ h5, linkpair_replace h old new = some h5 ∧ IsList h5 (l1 ++ new :: l2) ∧
      links h5 new = some (od.left, od.right) ∧ links h5 old = some (none, none) ∧
      (∀ b : Nat, (h5[b]?).map LinkPair.p = (h[b]?).map LinkPair.p) := by
  obtain ⟨h1, e1, t1, _, f1, p1⟩ := Seg_relink_right (some new) s1 d1
  have s2a : Seg h1 (some old) l2 none :=
    Seg_of_frame (fun b hb => f1 b (fun hm => dj b hm hb)) s2
  obtain ⟨h2, e2, t2, _, f2, p2⟩ := Seg_relink_left (some new) s2a d2
  have t1a : Seg h2 none l1 (some new) := Seg_of_frame (fun b hb => f2 b (dj b hb)) t1
  have ho1 : h1[old]? = some od := (f1 old o1).trans hod
  have ho2 : h2[old]? = some od := (f2 old o2).trans ho1
  have hn2 : h2[new]? = some nn := ((f2 new n2).trans (f1 new n1)).trans hnn
  rw [← hol] at e1
  rw [← hor] at e2
  have hne1 : old ≠ new := fun e => hne e.symm
  have hn3 := get_set_self { nn with right := od.right } hn2
  have ho3 : (h2.set new { nn with right := od.right })[old]? = some od :=
    (get_set_ne _ hne).trans ho2
  have hn4 := get_set_self { nn with right := od.right, left := od.left } hn3
  have ho4 := (get_set_ne { nn with right := od.right, left := od.left } hne).trans ho3
  have hl2 := lt_of_get hn2
  have hl2o := lt_of_get ho2
  refine ⟨((h2.set new { nn with right := od.right }).set new
      { nn with right := od.right, left := od.left }).set old
      { od with left := none, right := none }, ?_, ⟨?_, ?_⟩, ?_, ?_, ?_⟩
  · simp only [linkpair_replace, Option.bind_eq_bind, Option.some_bind, hod, e1, ho1, e2, ho2,
      modify_eq _ hn2, ho3, modify_eq _ hn3, modify_eq _ ho4]
  · exact nodup_middle d1 d2 n1 n2 dj
  · rw [Seg_append]
    refine ⟨?_, ?_, ?_⟩
    · rw [Seg_set_of_not_mem o1, Seg_set_of_not_mem n1, Seg_set_of_not_mem n1]
      exact t1a
    · simp [links_set, hne, hne1, hl2, hl2o, hol, hor]
    · rw [Seg_set_of_not_mem o2, Seg_set_of_not_mem n2, Seg_set_of_not_mem n2]
      exact t2
  · simp [links_set, hne, hne1, hl2, hl2o]
  · simp [links_set, hne, hne1, hl2, hl2o]
  · intro b
    rw [← p1 b, ← p2 b]
    by_cases eo : old = b
    · subst eo
      rw [get_set_self _ ho4, ho2]
      rfl
    · rw [get_set_ne _ eo]
      by_cases en : new = b
      · subst en
        rw [hn4, hn2]
        rfl
      · rw [get_set_ne _ en, get_set_ne _ en]

theorem Seg_last_right {h : Heap} {l : List Nat} {prev nx : Option Nat} {a : Nat}
    (hs : Seg h prev l nx) (ha : lastOr l none = some a) :
    ∃ an, h[a]? = some an ∧ an.right = nx := by
  rcases List.eq_nil_or_concat l with e | ⟨t, p, e⟩
  · subst e
    simp [lastOr] at ha
  · rw [List.concat_eq_append] at e
    subst e
    rw [lastOr_concat] at ha
    obtain ⟨_, hp⟩ := (Seg_concat t p prev nx).1 hs
    obtain ⟨pn, hpn, _, hpr⟩ := links_eq_some.1 hp
    cases ha
    exact ⟨pn, hpn, hpr⟩

theorem Seg_head_left {h : Heap} {l : List Nat} {prev next : Option Nat} {a : Nat}
    (hs : Seg h prev l next) (ha : headOr l none = some a) :
    ∃ an, h[a]? = some an ∧ an.left = prev := by
  cases l with
  | nil => simp [headOr] at ha
  | cons b t =>
    simp only [headOr, Option.some.injEq] at ha
    subst ha
    obtain ⟨an, han, hal, _⟩ := links_eq_some.1 hs.1
    exact ⟨an, han, hal⟩

theorem IsList.parts {h : Heap} {l1 l2 : List Nat} {n : Nat} (hl : IsList h (l1 ++ n :: l2)) :
    Seg h none l1 (some n) ∧ links h n = some (lastOr l1 none, headOr l2 none) ∧
      Seg h (some n) l2 none := by
  obtain ⟨hs1, hs2, hs3⟩ := (Seg_append l1 (n :: l2) none none).1 hl.2
  exact ⟨hs1, hs2, hs3⟩

theorem runs_congr {h h1 : Heap} {l : List Nat}
    (hp : ∀ b ∈ l, (h1[b]?).map LinkPair.p = (h[b]?).map LinkPair.p) : runs h1 l = runs h l := by
  induction l with
  | nil => rfl
  | cons a t ih =>
    have e := hp a (by simp)
    have ih1 := ih (fun b hb => hp b (by simp [hb]))
    unfold runs at *
    simp only [List.filterMap_cons, e, ih1]

theorem runs_middle {h : Heap} {l1 l2 : List Nat} {n : Nat} {nd : LinkPair}
    (hn : h[n]? = some nd) : runs h (l1 ++ n :: l2) = runs h l1 ++ nd.p :: runs h l2 := by
  simp [runs, List.filterMap_append, hn]

/-- The effect of `linkpair_split` on a well-formed list cut at an ordinary run `n`. -/
theorem split_cut {h : Heap} {l1 l2 : List Nat} {n k : Nat} {nd : LinkPair}
    (d1 : l1.Nodup) (d2 : l2.Nodup) (o1 : n ∉ l1) (o2 : n ∉ l2)
    (dj : ∀ a ∈ l1, a ∉ l2) (s1 : Seg h none l1 (some n)) (s2 : Seg h (some n) l2 none)
    (hn : h[n]? = some nd) (hnl : nd.left = lastOr l1 none) (hnr : nd.right = headOr l2 none)
    (hord : pair_is_ordinary nd.p = true) :
    ∃ h5 a b, linkpair_split h n k = some h5 ∧ IsList h5 (l1 ++ n :: h.length :: l2) ∧
      h5[n]? = some a ∧ h5[h.length]? = some b ∧
      a.p = { nd.p with data := nd.p.data.take k } ∧
      b.p = { nd.p with data := nd.p.data.drop k } ∧
      runs h5 l1 = runs h l1 ∧ runs h5 l2 = runs h l2 := by
  have hlt := lt_of_get hn
  have r1 : h.length ∉ l1 := fun hm => absurd (Seg_lt s1 _ hm) (by omega)
  have r2 : h.length ∉ l2 := fun hm => absurd (Seg_lt s2 _ hm) (by omega)
  have hnr0 : n ≠ h.length := by omega
  have hnr1 : h.length ≠ n := by omega
  -- the run of `n` is cut, the new cell is allocated
  let c : LinkPair :=
    { p := { nd.p with data := nd.p.data.drop k }, left := none, right := none, st_off := 0 }
  let nd0 : LinkPair := { nd with p := { nd.p with data := nd.p.data.take k } }
  have hl0 : (h.set n nd0).length = h.length := by simp
  have g1n : (h.set n nd0 ++ [c])[n]? = some nd0 := by
    rw [List.getElem?_append_left (by simp [hlt])]
    exact get_set_self _ hn
  have g1r : (h.set n nd0 ++ [c])[h.length]? = some c := by
    have := List.getElem?_concat_length (h.set n nd0) c
    rwa [hl0] at this
  have fr1 : ∀ b : Nat, b ≠ n → b < h.length → (h.set n nd0 ++ [c])[b]? = h[b]? := by
    intro b hb hbl
    rw [List.getElem?_append_left (by simp [hbl])]
    exact get_set_ne _ (fun e => hb e.symm)
  have s1a : Seg (h.set n nd0 ++ [c]) none l1 (some n) :=
    Seg_of_frame (fun b hb => fr1 b (fun e => o1 (e ▸ hb)) (Seg_lt s1 b hb)) s1
  have s2a : Seg (h.set n nd0 ++ [c]) (some n) l2 none :=
    Seg_of_frame (fun b hb => fr1 b (fun e => o2 (e ▸ hb)) (Seg_lt s2 b hb)) s2
  -- lp2->right = lp->right
  have g2r := get_set_self { c with right := nd.right } g1r
  have g2n : ((h.set n nd0 ++ [c]).set h.length { c with right := nd.right })[n]? = some nd0 :=
    (get_set_ne _ hnr1).trans g1n
  have s2b : Seg ((h.set n nd0 ++ [c]).set h.length { c with right := nd.right }) (some n) l2
      none := (Seg_set_of_not_mem r2).2 s2a
  -- lp2->right->left = lp2
  obtain ⟨h3, e3, t3, _, f3, p3⟩ := Seg_relink_left (some h.length) s2b d2
  rw [← hnr] at e3
  have g3n : h3[n]? = some nd0 := (f3 n o2).trans g2n
  have g3r : h3[h.length]? = some { c with right := nd.right } := (f3 _ r2).trans g2r
  -- lp->right = lp2, lp2->left = lp
  have g4r : (h3.set n { nd0 with right := some h.length })[h.length]? =
      some { c with right := nd.right } := (get_set_ne _ hnr0).trans g3r
  have l3n := lt_of_get g3n
  have l3r := lt_of_get g3r
  refine ⟨(h3.set n { nd0 with right := some h.length }).set h.length
      { c with right := nd.right, left := some n }, { nd0 with right := some h.length },
      { c with right := nd.right, left := some n }, ?_, ⟨?_, ?_⟩, ?_, ?_, rfl, rfl, ?_, ?_⟩
  · simp only [linkpair_split, Option.bind_eq_bind, Option.some_bind, hn, hord, if_true,
      pair_split, linkpair_create, hl0, g1n, modify_eq _ g1r, g2r, e3, g3n, modify_eq _ g3n,
      modify_eq _ g4r]
  · have := nodup_middle d1 (List.nodup_cons.2 ⟨r2, d2⟩) o1
      (by simp [hnr0, o2] : n ∉ h.length :: l2) (by
        intro a ha hm
        rcases List.mem_cons.1 hm with e | e
        · exact r1 (e ▸ ha)
        · exact dj a ha e)
    exact this
  · rw [Seg_append]
    refine ⟨?_, ?_, ?_, ?_⟩
    · rw [Seg_set_of_not_mem r1, Seg_set_of_not_mem o1]
      exact Seg_of_frame (fun b hb => (f3 b (dj b hb)).trans
        (get_set_ne _ (fun e => r1 (e ▸ hb)))) s1a
    · simp [links_set, hnr0, hnr1, l3n, l3r, headOr, nd0, hnl]
    · simp [links_set, hnr0, hnr1, l3n, l3r, c, hnr]
    · rw [Seg_set_of_not_mem r2, Seg_set_of_not_mem o2]
      exact t3
  · rw [get_set_ne _ hnr1]
    exact get_set_self _ g3n
  · exact get_set_self _ g4r
  · apply runs_congr
    intro b hb
    have hbn : n ≠ b := fun e => o1 (e ▸ hb)
    have hbr : h.length ≠ b := fun e => r1 (e ▸ hb)
    rw [get_set_ne _ hbr, get_set_ne _ hbn, f3 b (dj b hb), get_set_ne _ hbr,
      fr1 b (fun e => hbn e.symm) (Seg_lt s1 b hb)]
  · apply runs_congr
    intro b hb
    have hbn : n ≠ b := fun e => o2 (e ▸ hb)
    have hbr : h.length ≠ b := fun e => r2 (e ▸ hb)
    rw [get_set_ne _ hbr, get_set_ne _ hbn, p3 b, get_set_ne _ hbr,
      fr1 b (fun e => hbn e.symm) (Seg_lt s2 b hb)]

/-- The four link assignments shared by `linkpair_add_at_node` and `linkpair_add_after`,
run on a well-formed list cut at `c`, with `new` outside the list. -/
theorem link_after_cut {h : Heap} {l1 l2 : List Nat} {c new : Nat} {cn nn : LinkPair}
    (d1 : l1.Nodup) (d2 : l2.Nodup) (o1 : c ∉ l1) (o2 : c ∉ l2)
    (dj : ∀ a ∈ l1, a ∉ l2) (s1 : Seg h none l1 (some c)) (s2 : Seg h (some c) l2 none)
    (hc : h[c]? = some cn) (hcl : cn.left = lastOr l1 none) (hcr : cn.right = headOr l2 none)
    (n1 : new ∉ l1) (n2 : new ∉ l2) (hne : new ≠ c) (hnn : h[new]? = some nn) :
    ∃ h3, (h.set new { nn with right := cn.right })[new]? = some { nn with right := cn.right } ∧
      ((h.set new { nn with right := cn.right }).set new
        { nn with right := cn.right, left := some c })[c]? = some cn ∧
      modifyIfPresent ((h.set new { nn with right := cn.right }).set new
        { nn with right := cn.right, left := some c }) cn.right
        (fun x => { x with left := some new }) = some h3 ∧
      h3[c]? = some cn ∧
      h3[new]? = some { nn with right := cn.right, left := some c } ∧
      IsList (h3.set c { cn with right := some new }) (l1 ++ c :: new :: l2) ∧
      (∀ b : Nat, ((h3.set c { cn with right := some new })[b]?).map LinkPair.p =
        (h[b]?).map LinkPair.p) := by
  have g1 := get_set_self { nn with right := cn.right } hnn
  have g2 := get_set_self { nn with right := cn.right, left := some c } g1
  have g2c : ((h.set new { nn with right := cn.right }).set new
      { nn with right := cn.right, left := some c })[c]? = some cn :=
    (get_set_ne _ hne).trans ((get_set_ne _ hne).trans hc)
  have s2a : Seg ((h.set new { nn with right := cn.right }).set new
      { nn with right := cn.right, left := some c }) (some c) l2 none :=
    (Seg_set_of_not_mem n2).2 ((Seg_set_of_not_mem n2).2 s2)
  have s1a : Seg ((h.set new { nn with right := cn.right }).set new
      { nn with right := cn.right, left := some c }) none l1 (some c) :=
    (Seg_set_of_not_mem n1).2 ((Seg_set_of_not_mem n1).2 s1)
  obtain ⟨h3, e3, t3, _, f3, p3⟩ := Seg_relink_left (some new) s2a d2
  rw [← hcr] at e3
  have g3c : h3[c]? = some cn := (f3 c o2).trans g2c
  have g3n : h3[new]? = some { nn with right := cn.right, left := some c } :=
    (f3 new n2).trans g2
  have hne1 : c ≠ new := fun e => hne e.symm
  have l3c := lt_of_get g3c
  refine ⟨h3, g1, g2c, e3, g3c, g3n, ⟨?_, ?_⟩, ?_⟩
  · exact nodup_middle d1 (List.nodup_cons.2 ⟨n2, d2⟩) o1
      (by simp [hne1, o2] : c ∉ new :: l2) (by
        intro a ha hm
        rcases List.mem_cons.1 hm with e | e
        · exact n1 (e ▸ ha)
        · exact dj a ha e)
  · rw [Seg_append]
    refine ⟨?_, ?_, ?_, ?_⟩
    · rw [Seg_set_of_not_mem o1]
      exact Seg_of_frame (fun b hb => f3 b (dj b hb)) s1a
    · simp [links_set, l3c, headOr, hcl]
    · rw [links_set, if_neg hne1, links_of_get g3n]
      simp [hcr]
    · rw [Seg_set_of_not_mem o2]
      exact t3
  · intro b
    by_cases ec : c = b
    · subst ec
      rw [get_set_self _ g3c, hc]
      rfl
    · rw [get_set_ne _ ec, p3 b]
      by_cases en : new = b
      · subst en
        rw [g2, hnn]
        rfl
      · rw [get_set_ne _ en, get_set_ne _ en]

/-- The function `linkpair_node_to_right` returns on every node of a well-formed list. -/
theorem node_to_right_cut {h : Heap} {l2 : List Nat} {n : Nat} {nd : LinkPair}
    (s2 : Seg h (some n) l2 none) (hn : h[n]? = some nd) (hnr : nd.right = headOr l2 none) :
    ∃ b, linkpair_node_to_right h n = some b ∧
      (b = false ↔ (nd.right = none ∨ ∃ r rn, nd.right = some r ∧ h[r]? = some rn ∧
        pair_is_hint rn.p = false ∧
        bitset_intersects (pair_versions nd.p) (pair_versions rn.p) = false)) := by
  cases l2 with
  | nil =>
    have e : nd.right = none := hnr
    refine ⟨false, ?_, ?_⟩
    · simp only [linkpair_node_to_right, Option.bind_eq_bind, Option.some_bind, hn, e]
    · simp [e]
  | cons x t =>
    have e : nd.right = some x := hnr
    obtain ⟨xn, hx, _, _⟩ := links_eq_some.1 s2.1
    by_cases hh : pair_is_hint xn.p = true
    · refine ⟨true, ?_, ?_⟩
      · simp only [linkpair_node_to_right, Option.bind_eq_bind, Option.some_bind, hn, e, hx, hh,
          if_true]
      · simp [e, hx, hh]
    · refine ⟨bitset_intersects (pair_versions nd.p) (pair_versions xn.p), ?_, ?_⟩
      · simp only [linkpair_node_to_right, Option.bind_eq_bind, Option.some_bind, hn, e, hx, hh]
        rfl
      · simp [e, hx, hh]

theorem bitset_intersects_iff (a b : BitSet) :
    bitset_intersects a b = true ↔ (a ∩ b).Nonempty := by
  simp [bitset_intersects]

/-- The effect of `linkpair_add_at_node` on a well-formed list cut at `n`, when `n` has the
right neighbour `r`. -/
theorem add_at_node_cut {h : Heap} {l1 t : List Nat} {n r new : Nat} {nd nn : LinkPair}
    (hl : IsList h (l1 ++ n :: r :: t)) (hnd : h[n]? = some nd)
    (hnew : new ∉ l1 ++ n :: r :: t) (hnn : h[new]? = some nn) :
    ∃ rn, h[r]? = some rn ∧ nd.right = some r ∧ ∃ h1,
      linkpair_add_at_node h n new =
        some (h1, bitset_intersects (pair_versions nd.p) (pair_versions nn.p)) ∧
      (pair_is_hint rn.p = true → IsList h1 (l1 ++ n :: r :: new :: t) ∧
        links h1 r = some (some n, some new) ∧ links h1 new = some (some r, rn.right) ∧
        (∀ x, rn.right = some x → ∃ xn, h1[x]? = some xn ∧ xn.left = some new)) ∧
      (pair_is_hint rn.p = false → IsList h1 (l1 ++ n :: new :: r :: t) ∧
        links h1 n = some (nd.left, some new) ∧ links h1 new = some (some n, some r) ∧
        (∃ xn, h1[r]? = some xn ∧ xn.left = some new)) ∧
      (∀ b : Nat, (h1[b]?).map LinkPair.p = (h[b]?).map LinkPair.p) := by
  have hnd0 := hl.1
  obtain ⟨q1, q2, q3⟩ := hl.parts
  obtain ⟨nd2, hnd2, hnl2, hnr2⟩ := links_eq_some.1 q2
  rw [hnd] at hnd2
  cases hnd2
  obtain ⟨rn, hrn, hrl, hrr⟩ := links_eq_some.1 q3.1
  have hnr3 : nd.right = some r := hnr2
  obtain ⟨c1, c2, c3⟩ := List.nodup_append.1 hnd0
  obtain ⟨c4, c5⟩ := List.nodup_cons.1 c2
  obtain ⟨c6, c7⟩ := List.nodup_cons.1 c5
  have nl1 : n ∉ l1 := fun hm => c3 hm (by simp)
  have rl1 : r ∉ l1 := fun hm => c3 hm (by simp)
  have hrn0 : r ≠ n := fun e => c4 (by simp [e])
  have n1 : new ∉ l1 := fun hm => hnew (by simp [hm])
  have n2 : new ∉ t := fun hm => hnew (by simp [hm])
  have hne : new ≠ n := fun e => hnew (by simp [e])
  have hner : new ≠ r := fun e => hnew (by simp [e])
  have hnt : n ∉ t := fun hm => c4 (by simp [hm])
  have djt : ∀ a ∈ l1, a ∉ t := fun a ha hm => c3 ha (by simp [hm])
  refine ⟨rn, hrn, hnr3, ?_⟩
  by_cases hh : pair_is_hint rn.p = true
  · -- the hint is skipped: the new node goes after `r`
    have d1a : (l1 ++ [n]).Nodup := by
      rw [List.nodup_append]
      exact ⟨c1, by simp, by
        intro a ha hm
        simp only [List.mem_singleton] at hm
        exact nl1 (hm ▸ ha)⟩
    have r1a : r ∉ l1 ++ [n] := by simp [rl1, hrn0]
    have n1a : new ∉ l1 ++ [n] := by simp [n1, hne]
    have dja : ∀ a ∈ l1 ++ [n], a ∉ t := by
      intro a ha hm
      rcases List.mem_append.1 ha with e | e
      · exact djt a e hm
      · simp only [List.mem_singleton] at e
        exact hnt (e ▸ hm)
    have s1a : Seg h none (l1 ++ [n]) (some r) := by
      rw [Seg_concat]
      exact ⟨q1, q2⟩
    have hrl1 : rn.left = lastOr (l1 ++ [n]) none := by rw [lastOr_concat, hrl]
    obtain ⟨h3, g1, g2c, e3, g3c, g3n, hl4, p4⟩ :=
      link_after_cut d1a c7 r1a c6 dja s1a q3.2 hrn hrl1 hrr n1a n2 hner hnn
    have g4n : (h3.set r { rn with right := some new })[new]? =
        some { nn with right := rn.right, left := some r } :=
      (get_set_ne _ (fun e => hner e.symm)).trans g3n
    have hl5 : IsList (h3.set r { rn with right := some new }) (l1 ++ n :: r :: new :: t) := by
      simpa using hl4
    refine ⟨h3.set r { rn with right := some new }, ?_, ?_,
      fun hf => absurd hh (by simp [hf]), p4⟩
    · simp only [linkpair_add_at_node, Option.bind_eq_bind, Option.some_bind, hnd, hnr3, hrn, hh,
        if_true, modify_eq _ hnn, modify_eq _ g1, g2c, e3, modify_eq _ g3c, g4n]
    · intro _
      obtain ⟨_, t2, t3⟩ := hl4.parts
      refine ⟨hl5, ?_, ?_, ?_⟩
      · rw [t2, lastOr_concat]
        rfl
      · rw [t3.1, hrr]
      · intro x hx
        exact Seg_head_left t3.2 (hrr ▸ hx)
  · have hh1 : pair_is_hint rn.p = false := by simpa using hh
    have n2a : new ∉ r :: t := by simp [hner, n2]
    have dja : ∀ a ∈ l1, a ∉ r :: t := fun a ha hm => c3 ha (by simp [List.mem_cons.1 hm])
    obtain ⟨h3, g1, g2c, e3, g3c, g3n, hl4, p4⟩ :=
      link_after_cut c1 c5 nl1 c4 dja q1 q3 hnd hnl2 hnr2 n1 n2a hne hnn
    have g4n : (h3.set n { nd with right := some new })[new]? =
        some { nn with right := nd.right, left := some n } :=
      (get_set_ne _ (fun e => hne e.symm)).trans g3n
    have hg1 := modify_eq (fun x => { x with left := some n }) g1
    simp only [hnr3] at hg1 g2c e3 g4n
    refine ⟨h3.set n { nd with right := some new }, ?_, fun hf => absurd hf hh, ?_, p4⟩
    · simp only [linkpair_add_at_node, Option.bind_eq_bind, Option.some_bind, hnd, hnr3, hrn, hh1,
        Bool.false_eq_true, if_false, modify_eq _ hnn, hg1, g2c, e3, modify_eq _ g3c, g4n]
    · intro _
      obtain ⟨_, t2, t3⟩ := hl4.parts
      refine ⟨hl4, ?_, ?_, ?_⟩
      · rw [t2, hnl2]
        rfl
      · rw [t3.1]
        rfl
      · exact Seg_head_left t3.2 rfl

theorem bitset_next_set_bit_eq_iff (bs : BitSet) (v : Nat) :
    bitset_next_set_bit bs v = (v : Int) ↔ v ∈ bs := by
  unfold bitset_next_set_bit
  by_cases hne : (bs.filter (fun x => v ≤ x)).Nonempty
  · rw [dif_pos hne]
    constructor
    · intro e
      have e1 : (bs.filter (fun x => v ≤ x)).min' hne = v := by exact_mod_cast e
      have := Finset.min'_mem _ hne
      rw [e1] at this
      exact (Finset.mem_filter.1 this).1
    · intro hv
      have e1 : (bs.filter (fun x => v ≤ x)).min' hne = v := by
        apply le_antisymm
        · exact Finset.min'_le _ _ (by simp [hv])
        · exact (Finset.mem_filter.1 (Finset.min'_mem _ hne)).2
      exact_mod_cast e1
  · rw [dif_neg hne]
    constructor
    · intro e
      omega
    · intro hv
      exact absurd ⟨v, by simp [hv]⟩ hne

theorem set_same {h : Heap} {a : Nat} {x : LinkPair} (hc : h[a]? = some x) : h.set a x = h := by
  apply List.ext_getElem?
  intro b
  by_cases e : a = b
  · subst e
    rw [get_set_self _ hc, hc]
  · rw [get_set_ne _ e]

/-- The call `linkpair_add_hint` when the left neighbour is a hint. -/
theorem add_hint_hint {h : Heap} {n l : Nat} (v : Nat) {nd ln : LinkPair}
    (hnd : h[n]? = some nd) (hl : nd.left = some l) (hln : h[l]? = some ln)
    (hh : pair_is_hint ln.p = true) :
    linkpair_add_hint h n v =
      some (h.set l { ln with p := { ln.p with versions := bitset_set ln.p.versions v } }) := by
  simp only [linkpair_add_hint, Option.bind_eq_bind, Option.some_bind, hnd, hl, hln, hh, if_true,
    modify_eq _ hln]

/-- The call `linkpair_add_hint` when the left neighbour is no hint and carries `v`. -/
theorem add_hint_present {h : Heap} {n l v : Nat} {nd ln : LinkPair}
    (hnd : h[n]? = some nd) (hl : nd.left = some l) (hln : h[l]? = some ln)
    (hh : pair_is_hint ln.p = false) (hv : v ∈ pair_versions ln.p) :
    linkpair_add_hint h n v = some h := by
  have e := (bitset_next_set_bit_eq_iff (pair_versions ln.p) v).2 hv
  simp [linkpair_add_hint, hnd, hl, hln, hh, e]

/-- The call `linkpair_add_hint` when the left neighbour is no hint and lacks `v`: a hint
cell is allocated at the address `h.length` and linked between `l` and `n`. -/
theorem add_hint_fresh {h : Heap} {n l v : Nat} {nd ln : LinkPair}
    (hnd : h[n]? = some nd) (hl : nd.left = some l) (hln : h[l]? = some ln)
    (hh : pair_is_hint ln.p = false) (hv : v ∉ pair_versions ln.p) :
    ∃ h5, linkpair_add_hint h n v = some h5 ∧ h5.length = h.length + 1 ∧
      h5[h.length]? = some (LinkPair.mk (pair_create_hint (bitset_set bitset_create v))
        (some l) (some n) 0) ∧
      (∃ n5, h5[n]? = some n5 ∧ n5.left = some h.length ∧ n5.p = nd.p ∧
        (l ≠ n → n5.right = nd.right)) ∧
      (∃ l5, h5[l]? = some l5 ∧ l5.right = some h.length ∧ l5.p = ln.p ∧
        (l ≠ n → l5.left = ln.left)) ∧
      (∀ b : Nat, b ≠ l → b ≠ n → b < h.length → h5[b]? = h[b]?) := by
  have e : bitset_next_set_bit (pair_versions ln.p) v ≠ (v : Int) :=
    fun e => hv ((bitset_next_set_bit_eq_iff _ v).1 e)
  have hnlt := lt_of_get hnd
  have hllt := lt_of_get hln
  have hnr : h.length ≠ n := by omega
  have hlr : h.length ≠ l := by omega
  generalize hpdef : pair_create_hint (bitset_set bitset_create v) = hp
  have g1r : (h ++ [LinkPair.mk hp none none 0])[h.length]? = some (LinkPair.mk hp none none 0) :=
    List.getElem?_concat_length h _
  have g1n : (h ++ [LinkPair.mk hp none none 0])[n]? = some nd := by
    rw [List.getElem?_append_left hnlt]
    exact hnd
  have g1l : (h ++ [LinkPair.mk hp none none 0])[l]? = some ln := by
    rw [List.getElem?_append_left hllt]
    exact hln
  have m1 : modify (h ++ [LinkPair.mk hp none none 0]) h.length
      (fun x => { x with left := some l }) =
      some ((h ++ [LinkPair.mk hp none none 0]).set h.length (LinkPair.mk hp (some l) none 0)) :=
    modify_eq _ g1r
  have g2r := get_set_self (LinkPair.mk hp (some l) none 0) g1r
  have m2 : modify ((h ++ [LinkPair.mk hp none none 0]).set h.length
      (LinkPair.mk hp (some l) none 0)) h.length (fun x => { x with right := some n }) =
      some (((h ++ [LinkPair.mk hp none none 0]).set h.length
        (LinkPair.mk hp (some l) none 0)).set h.length (LinkPair.mk hp (some l) (some n) 0)) :=
    modify_eq _ g2r
  have g3r := get_set_self (LinkPair.mk hp (some l) (some n) 0) g2r
  generalize h3def : ((h ++ [LinkPair.mk hp none none 0]).set h.length
    (LinkPair.mk hp (some l) none 0)).set h.length (LinkPair.mk hp (some l) (some n) 0) = h3
    at m2 g3r
  have g3n : h3[n]? = some nd := by
    rw [← h3def]
    exact (get_set_ne _ hnr).trans ((get_set_ne _ hnr).trans g1n)
  have g3l : h3[l]? = some ln := by
    rw [← h3def]
    exact (get_set_ne _ hlr).trans ((get_set_ne _ hlr).trans g1l)
  have fr3 : ∀ b : Nat, b < h.length → h3[b]? = h[b]? := by
    intro b hb
    have : h.length ≠ b := by omega
    rw [← h3def, get_set_ne _ this, get_set_ne _ this, List.getElem?_append_left hb]
  have hlen3 : h3.length = h.length + 1 := by
    rw [← h3def]
    simp
  have g4l := get_set_self { ln with right := some h.length } g3l
  by_cases eln : l = n
  · subst eln
    rw [hnd] at hln
    cases hln
    have g5 := get_set_self { nd with right := some h.length, left := some h.length } g4l
    have m4 := modify_eq (fun x => { x with left := some h.length }) g4l
    simp only [hl] at m4
    refine ⟨(h3.set l { nd with right := some h.length }).set l
        { nd with right := some h.length, left := some h.length }, ?_, ?_, ?_,
      ⟨_, g5, rfl, rfl, fun hc => absurd rfl hc⟩, ⟨_, g5, rfl, rfl, fun hc => absurd rfl hc⟩, ?_⟩
    · simp only [linkpair_add_hint, Option.bind_eq_bind, Option.some_bind, hnd, hl, hh,
        Bool.false_eq_true, if_false, e, ne_eq, not_false_eq_true, if_true, linkpair_create, g1n,
        hpdef, m1, m2, g3n, modify_eq _ g3n, m4]
    · simp [hlen3]
    · rw [get_set_ne _ hnr.symm, get_set_ne _ hnr.symm, g3r]
    · intro b hb _ hbl
      rw [get_set_ne _ (Ne.symm hb), get_set_ne _ (Ne.symm hb), fr3 b hbl]
  · have g4n : (h3.set l { ln with right := some h.length })[n]? = some nd :=
      (get_set_ne _ eln).trans g3n
    have g5 := get_set_self { nd with left := some h.length } g4n
    refine ⟨(h3.set l { ln with right := some h.length }).set n
        { nd with left := some h.length }, ?_, ?_, ?_, ⟨_, g5, rfl, rfl, fun _ => rfl⟩,
      ⟨{ ln with right := some h.length }, ?_, rfl, rfl, fun _ => rfl⟩, ?_⟩
    · simp only [linkpair_add_hint, Option.bind_eq_bind, Option.some_bind, hnd, hl, hln, hh,
        Bool.false_eq_true, if_false, e, ne_eq, not_false_eq_true, if_true, linkpair_create, g1n,
        hpdef, m1, m2, g3n, modify_eq _ g3l, modify_eq _ g4n]
    · simp [hlen3]
    · rw [get_set_ne _ hnr.symm, get_set_ne _ hlr.symm, g3r]
    · rw [get_set_ne _ (Ne.symm eln)]
      exact g4l
    · intro b hb hbn hbl
      rw [get_set_ne _ (Ne.symm hbn), get_set_ne _ (Ne.symm hb), fr3 b hbl]

theorem insertAfter_middle {l1 : List Nat} (l2 : List Nat) {n : Nat} (x : Nat) (h1 : n ∉ l1) :
    insertAfter (l1 ++ n :: l2) n x = l1 ++ n :: x :: l2 := by
  induction l1 with
  | nil => simp [insertAfter]
  | cons a t ih =>
    have ha : a ≠ n := fun e => h1 (by simp [e])
    have ht : n ∉ t := fun hm => h1 (by simp [hm])
    simp [insertAfter, ha, ih ht]

theorem erase_middle {l1 : List Nat} (l2 : List Nat) {n : Nat} (h1 : n ∉ l1) :
    (l1 ++ n :: l2).erase n = l1 ++ l2 := by
  rw [List.erase_append_right _ h1]
  simp

/-- The effect of `linkpair_remove` on a well-formed list cut at `n`. -/
theorem remove_cut {h : Heap} {l1 l2 : List Nat} {n : Nat} {nd : LinkPair}
    (d1 : l1.Nodup) (d2 : l2.Nodup) (o1 : n ∉ l1) (_o2 : n ∉ l2)
    (dj : ∀ a ∈ l1, a ∉ l2) (s1 : Seg h none l1 (some n)) (s2 : Seg h (some n) l2 none)
    (hn : h[n]? = some nd) (hnl : nd.left = lastOr l1 none) (hnr : nd.right = headOr l2 none) :
    ∃ h2, linkpair_remove h n = some h2 ∧ IsList h2 (l1 ++ l2) ∧
      (∀ b : Nat, (h2[b]?).map LinkPair.p = (h[b]?).map LinkPair.p) := by
  obtain ⟨h1, e1, t1, _, f1, p1⟩ := Seg_relink_right nd.right s1 d1
  have s2a : Seg h1 (some n) l2 none :=
    Seg_of_frame (fun b hb => f1 b (fun hm => dj b hm hb)) s2
  obtain ⟨h2, e2, t2, _, f2, p2⟩ := Seg_relink_left nd.left s2a d2
  have t1a : Seg h2 none l1 nd.right := Seg_of_frame (fun b hb => f2 b (dj b hb)) t1
  have g1 : h1[n]? = some nd := (f1 n o1).trans hn
  rw [← hnl] at e1
  rw [← hnr] at e2
  refine ⟨h2, ?_, ⟨?_, ?_⟩, ?_⟩
  · simp only [linkpair_remove, Option.bind_eq_bind, Option.some_bind, hn, e1, g1, e2]
  · rw [List.nodup_append]
    exact ⟨d1, d2, fun a ha hb => dj a ha hb⟩
  · rw [Seg_append]
    exact ⟨hnr ▸ t1a, hnl ▸ t2⟩
  · intro b
    rw [p2 b, p1 b]

/-- The effect of `linkpair_add_hint` on a well-formed list in which `n` follows `li`. -/
theorem add_hint_cut {h : Heap} {t l2 : List Nat} {li n : Nat} (v : Nat) {ln : LinkPair}
    (hl : IsList h (t ++ li :: n :: l2)) (hln : h[li]? = some ln) :
    ∃ h1, linkpair_add_hint h n v = some h1 ∧
      IsList h1 (if pair_is_hint ln.p = true ∨ v ∈ pair_versions ln.p then t ++ li :: n :: l2
        else t ++ li :: h.length :: n :: l2) := by
  have hnd0 := hl.1
  obtain ⟨q1, q2, q3⟩ := hl.parts
  obtain ⟨ln1, hln1, hll, _⟩ := links_eq_some.1 q2
  rw [hln] at hln1
  cases hln1
  obtain ⟨nd, hnd, hnl, hnr⟩ := links_eq_some.1 q3.1
  obtain ⟨c1, c2, c3⟩ := List.nodup_append.1 hnd0
  obtain ⟨c4, c5⟩ := List.nodup_cons.1 c2
  obtain ⟨c6, c7⟩ := List.nodup_cons.1 c5
  have eln : li ≠ n := fun e => c4 (by simp [e])
  by_cases hh : pair_is_hint ln.p = true
  · refine ⟨_, add_hint_hint v hnd hnl hln hh, ?_⟩
    rw [if_pos (Or.inl hh)]
    refine ⟨hnd0, (Seg_congr _ _ _ ?_).2 hl.2⟩
    intro b _
    rw [links_set]
    by_cases e : li = b
    · subst e
      simp [lt_of_get hln, links_of_get hln]
    · simp [e]
  · have hh1 : pair_is_hint ln.p = false := by simpa using hh
    by_cases hv : v ∈ pair_versions ln.p
    · refine ⟨h, add_hint_present hnd hnl hln hh1 hv, ?_⟩
      rw [if_pos (Or.inr hv)]
      exact hl
    · obtain ⟨h5, e5, _, gr, ⟨n5, gn, gn1, _, gn3⟩, ⟨l5, gl, gl1, _, gl3⟩, fr⟩ :=
        add_hint_fresh hnd hnl hln hh1 hv
      refine ⟨h5, e5, ?_⟩
      rw [if_neg (by simp [hh, hv])]
      have hlt := Seg_lt hl.2
      have r1 : h.length ∉ t ++ li :: n :: l2 := fun hm => absurd (hlt _ hm) (by omega)
      have frt : ∀ b ∈ t, h5[b]? = h[b]? := by
        intro b hb
        exact fr b (fun e => c3 hb (by simp [e])) (fun e => c3 hb (by simp [e]))
          (hlt b (by simp [hb]))
      have frl : ∀ b ∈ l2, h5[b]? = h[b]? := by
        intro b hb
        exact fr b (fun e => c4 (by simp [← e, hb])) (fun e => c6 (e ▸ hb))
          (hlt b (by simp [hb]))
      refine ⟨?_, ?_⟩
      · have : (t ++ li :: h.length :: n :: l2).Nodup := by
          refine nodup_middle c1 (List.nodup_cons.2 ⟨fun hm => r1 (by simp [hm]), c5⟩)
            (fun hm => c3 hm (by simp)) ?_ ?_
          · intro hm
            rcases List.mem_cons.1 hm with e | e
            · exact r1 (by simp [← e])
            · exact c4 e
          · intro a ha hm
            rcases List.mem_cons.1 hm with e | e
            · exact r1 (by simp [← e, ha])
            · exact c3 ha (by simp [List.mem_cons.1 e])
        exact this
      · rw [Seg_append]
        refine ⟨Seg_of_frame frt q1, ?_, ?_, ?_, Seg_of_frame frl q3.2⟩
        · rw [links_of_get gl, gl1, gl3 eln, hll]
          rfl
        · rw [links_of_get gr]
          rfl
        · rw [links_of_get gn, gn1, gn3 eln, hnr]

theorem lastOr_eq_some {l : List Nat} {a : Nat} (ha : lastOr l none = some a) :
    ∃ t, l = t ++ [a] := by
  rcases List.eq_nil_or_concat l with e | ⟨t, p, e⟩
  · subst e
    simp [lastOr] at ha
  · rw [List.concat_eq_append] at e
    subst e
    rw [lastOr_concat] at ha
    cases ha
    exact ⟨t, rfl⟩

theorem headOr_eq_some {l : List Nat} {a : Nat} (ha : headOr l none = some a) :
    ∃ t, l = a :: t := by
  cases l with
  | nil => simp [headOr] at ha
  | cons b t =>
    simp only [headOr, Option.some.injEq] at ha
    exact ⟨t, by rw [ha]⟩

/-- The call `linkpair_node_overhang` when the right neighbour is no hint. -/
theorem overhang_plain {h : Heap} {n r : Nat} {nd rn : LinkPair} (hnd : h[n]? = some nd)
    (hr : nd.right = some r) (hrn : h[r]? = some rn) (hh : pair_is_hint rn.p = false) :
    linkpair_node_overhang h n = some (pair_versions nd.p \ pair_versions rn.p) := by
  simp [linkpair_node_overhang, hnd, hr, hrn, hh, bitset_or, bitset_create, bitset_and_not]

/-- The call `linkpair_node_overhang` when the right neighbour is a hint. -/
theorem overhang_hint {h : Heap} {n r x : Nat} {nd rn xn : LinkPair} (hnd : h[n]? = some nd)
    (hr : nd.right = some r) (hrn : h[r]? = some rn) (hh : pair_is_hint rn.p = true)
    (hx : rn.right = some x) (hxn : h[x]? = some xn) :
    linkpair_node_overhang h n =
      some (((pair_versions nd.p ∪ pair_versions rn.p).erase 0) \ pair_versions xn.p) := by
  simp [linkpair_node_overhang, hnd, hr, hrn, hh, hx, hxn, bitset_or, bitset_create,
    bitset_and_not, bitset_clear_bit]

theorem cell_of_links {h h0 : Heap} {b : Nat} {x y : Option Nat} {c0 : LinkPair}
    (hl : links h b = some (x, y))
    (hp : (h[b]?).map LinkPair.p = (h0[b]?).map LinkPair.p) (h0b : h0[b]? = some c0) :
    ∃ c, h[b]? = some c ∧ c.left = x ∧ c.right = y ∧ c.p = c0.p := by
  obtain ⟨c, hc, hcl, hcr⟩ := links_eq_some.1 hl
  refine ⟨c, hc, hcl, hcr, ?_⟩
  rw [hc, h0b] at hp
  simpa using hp

/-! ## Claims -/

/-- C2: replace preserves shape. For a well-formed list `l`, a node `old` of it and a
detached node `new` outside it, `linkpair_replace` completes; the result is the well-formed
list with `new` at the place of `old`; `linkpair_list_len` from the head of the list is
unchanged (the head is `new` when `old` was the head, and the same node otherwise); the
links of `new` are the former links of `old`; the former left neighbour of `old` has `new`
on its right and the former right neighbour has `new` on its left. -/
theorem linkpair_replace_preserves_shape (h : Heap) (l : List Nat) (old new : Nat)
    (hl : IsList h l) (hold : old ∈ l) (hnew : new ∉ l)
    (hdet : links h new = some (none, none)) :
    ∃ h1, linkpair_replace h old new = some h1 ∧
      IsList h1 (replaceAddr l old new) ∧
      linkpair_list_len h (headOr l none) = some l.length ∧
      linkpair_list_len h1 (headOr (replaceAddr l old new) none) = some l.length ∧
      (headOr l none ≠ some old → linkpair_list_len h1 (headOr l none) = some l.length) ∧
      links h1 new = links h old ∧
      (∀ a od, h[old]? = some od → od.left = some a →
        ∃ an, h1[a]? = some an ∧ an.right = some new) ∧
      (∀ a od, h[old]? = some od → od.right = some a →
        ∃ an, h1[a]? = some an ∧ an.left = some new) := by
  obtain ⟨l1, l2, od, rfl, d1, d2, o1, o2, dj, s1, s2, hod, hol, hor⟩ := hl.cut hold
  obtain ⟨nn, hnn, _, _⟩ := links_eq_some.1 hdet
  have n1 : new ∉ l1 := fun hm => hnew (by simp [hm])
  have n2 : new ∉ l2 := fun hm => hnew (by simp [hm])
  have hne : new ≠ old := fun e => hnew (by simp [e])
  obtain ⟨h5, e5, hl5, hln, _, _⟩ := replace_cut d1 d2 o1 o2 dj s1 s2 hod hol hor n1 n2 hne hnn
  have hr := replaceAddr_middle new o1 o2
  have hlen : (l1 ++ new :: l2).length = (l1 ++ old :: l2).length := by simp
  obtain ⟨t1, _, t2⟩ := hl5.parts
  refine ⟨h5, e5, hr ▸ hl5, list_len_of_IsList hl, ?_, ?_, ?_, ?_, ?_⟩
  · rw [hr, ← hlen]
    exact list_len_of_IsList hl5
  · intro hh
    have e : headOr (l1 ++ old :: l2) none = headOr (l1 ++ new :: l2) none := by
      cases l1 with
      | nil => exact absurd rfl hh
      | cons b t => rfl
    rw [e, ← hlen]
    exact list_len_of_IsList hl5
  · rw [hln, links_of_get hod]
  · intro a od1 h1 h2
    rw [hod] at h1
    cases h1
    exact Seg_last_right t1 (hol ▸ h2)
  · intro a od1 h1 h2
    rw [hod] at h1
    cases h1
    exact Seg_head_left t2 (hor ▸ h2)

theorem linkpair_replace_preserves_shape_witness :
    ∃ h1, linkpair_replace testHeap 1 3 = some h1 ∧
      IsList h1 (replaceAddr [0, 1, 2] 1 3) ∧
      linkpair_list_len testHeap (headOr [0, 1, 2] none) = some [0, 1, 2].length ∧
      linkpair_list_len h1 (headOr (replaceAddr [0, 1, 2] 1 3) none) = some [0, 1, 2].length ∧
      (headOr [0, 1, 2] none ≠ some 1 →
        linkpair_list_len h1 (headOr [0, 1, 2] none) = some [0, 1, 2].length) ∧
      links h1 3 = links testHeap 1 ∧
      (∀ a od, testHeap[1]? = some od → od.left = some a →
        ∃ an, h1[a]? = some an ∧ an.right = some 3) ∧
      (∀ a od, testHeap[1]? = some od → od.right = some a →
        ∃ an, h1[a]? = some an ∧ an.left = some 3) :=
  linkpair_replace_preserves_shape testHeap [0, 1, 2] 1 3 (by decide) (by decide) (by decide)
    (by decide)

/-- C1: split round trip. For a well-formed list `l`, a node `n` of it wrapping an ordinary
run of length `L` and an offset `0 < k < L`, `linkpair_split` completes; afterwards the run
of `n` has length `k`, the new right neighbour `r` of `n` wraps a run of length `L - k`
(the two texts joined are the old text, the version sets are kept), the list is well formed
with `r` right after `n`, and `linkpair_to_pairs` from the head is the old sequence with the
run of `n` replaced by the two halves. -/
theorem linkpair_split_round_trip (h : Heap) (l : List Nat) (n k : Nat) (nd : LinkPair)
    (hl : IsList h l) (hn : n ∈ l) (hnd : h[n]? = some nd)
    (hord : pair_is_ordinary nd.p = true) (_hk : 0 < k) (hkL : k < pair_len nd.p) :
    ∃ h1 r a b l1 l2, linkpair_split h n k = some h1 ∧
      h1[n]? = some a ∧ a.right = some r ∧ h1[r]? = some b ∧ b.left = some n ∧
      pair_len a.p = k ∧ pair_len b.p = pair_len nd.p - k ∧
      a.p.data ++ b.p.data = nd.p.data ∧
      pair_versions a.p = pair_versions nd.p ∧ pair_versions b.p = pair_versions nd.p ∧
      l = l1 ++ n :: l2 ∧ IsList h1 (l1 ++ n :: r :: l2) ∧
      linkpair_to_pairs h (headOr l none) = some (runs h l1 ++ nd.p :: runs h l2) ∧
      linkpair_to_pairs h1 (headOr l none) = some (runs h l1 ++ a.p :: b.p :: runs h l2) := by
  obtain ⟨l1, l2, nd1, rfl, d1, d2, o1, o2, dj, s1, s2, hnd1, hnl, hnr⟩ := hl.cut hn
  rw [hnd] at hnd1
  cases hnd1
  obtain ⟨h5, a, b, e5, hl5, ha, hb, hap, hbp, hr1, hr2⟩ :=
    @split_cut h l1 l2 n k nd d1 d2 o1 o2 dj s1 s2 hnd hnl hnr hord
  obtain ⟨_, hln, hs⟩ := hl5.parts
  obtain ⟨a1, ha1, _, ha1r⟩ := links_eq_some.1 hln
  obtain ⟨b1, hb1, hb1l, _⟩ := links_eq_some.1 hs.1
  rw [ha] at ha1
  cases ha1
  rw [hb] at hb1
  cases hb1
  have hhead : headOr (l1 ++ n :: l2) none = headOr (l1 ++ n :: h.length :: l2) none := by
    cases l1 <;> rfl
  refine ⟨h5, h.length, a, b, l1, l2, e5, ha, ha1r, hb, hb1l, ?_, ?_, ?_, ?_, ?_, rfl, hl5,
    ?_, ?_⟩
  · rw [hap]
    simp only [pair_len, List.length_take]
    unfold pair_len at hkL
    omega
  · rw [hbp]
    simp [pair_len]
  · rw [hap, hbp]
    exact List.take_append_drop k nd.p.data
  · rw [hap]
    rfl
  · rw [hbp]
    rfl
  · rw [to_pairs_of_IsList hl, runs_middle hnd]
  · rw [hhead, to_pairs_of_IsList hl5, runs_middle ha]
    have : runs h5 (h.length :: l2) = b.p :: runs h5 l2 := by
      simp [runs, hb]
    rw [this, hr1, hr2]

/-- The list `lp1`, `lp2`, `lp3` of the test data, split at `lp2` ("apple") before offset 2. -/
theorem linkpair_split_round_trip_witness :
    ∃ h1 r a b l1 l2, linkpair_split testHeap 1 2 = some h1 ∧
      h1[1]? = some a ∧ a.right = some r ∧ h1[r]? = some b ∧ b.left = some 1 ∧
      pair_len a.p = 2 ∧ pair_len b.p = pair_len p2 - 2 ∧
      a.p.data ++ b.p.data = p2.data ∧
      pair_versions a.p = pair_versions p2 ∧ pair_versions b.p = pair_versions p2 ∧
      [0, 1, 2] = l1 ++ 1 :: l2 ∧ IsList h1 (l1 ++ 1 :: r :: l2) ∧
      linkpair_to_pairs testHeap (headOr [0, 1, 2] none) =
        some (runs testHeap l1 ++ p2 :: runs testHeap l2) ∧
      linkpair_to_pairs h1 (headOr [0, 1, 2] none) =
        some (runs testHeap l1 ++ a.p :: b.p :: runs testHeap l2) :=
  linkpair_split_round_trip testHeap [0, 1, 2] 1 2
    { p := p2, left := some 0, right := some 2, st_off := 0 }
    (by decide) (by decide) rfl rfl (by decide) (by decide)

/-- C6: `linkpair_add_after`. For a node `n` of a well-formed list and a detached node `new`
outside it, the call completes and returns 1 exactly when `linkpair_node_to_right n` is
false, that is when `n` has no right neighbour or the right neighbour is not a hint and
shares no version with `n`. When it returns 1, `new` is linked immediately right of `n`
and the former right neighbour of `n` is now right of `new`. When it returns 0 the heap
(the list and `new`) is unchanged. -/
theorem linkpair_add_after_spec (h : Heap) (l : List Nat) (n new : Nat) (nd : LinkPair)
    (hl : IsList h l) (hn : n ∈ l) (hnd : h[n]? = some nd) (hnew : new ∉ l)
    (hdet : links h new = some (none, none)) :
    ∃ ntr h1 ret, linkpair_node_to_right h n = some ntr ∧
      linkpair_add_after h n new = some (h1, ret) ∧
      (ret = true ↔ ntr = false) ∧
      (ntr = false ↔ (nd.right = none ∨ ∃ r rn, nd.right = some r ∧ h[r]? = some rn ∧
        pair_is_hint rn.p = false ∧
        bitset_intersects (pair_versions nd.p) (pair_versions rn.p) = false)) ∧
      (ret = true → ∃ l1 l2, l = l1 ++ n :: l2 ∧ IsList h1 (l1 ++ n :: new :: l2) ∧
        links h1 n = some (nd.left, some new) ∧ links h1 new = some (some n, nd.right) ∧
        (∀ x, nd.right = some x → ∃ xn, h1[x]? = some xn ∧ xn.left = some new)) ∧
      (ret = false → h1 = h) := by
  obtain ⟨l1, l2, nd1, rfl, d1, d2, o1, o2, dj, s1, s2, hnd1, hnl, hnr⟩ := hl.cut hn
  rw [hnd] at hnd1
  cases hnd1
  obtain ⟨nn, hnn, _, _⟩ := links_eq_some.1 hdet
  have n1 : new ∉ l1 := fun hm => hnew (by simp [hm])
  have n2 : new ∉ l2 := fun hm => hnew (by simp [hm])
  have hne : new ≠ n := fun e => hnew (by simp [e])
  obtain ⟨b, hb, hchar⟩ := node_to_right_cut s2 hnd hnr
  cases b with
  | true =>
    refine ⟨true, h, false, hb, ?_, by simp, hchar, by simp, fun _ => rfl⟩
    simp only [linkpair_add_after, Option.bind_eq_bind, Option.some_bind, hb]
    rfl
  | false =>
    obtain ⟨h3, g1, g2c, e3, g3c, g3n, hl4, _⟩ :=
      link_after_cut d1 d2 o1 o2 dj s1 s2 hnd hnl hnr n1 n2 hne hnn
    refine ⟨false, h3.set n { nd with right := some new }, true, hb, ?_, by simp, hchar, ?_,
      by simp⟩
    · simp only [linkpair_add_after, Option.bind_eq_bind, Option.some_bind, hb, hnd,
        modify_eq _ hnn, modify_eq _ g1, g2c, e3, modify_eq _ g3c]
      rfl
    · intro _
      obtain ⟨_, t2, t3⟩ := hl4.parts
      refine ⟨l1, l2, rfl, hl4, ?_, ?_, ?_⟩
      · rw [t2, hnl]
        rfl
      · rw [t3.1, hnr]
      · intro x hx
        exact Seg_head_left t3.2 (hnr ▸ hx)

/-- The node `lp1` of the test list has `lp2` on its right, which shares no version with
it: `lp4` is added after `lp1`. -/
theorem linkpair_add_after_spec_witness :
    ∃ ntr h1 ret, linkpair_node_to_right testHeap 0 = some ntr ∧
      linkpair_add_after testHeap 0 3 = some (h1, ret) ∧
      (ret = true ↔ ntr = false) ∧
      (ntr = false ↔ ((some 1 : Option Nat) = none ∨ ∃ r rn, some 1 = some r ∧
        testHeap[r]? = some rn ∧ pair_is_hint rn.p = false ∧
        bitset_intersects (pair_versions p1) (pair_versions rn.p) = false)) ∧
      (ret = true → ∃ l1 l2, [0, 1, 2] = l1 ++ 0 :: l2 ∧ IsList h1 (l1 ++ 0 :: 3 :: l2) ∧
        links h1 0 = some (none, some 3) ∧ links h1 3 = some (some 0, some 1) ∧
        (∀ x, some 1 = some x → ∃ xn, h1[x]? = some xn ∧ xn.left = some 3)) ∧
      (ret = false → h1 = testHeap) :=
  linkpair_add_after_spec testHeap [0, 1, 2] 0 3
    { p := p1, left := none, right := some 1, st_off := 0 }
    (by decide) (by decide) rfl (by decide) (by decide)

/-- C7: `linkpair_add_at_node`. For a node `n` of a well-formed list with the right
neighbour `r` and a detached node `new` outside the list, the call completes; `new` is
linked immediately after `r` when `r` is a hint and immediately after `n` otherwise; the
node formerly at that place is the right neighbour of `new` and its left link is `new`;
the returned value is 1 exactly when the version sets of `n` and `new` intersect. -/
theorem linkpair_add_at_node_spec (h : Heap) (l : List Nat) (n r new : Nat)
    (nd rn nn : LinkPair) (hl : IsList h l) (hn : n ∈ l) (hnd : h[n]? = some nd)
    (hr : nd.right = some r) (hrn : h[r]? = some rn) (hnew : new ∉ l)
    (hnn : h[new]? = some nn) (_hdl : nn.left = none) (_hdr : nn.right = none) :
    ∃ h1 ret l1 l2, linkpair_add_at_node h n new = some (h1, ret) ∧ l = l1 ++ n :: r :: l2 ∧
      (ret = true ↔ (pair_versions nd.p ∩ pair_versions nn.p).Nonempty) ∧
      (pair_is_hint rn.p = true → IsList h1 (l1 ++ n :: r :: new :: l2) ∧
        links h1 r = some (some n, some new) ∧ links h1 new = some (some r, rn.right) ∧
        (∀ x, rn.right = some x → ∃ xn, h1[x]? = some xn ∧ xn.left = some new)) ∧
      (pair_is_hint rn.p = false → IsList h1 (l1 ++ n :: new :: r :: l2) ∧
        links h1 n = some (nd.left, some new) ∧ links h1 new = some (some n, some r) ∧
        (∃ xn, h1[r]? = some xn ∧ xn.left = some new)) := by
  obtain ⟨l1, l2, nd1, rfl, _, _, _, _, _, _, _, hnd1, _, hnr⟩ := hl.cut hn
  rw [hnd] at hnd1
  cases hnd1
  cases l2 with
  | nil =>
    rw [hr] at hnr
    cases hnr
  | cons r1 t =>
    rw [hr] at hnr
    cases hnr
    obtain ⟨rn1, hrn1, _, h1, e1, c1, c2, _⟩ := add_at_node_cut hl hnd hnew hnn
    rw [hrn] at hrn1
    cases hrn1
    exact ⟨h1, _, l1, t, e1, rfl, bitset_intersects_iff _ _, c1, c2⟩

/-- The node `lp1` of the test list, whose right neighbour `lp2` is no hint: `lp4` is added
right after `lp1`. -/
theorem linkpair_add_at_node_spec_witness :
    ∃ h1 ret l1 l2, linkpair_add_at_node testHeap 0 3 = some (h1, ret) ∧
      [0, 1, 2] = l1 ++ 0 :: 1 :: l2 ∧
      (ret = true ↔ (pair_versions p1 ∩ pair_versions p4).Nonempty) ∧
      (pair_is_hint p2 = true → IsList h1 (l1 ++ 0 :: 1 :: 3 :: l2) ∧
        links h1 1 = some (some 0, some 3) ∧ links h1 3 = some (some 1, some 2) ∧
        (∀ x, some 2 = some x → ∃ xn, h1[x]? = some xn ∧ xn.left = some 3)) ∧
      (pair_is_hint p2 = false → IsList h1 (l1 ++ 0 :: 3 :: 1 :: l2) ∧
        links h1 0 = some (none, some 3) ∧ links h1 3 = some (some 0, some 1) ∧
        (∃ xn, h1[1]? = some xn ∧ xn.left = some 3)) :=
  linkpair_add_at_node_spec testHeap [0, 1, 2] 0 1 3
    { p := p1, left := none, right := some 1, st_off := 0 }
    { p := p2, left := some 0, right := some 2, st_off := 0 }
    { p := p4, left := none, right := none, st_off := 0 }
    (by decide) (by decide) rfl rfl rfl (by decide) rfl rfl rfl

/-- C8, as stated, fails: `lp3` is the last node of the well-formed test list and `lp4` is
detached, and `linkpair_add_at_node` reads `lp->right->p` through the `NULL` right link
of `lp3`. -/
theorem linkpair_add_at_node_last_undefined :
    IsList testHeap [0, 1, 2] ∧ 2 ∈ [0, 1, 2] ∧ 3 ∉ [0, 1, 2] ∧
      links testHeap 3 = some (none, none) ∧ linkpair_add_at_node testHeap 2 3 = none := by
  decide

/-- C8, amended: for a node `n` of a well-formed list that has a right neighbour and a
detached node `new` outside the list, `linkpair_add_at_node` completes and leaves `new`
linked into the list to the right of `n`, with at most one node (a hint) between them. -/
theorem linkpair_add_at_node_completes (h : Heap) (l : List Nat) (n r new : Nat)
    (nd : LinkPair) (hl : IsList h l) (hn : n ∈ l) (hnd : h[n]? = some nd)
    (hr : nd.right = some r) (hnew : new ∉ l) (hdet : links h new = some (none, none)) :
    ∃ h1 ret l1 mid rest, linkpair_add_at_node h n new = some (h1, ret) ∧
      l = l1 ++ n :: (mid ++ rest) ∧ mid.length ≤ 1 ∧
      IsList h1 (l1 ++ n :: (mid ++ new :: rest)) := by
  obtain ⟨l1, l2, nd1, rfl, _, _, _, _, _, _, _, hnd1, _, hnr⟩ := hl.cut hn
  rw [hnd] at hnd1
  cases hnd1
  obtain ⟨nn, hnn, _, _⟩ := links_eq_some.1 hdet
  cases l2 with
  | nil =>
    rw [hr] at hnr
    cases hnr
  | cons r1 t =>
    obtain ⟨rn, _, _, h1, e1, c1, c2, _⟩ := add_at_node_cut hl hnd hnew hnn
    by_cases hh : pair_is_hint rn.p = true
    · exact ⟨h1, _, l1, [r1], t, e1, rfl, by simp, (c1 hh).1⟩
    · exact ⟨h1, _, l1, [], r1 :: t, e1, rfl, by simp, (c2 (by simpa using hh)).1⟩

/-- The node `lp2` of the test list has the right neighbour `lp3`: `lp4` is added. -/
theorem linkpair_add_at_node_completes_witness :
    ∃ h1 ret l1 mid rest, linkpair_add_at_node testHeap 1 3 = some (h1, ret) ∧
      [0, 1, 2] = l1 ++ 1 :: (mid ++ rest) ∧ mid.length ≤ 1 ∧
      IsList h1 (l1 ++ 1 :: (mid ++ 3 :: rest)) :=
  linkpair_add_at_node_completes testHeap [0, 1, 2] 1 2 3
    { p := p2, left := some 0, right := some 2, st_off := 0 }
    (by decide) (by decide) rfl rfl (by decide) (by decide)

/-- C4: postcondition of `linkpair_add_hint n v` for a node `n` with the left neighbour `l`.
(i) If `l` is a hint, no cell is added and only the version set of `l` changes, to its old
set with `v` added. (ii) If `l` is no hint and lacks `v`, one new hint cell with the
version set `{v}` is linked between `l` and `n`. (iii) If `l` is no hint and has `v`, the
heap is unchanged. In every case the left neighbour of `n` afterwards carries `v`. -/
theorem linkpair_add_hint_post (h : Heap) (n l v : Nat) (nd ln : LinkPair)
    (hnd : h[n]? = some nd) (hl : nd.left = some l) (hln : h[l]? = some ln) :
    ∃ h1, linkpair_add_hint h n v = some h1 ∧
      (pair_is_hint ln.p = true →
        h1 = h.set l { ln with p := { ln.p with versions := insert v ln.p.versions } }) ∧
      (pair_is_hint ln.p = false → v ∉ pair_versions ln.p →
        h1.length = h.length + 1 ∧
        (∀ b : Nat, b ≠ l → b ≠ n → b < h.length → h1[b]? = h[b]?) ∧
        ∃ hn l1 n1, h1[h.length]? = some hn ∧ pair_is_hint hn.p = true ∧
          pair_versions hn.p = {v} ∧ hn.left = some l ∧ hn.right = some n ∧
          h1[l]? = some l1 ∧ l1.right = some h.length ∧ l1.p = ln.p ∧
          h1[n]? = some n1 ∧ n1.left = some h.length ∧ n1.p = nd.p) ∧
      (pair_is_hint ln.p = false → v ∈ pair_versions ln.p → h1 = h) ∧
      (∃ n1 l1 ln1, h1[n]? = some n1 ∧ n1.left = some l1 ∧ h1[l1]? = some ln1 ∧
        v ∈ pair_versions ln1.p) := by
  by_cases hh : pair_is_hint ln.p = true
  · have e := add_hint_hint v hnd hl hln hh
    refine ⟨_, e, fun _ => rfl, fun hf => absurd hh (by simp [hf]),
      fun hf => absurd hh (by simp [hf]), ?_⟩
    have gl := get_set_self
      { ln with p := { ln.p with versions := bitset_set ln.p.versions v } } hln
    by_cases eln : l = n
    · subst eln
      rw [hnd] at hln
      cases hln
      exact ⟨_, l, _, gl, hl, gl, by simp [pair_versions, bitset_set]⟩
    · exact ⟨nd, l, _, (get_set_ne _ eln).trans hnd, hl, gl, by simp [pair_versions, bitset_set]⟩
  · have hh1 : pair_is_hint ln.p = false := by simpa using hh
    by_cases hv : v ∈ pair_versions ln.p
    · refine ⟨h, add_hint_present hnd hl hln hh1 hv, fun hf => absurd hf hh,
        fun _ hc => absurd hv hc, fun _ _ => rfl, nd, l, ln, hnd, hl, hln, hv⟩
    · obtain ⟨h5, e5, hlen, gr, ⟨n5, gn, gn1, gn2, _⟩, ⟨l5, gl, gl1, gl2, _⟩, fr⟩ :=
        add_hint_fresh hnd hl hln hh1 hv
      refine ⟨h5, e5, fun hf => absurd hf hh, ?_, fun _ hc => absurd hc hv, ?_⟩
      · intro _ _
        refine ⟨hlen, fr, _, l5, n5, gr, rfl, ?_, rfl, rfl, gl, gl1, gl2, gn, gn1, gn2⟩
        simp [pair_versions, pair_create_hint, bitset_set, bitset_create]
      · exact ⟨n5, _, _, gn, gn1, gr, by
          simp [pair_versions, pair_create_hint, bitset_set, bitset_create]⟩

/-- The call `linkpair_add_hint(lp2, 2)` on the test list: `lp1` is no hint and lacks 2. -/
theorem linkpair_add_hint_post_witness :
    ∃ h1, linkpair_add_hint testHeap 1 2 = some h1 ∧
      (pair_is_hint p1 = true →
        h1 = testHeap.set 0
          (LinkPair.mk { p1 with versions := insert 2 p1.versions } none (some 1) 0)) ∧
      (pair_is_hint p1 = false → 2 ∉ pair_versions p1 →
        h1.length = testHeap.length + 1 ∧
        (∀ b : Nat, b ≠ 0 → b ≠ 1 → b < testHeap.length → h1[b]? = testHeap[b]?) ∧
        ∃ hn l1 n1, h1[testHeap.length]? = some hn ∧ pair_is_hint hn.p = true ∧
          pair_versions hn.p = {2} ∧ hn.left = some 0 ∧ hn.right = some 1 ∧
          h1[0]? = some l1 ∧ l1.right = some testHeap.length ∧ l1.p = p1 ∧
          h1[1]? = some n1 ∧ n1.left = some testHeap.length ∧ n1.p = p2) ∧
      (pair_is_hint p1 = false → 2 ∈ pair_versions p1 → h1 = testHeap) ∧
      (∃ n1 l1 ln1, h1[1]? = some n1 ∧ n1.left = some l1 ∧ h1[l1]? = some ln1 ∧
        2 ∈ pair_versions ln1.p) :=
  linkpair_add_hint_post testHeap 1 0 2
    { p := p2, left := some 0, right := some 2, st_off := 0 }
    { p := p1, left := none, right := some 1, st_off := 0 } rfl rfl rfl

/-- C5: hint idempotence. For a node `n` with a left neighbour, `linkpair_add_hint n v`
completes, and a second call with the same `v` completes and leaves exactly the heap of the
first call: the same cells, links and version sets, and no second hint cell. -/
theorem linkpair_add_hint_idempotent (h : Heap) (n l v : Nat) (nd ln : LinkPair)
    (hnd : h[n]? = some nd) (hl : nd.left = some l) (hln : h[l]? = some ln) :
    ∃ h1, linkpair_add_hint h n v = some h1 ∧ linkpair_add_hint h1 n v = some h1 ∧
      h1.length ≤ h.length + 1 := by
  by_cases hh : pair_is_hint ln.p = true
  · have e := add_hint_hint v hnd hl hln hh
    have gl := get_set_self
      { ln with p := { ln.p with versions := bitset_set ln.p.versions v } } hln
    have gn : ∃ n1, (h.set l
        { ln with p := { ln.p with versions := bitset_set ln.p.versions v } })[n]? = some n1 ∧
        n1.left = some l := by
      by_cases eln : l = n
      · subst eln
        rw [hnd] at hln
        cases hln
        exact ⟨_, gl, hl⟩
      · exact ⟨nd, (get_set_ne _ eln).trans hnd, hl⟩
    obtain ⟨n1, gn1, gn2⟩ := gn
    refine ⟨_, e, ?_, by simp⟩
    rw [add_hint_hint v gn1 gn2 gl hh]
    have : bitset_set (bitset_set ln.p.versions v) v = bitset_set ln.p.versions v := by
      simp [bitset_set]
    simp only [this]
    rw [set_same gl]
  · have hh1 : pair_is_hint ln.p = false := by simpa using hh
    by_cases hv : v ∈ pair_versions ln.p
    · have e := add_hint_present hnd hl hln hh1 hv
      exact ⟨h, e, e, by omega⟩
    · obtain ⟨h5, e5, hlen, gr, ⟨n5, gn, gn1, _, _⟩, _, _⟩ := add_hint_fresh hnd hl hln hh1 hv
      refine ⟨h5, e5, ?_, by omega⟩
      rw [add_hint_hint v gn gn1 gr rfl]
      have : bitset_set (bitset_set bitset_create v) v = bitset_set bitset_create v := by
        simp [bitset_set]
      simp only [pair_create_hint, this]
      exact congrArg some (set_same gr)

/-- The call `linkpair_add_hint(lp2, 2)` on the test list, made twice. -/
theorem linkpair_add_hint_idempotent_witness :
    ∃ h1, linkpair_add_hint testHeap 1 2 = some h1 ∧ linkpair_add_hint h1 1 2 = some h1 ∧
      h1.length ≤ testHeap.length + 1 :=
  linkpair_add_hint_idempotent testHeap 1 0 2
    { p := p2, left := some 0, right := some 2, st_off := 0 }
    { p := p1, left := none, right := some 1, st_off := 0 } rfl rfl rfl

/-- C3, as stated, fails: `lp1` is the first node of the well-formed test list, and
`linkpair_add_hint` reads `lp->left->p` through its `NULL` left link, so that no list is
produced. -/
theorem linkpair_add_hint_first_undefined :
    IsList testHeap [0, 1, 2] ∧ 0 ∈ [0, 1, 2] ∧ linkpair_add_hint testHeap 0 2 = none := by
  decide

/-- C3, amended: the list never becomes circular. For a well-formed acyclic list `l` and a
node `n` of it, each of `linkpair_replace`, `linkpair_add_after`, `linkpair_add_at_node`
(when `n` has a right neighbour) with a detached `new` outside the list,
`linkpair_add_hint` (when `n` has a left neighbour), `linkpair_split` and `linkpair_remove`
completes and leaves a well-formed acyclic list with one start and one end: the old list
with `new` in place of `n`, with one cell inserted, unchanged, or without `n`. -/
theorem linkpair_mutations_keep_list (h : Heap) (l : List Nat) (n : Nat) (nd : LinkPair)
    (hl : IsList h l) (hn : n ∈ l) (hnd : h[n]? = some nd) :
    (∀ new, new ∉ l → links h new = some (none, none) →
      ∃ h1, linkpair_replace h n new = some h1 ∧ IsList h1 (replaceAddr l n new)) ∧
    (∀ new, new ∉ l → links h new = some (none, none) →
      ∃ h1 ret, linkpair_add_after h n new = some (h1, ret) ∧
        IsList h1 (if ret = true then insertAfter l n new else l)) ∧
    (∀ new r rn, new ∉ l → links h new = some (none, none) → nd.right = some r →
      h[r]? = some rn →
      ∃ h1 ret, linkpair_add_at_node h n new = some (h1, ret) ∧
        IsList h1 (insertAfter l (if pair_is_hint rn.p = true then r else n) new)) ∧
    (∀ v li ln, nd.left = some li → h[li]? = some ln →
      ∃ h1, linkpair_add_hint h n v = some h1 ∧
        IsList h1 (if pair_is_hint ln.p = true ∨ v ∈ pair_versions ln.p then l
          else insertAfter l li h.length)) ∧
    (∀ k, ∃ h1, linkpair_split h n k = some h1 ∧
      IsList h1 (if pair_is_ordinary nd.p = true then insertAfter l n h.length else l)) ∧
    (∃ h1, linkpair_remove h n = some h1 ∧ IsList h1 (l.erase n)) := by
  obtain ⟨l1, l2, nd1, rfl, d1, d2, o1, o2, dj, s1, s2, hnd1, hnl, hnr⟩ := hl.cut hn
  rw [hnd] at hnd1
  cases hnd1
  refine ⟨?_, ?_, ?_, ?_, ?_, ?_⟩
  · intro new hnew hdet
    obtain ⟨nn, hnn, _, _⟩ := links_eq_some.1 hdet
    obtain ⟨h5, e5, hl5, _⟩ := replace_cut d1 d2 o1 o2 dj s1 s2 hnd hnl hnr
      (fun hm => hnew (by simp [hm])) (fun hm => hnew (by simp [hm]))
      (fun e => hnew (by simp [e])) hnn
    exact ⟨h5, e5, (replaceAddr_middle new o1 o2) ▸ hl5⟩
  · intro new hnew hdet
    obtain ⟨nn, hnn, _, _⟩ := links_eq_some.1 hdet
    obtain ⟨b, hb, _⟩ := node_to_right_cut s2 hnd hnr
    cases b with
    | true =>
      refine ⟨h, false, ?_, by simpa using hl⟩
      simp only [linkpair_add_after, Option.bind_eq_bind, Option.some_bind, hb]
      rfl
    | false =>
      obtain ⟨h3, g1, g2c, e3, g3c, _, hl4, _⟩ :=
        link_after_cut d1 d2 o1 o2 dj s1 s2 hnd hnl hnr (fun hm => hnew (by simp [hm]))
          (fun hm => hnew (by simp [hm])) (fun e => hnew (by simp [e])) hnn
      refine ⟨h3.set n { nd with right := some new }, true, ?_, ?_⟩
      · simp only [linkpair_add_after, Option.bind_eq_bind, Option.some_bind, hb, hnd,
          modify_eq _ hnn, modify_eq _ g1, g2c, e3, modify_eq _ g3c]
        rfl
      · rw [if_pos rfl, insertAfter_middle l2 new o1]
        exact hl4
  · intro new r rn hnew hdet hr hrn
    obtain ⟨nn, hnn, _, _⟩ := links_eq_some.1 hdet
    rw [hr] at hnr
    obtain ⟨t, rfl⟩ := headOr_eq_some hnr.symm
    obtain ⟨rn1, hrn1, _, h1, e1, c1, c2, _⟩ := add_at_node_cut hl hnd hnew hnn
    rw [hrn] at hrn1
    cases hrn1
    refine ⟨h1, _, e1, ?_⟩
    by_cases hh : pair_is_hint rn.p = true
    · rw [if_pos hh]
      have e : l1 ++ n :: r :: t = (l1 ++ [n]) ++ r :: t := by simp
      have hr1 : r ∉ l1 ++ [n] := by
        intro hm
        rcases List.mem_append.1 hm with e | e
        · exact dj r e (by simp)
        · simp only [List.mem_singleton] at e
          exact o2 (by simp [e])
      rw [e, insertAfter_middle t new hr1]
      simpa using (c1 hh).1
    · rw [if_neg hh, insertAfter_middle (r :: t) new o1]
      exact (c2 (by simpa using hh)).1
  · intro v li ln hli hln
    rw [hli] at hnl
    obtain ⟨t, rfl⟩ := lastOr_eq_some hnl.symm
    have hl1 : IsList h (t ++ li :: n :: l2) := by simpa using hl
    obtain ⟨h1, e1, c1⟩ := add_hint_cut v hl1 hln
    refine ⟨h1, e1, ?_⟩
    have hlt : li ∉ t := by
      have := List.nodup_append.1 d1
      intro hm
      exact this.2.2 hm (by simp)
    have e : (t ++ [li]) ++ n :: l2 = t ++ li :: n :: l2 := by simp
    rw [e, insertAfter_middle (n :: l2) h.length hlt]
    exact c1
  · intro k
    by_cases hord : pair_is_ordinary nd.p = true
    · obtain ⟨h5, _, _, e5, hl5, _⟩ :=
        @split_cut h l1 l2 n k nd d1 d2 o1 o2 dj s1 s2 hnd hnl hnr hord
      refine ⟨h5, e5, ?_⟩
      rw [if_pos hord, insertAfter_middle l2 h.length o1]
      exact hl5
    · refine ⟨h, ?_, by rw [if_neg hord]; exact hl⟩
      have hord1 : pair_is_ordinary nd.p = false := by simpa using hord
      simp [linkpair_split, hnd, hord1]
  · obtain ⟨h2, e2, hl2, _⟩ := remove_cut d1 d2 o1 o2 dj s1 s2 hnd hnl hnr
    exact ⟨h2, e2, (erase_middle l2 o1).symm ▸ hl2⟩

/-- The six mutations at `lp2` of the test list, with the detached `lp4`: the lists that
result from replacing and from removing `lp2`. -/
theorem linkpair_mutations_keep_list_witness :
    (∃ h1, linkpair_replace testHeap 1 3 = some h1 ∧ IsList h1 (replaceAddr [0, 1, 2] 1 3)) ∧
      (∃ h1, linkpair_remove testHeap 1 = some h1 ∧ IsList h1 ([0, 1, 2].erase 1)) :=
  have w := linkpair_mutations_keep_list testHeap [0, 1, 2] 1
    { p := p2, left := some 0, right := some 2, st_off := 0 } (by decide) (by decide) rfl
  ⟨w.1 3 (by decide) (by decide), w.2.2.2.2.2⟩

/-- C9, as stated, fails: the run at address 0 carries the versions {0,1}, the hint right
of it carries {2} and the run after the hint carries {3}; the overhang computed by the
code is {1,2}, without the version 0 of ({0,1} ∪ {2}) \ {3}. -/
theorem linkpair_node_overhang_drops_zero :
    IsList overhangHeap [0, 1, 2] ∧
      linkpair_node_overhang overhangHeap 0 = some {1, 2} ∧
      linkpair_node_overhang overhangHeap 0 ≠
        some ((({0, 1} : Finset Nat) ∪ {2}) \ {3}) := by
  decide

/-- C9, amended: `linkpair_node_overhang n`, for a node `n` with the right neighbour `r`.
When `r` is no hint the result is versions(n) \ versions(r). When `r` is a hint followed by
the node `x` the result is ((versions(n) ∪ versions(r)) without the version 0) \
versions(x), which is (versions(n) ∪ versions(r)) \ versions(x) when 0 is in neither
versions(n) nor versions(r), or is in versions(x). After `linkpair_add_hint r v` has
inserted a hint between the adjacent nodes `n` and `r`, the overhang of `n` is
((versions(n) ∪ {v}) without the version 0) \ versions(r). -/
theorem linkpair_node_overhang_spec (h : Heap) (n r : Nat) (nd rn : LinkPair)
    (hnd : h[n]? = some nd) (hr : nd.right = some r) (hrn : h[r]? = some rn) :
    (pair_is_hint rn.p = false →
      linkpair_node_overhang h n = some (pair_versions nd.p \ pair_versions rn.p)) ∧
    (pair_is_hint rn.p = true → ∀ x xn, rn.right = some x → h[x]? = some xn →
      linkpair_node_overhang h n =
        some (((pair_versions nd.p ∪ pair_versions rn.p).erase 0) \ pair_versions xn.p) ∧
      (0 ∉ pair_versions nd.p ∪ pair_versions rn.p ∨ 0 ∈ pair_versions xn.p →
        linkpair_node_overhang h n =
          some ((pair_versions nd.p ∪ pair_versions rn.p) \ pair_versions xn.p))) ∧
    (∀ v, rn.left = some n → pair_is_hint nd.p = false → v ∉ pair_versions nd.p →
      ∃ h1, linkpair_add_hint h r v = some h1 ∧
        linkpair_node_overhang h1 n =
          some (((pair_versions nd.p ∪ {v}).erase 0) \ pair_versions rn.p)) := by
  refine ⟨fun hh => overhang_plain hnd hr hrn hh, ?_, ?_⟩
  · intro hh x xn hx hxn
    have e := overhang_hint hnd hr hrn hh hx hxn
    refine ⟨e, ?_⟩
    intro h0
    rw [e]
    congr 1
    ext a
    simp only [Finset.mem_sdiff, Finset.mem_erase]
    constructor
    · exact fun hc => ⟨hc.1.2, hc.2⟩
    · intro hc
      refine ⟨⟨?_, hc.1⟩, hc.2⟩
      rintro rfl
      rcases h0 with h0 | h0
      · exact h0 hc.1
      · exact hc.2 h0
  · intro v hl hh hv
    obtain ⟨h5, e5, _, gr, ⟨n5, gn, _, gn2, _⟩, ⟨l5, gl, gl1, gl2, _⟩, _⟩ :=
      add_hint_fresh hrn hl hnd hh hv
    refine ⟨h5, e5, ?_⟩
    rw [overhang_hint gl gl1 gr rfl rfl gn, gl2, gn2]
    simp [pair_versions, pair_create_hint, bitset_set, bitset_create]

/-- The test `linkpair_test_overhang`: `lpl` {3,23} is followed by `lpr` {3,21}. -/
theorem linkpair_node_overhang_spec_witness :
    (pair_is_hint pr = false →
      linkpair_node_overhang testHeapLR 0 = some (pair_versions pl \ pair_versions pr)) ∧
    (∀ v, (some 0 : Option Nat) = some 0 → pair_is_hint pl = false → v ∉ pair_versions pl →
      ∃ h1, linkpair_add_hint testHeapLR 1 v = some h1 ∧
        linkpair_node_overhang h1 0 =
          some (((pair_versions pl ∪ {v}).erase 0) \ pair_versions pr)) :=
  have w := linkpair_node_overhang_spec testHeapLR 0 1
    { p := pl, left := none, right := some 1, st_off := 0 }
    { p := pr, left := some 0, right := none, st_off := 0 } rfl rfl rfl
  ⟨w.1, w.2.2⟩

/-- C10, as stated, fails: in the list `lpl` {3,23}, `lpr` {3,21} the overhang of `lpl` is
{23}; after `linkpair_add_at_node(lpl, lp4)` with the detached `lp4` {7,14,22} it is
{3,23}, which is no subset of {23}. -/
theorem linkpair_add_at_node_overhang_grows :
    IsList testHeapLR [0, 1] ∧ 2 ∉ [0, 1] ∧ links testHeapLR 2 = some (none, none) ∧
      linkpair_node_overhang testHeapLR 0 = some {23} ∧
      (linkpair_add_at_node testHeapLR 0 2).bind (fun s => linkpair_node_overhang s.1 0) =
        some {3, 23} ∧
      ¬ (({3, 23} : Finset Nat) ⊆ {23}) := by
  decide

/-- C10, amended: for a node `n` of a well-formed list with a right neighbour `r` (and a
further one when `r` is a hint) and every detached node `new` outside the list, where
`new` is no hint unless `r` is one, the overhang of `n` after `linkpair_add_at_node n new`
is the entering set (versions(n), joined with versions(r) and without the version 0 when
`r` is a hint) minus versions(new). It is a subset of the overhang before the call
whenever `new` carries every version of the displaced node, the node that becomes its
right neighbour. -/
theorem linkpair_add_at_node_overhang (h : Heap) (l : List Nat) (n r new : Nat)
    (nd rn nn : LinkPair) (hl : IsList h l) (hn : n ∈ l) (hnd : h[n]? = some nd)
    (hr : nd.right = some r) (hrn : h[r]? = some rn) (hnew : new ∉ l)
    (hnn : h[new]? = some nn) (_hdl : nn.left = none) (_hdr : nn.right = none)
    (hx : pair_is_hint rn.p = true → rn.right ≠ none)
    (hkind : pair_is_hint rn.p = true ∨ pair_is_hint nn.p = false) :
    ∃ before h1 ret after, linkpair_node_overhang h n = some before ∧
      linkpair_add_at_node h n new = some (h1, ret) ∧
      linkpair_node_overhang h1 n = some after ∧
      after = (if pair_is_hint rn.p = true
        then (pair_versions nd.p ∪ pair_versions rn.p).erase 0
        else pair_versions nd.p) \ pair_versions nn.p ∧
      ((∀ d dn, (if pair_is_hint rn.p = true then rn.right else some r) = some d →
        h[d]? = some dn → pair_versions dn.p ⊆ pair_versions nn.p) → after ⊆ before) := by
  obtain ⟨l1, l2, nd1, rfl, _, _, _, _, _, _, s2, hnd1, _, hnr⟩ := hl.cut hn
  rw [hnd] at hnd1
  cases hnd1
  rw [hr] at hnr
  obtain ⟨t, rfl⟩ := headOr_eq_some hnr.symm
  obtain ⟨rn1, hrn1, _, h1, e1, c1, c2, p4⟩ := add_at_node_cut hl hnd hnew hnn
  rw [hrn] at hrn1
  cases hrn1
  by_cases hh : pair_is_hint rn.p = true
  · obtain ⟨hl1, k1, k2, _⟩ := c1 hh
    obtain ⟨_, k0, _⟩ := hl1.parts
    obtain ⟨x, hxe⟩ := Option.ne_none_iff_exists.1 (hx hh)
    obtain ⟨rn2, hrn2, _, hrr3⟩ := links_eq_some.1 s2.1
    rw [hrn] at hrn2
    cases hrn2
    obtain ⟨t1, rfl⟩ := headOr_eq_some (hrr3.symm.trans hxe.symm)
    obtain ⟨xn, hxn, _, _⟩ := links_eq_some.1 s2.2.1
    obtain ⟨n1, gn, _, gnr, gnp⟩ := cell_of_links k0 (p4 n) hnd
    obtain ⟨r1, gr, _, grr, grp⟩ := cell_of_links k1 (p4 r) hrn
    obtain ⟨nw, gw, _, _, gwp⟩ := cell_of_links k2 (p4 new) hnn
    have hr1 : pair_is_hint r1.p = true := by rw [grp]; exact hh
    refine ⟨_, h1, _, _, overhang_hint hnd hr hrn hh hxe.symm hxn, e1,
      overhang_hint gn gnr gr hr1 grr gw, ?_, ?_⟩
    · rw [if_pos hh, gnp, grp, gwp]
    · intro hsub
      have hsx := hsub x xn (by rw [if_pos hh]; exact hxe.symm) hxn
      rw [gnp, grp, gwp]
      exact Finset.sdiff_subset_sdiff (Finset.Subset.refl _) hsx
  · have hh1 : pair_is_hint rn.p = false := by simpa using hh
    have hk : pair_is_hint nn.p = false := by
      rcases hkind with e | e
      · exact absurd e hh
      · exact e
    obtain ⟨_, k1, k2, _⟩ := c2 hh1
    obtain ⟨n1, gn, _, gnr, gnp⟩ := cell_of_links k1 (p4 n) hnd
    obtain ⟨nw, gw, _, _, gwp⟩ := cell_of_links k2 (p4 new) hnn
    have hw : pair_is_hint nw.p = false := by rw [gwp]; exact hk
    refine ⟨_, h1, _, _, overhang_plain hnd hr hrn hh1, e1, overhang_plain gn gnr gw hw, ?_, ?_⟩
    · rw [if_neg hh, gnp, gwp]
    · intro hsub
      have hsr := hsub r rn (by rw [if_neg hh]) hrn
      rw [gnp, gwp]
      exact Finset.sdiff_subset_sdiff (Finset.Subset.refl _) hsr

/-- The list `lpl` {3,23}, `lpr` {3,21} with the detached `lp4` {7,14,22}, where the
overhang grows: the overhang after the call is {3,23} \ {7,14,22}; and the list `lp1`
{3,27}, `lp2` {5,17} with the detached run {5,17,40}, which carries every version of the
displaced `lp2`, so that the overhang after the call is a subset of the one before. -/
theorem linkpair_add_at_node_overhang_witness :
    (∃ before h1 ret after, linkpair_node_overhang testHeapLR 0 = some before ∧
      linkpair_add_at_node testHeapLR 0 2 = some (h1, ret) ∧
      linkpair_node_overhang h1 0 = some after ∧
      after = (if pair_is_hint pr = true
        then (pair_versions pl ∪ pair_versions pr).erase 0
        else pair_versions pl) \ pair_versions p4) ∧
    (∃ before h1 ret after, linkpair_node_overhang coverHeap 0 = some before ∧
      linkpair_add_at_node coverHeap 0 2 = some (h1, ret) ∧
      linkpair_node_overhang h1 0 = some after ∧
      after = (if pair_is_hint p2 = true
        then (pair_versions p1 ∪ pair_versions p2).erase 0
        else pair_versions p1) \ pair_versions (pair_create_basic {5, 17, 40} [120]) ∧
      after ⊆ before) := by
  obtain ⟨b1, g1, r1, a1, x1, x2, x3, x4, _⟩ :=
    linkpair_add_at_node_overhang testHeapLR [0, 1] 0 1 2
      { p := pl, left := none, right := some 1, st_off := 0 }
      { p := pr, left := some 0, right := none, st_off := 0 }
      { p := p4, left := none, right := none, st_off := 0 }
      (by decide) (by decide) rfl rfl rfl (by decide) rfl rfl rfl (by decide) (by decide)
  obtain ⟨b2, g2, r2, a2, y1, y2, y3, y4, y5⟩ :=
    linkpair_add_at_node_overhang coverHeap [0, 1] 0 1 2
      { p := p1, left := none, right := some 1, st_off := 0 }
      { p := p2, left := some 0, right := none, st_off := 0 }
      { p := pair_create_basic {5, 17, 40} [120], left := none, right := none, st_off := 0 }
      (by decide) (by decide) rfl rfl rfl (by decide) rfl rfl rfl (by decide) (by decide)
  refine ⟨⟨b1, g1, r1, a1, x1, x2, x3, x4⟩, ⟨b2, g2, r2, a2, y1, y2, y3, y4, y5 ?_⟩⟩
  intro d dn hd hdn
  have e : d = 1 := by
    have : (some 1 : Option Nat) = some d := hd
    exact (Option.some.inj this).symm
  subst e
  cases hdn
  decide

/-- C11: node-boundary predicates. For a node `n` whose neighbours, when present, are
allocated, `linkpair_trailing_node` and `linkpair_node_to_left` return true exactly when
`n` has a left neighbour that is a hint or shares a version with `n`, and
`linkpair_node_to_right` returns true exactly when `n` has a right neighbour that is a hint
or shares a version with `n`; each returns false when the neighbour is absent. -/
theorem linkpair_node_predicates (h : Heap) (n : Nat) (nd : LinkPair) (hnd : h[n]? = some nd)
    (hleft : ∀ l, nd.left = some l → ∃ ln, h[l]? = some ln)
    (hright : ∀ r, nd.right = some r → ∃ rn, h[r]? = some rn) :
    ∃ bt bl br, linkpair_trailing_node h n = some bt ∧ linkpair_node_to_left h n = some bl ∧
      linkpair_node_to_right h n = some br ∧
      (bt = true ↔ ∃ l ln, nd.left = some l ∧ h[l]? = some ln ∧
        (pair_is_hint ln.p = true ∨ (pair_versions ln.p ∩ pair_versions nd.p).Nonempty)) ∧
      (bl = true ↔ ∃ l ln, nd.left = some l ∧ h[l]? = some ln ∧
        (pair_is_hint ln.p = true ∨ (pair_versions ln.p ∩ pair_versions nd.p).Nonempty)) ∧
      (br = true ↔ ∃ r rn, nd.right = some r ∧ h[r]? = some rn ∧
        (pair_is_hint rn.p = true ∨ (pair_versions rn.p ∩ pair_versions nd.p).Nonempty)) ∧
      (nd.left = none → bt = false ∧ bl = false) ∧ (nd.right = none → br = false) := by
  have hL : ∃ bt bl, linkpair_trailing_node h n = some bt ∧
      linkpair_node_to_left h n = some bl ∧
      (bt = true ↔ ∃ l ln, nd.left = some l ∧ h[l]? = some ln ∧
        (pair_is_hint ln.p = true ∨ (pair_versions ln.p ∩ pair_versions nd.p).Nonempty)) ∧
      (bl = true ↔ ∃ l ln, nd.left = some l ∧ h[l]? = some ln ∧
        (pair_is_hint ln.p = true ∨ (pair_versions ln.p ∩ pair_versions nd.p).Nonempty)) ∧
      (nd.left = none → bt = false ∧ bl = false) := by
    cases hl : nd.left with
    | none =>
      refine ⟨false, false, ?_, ?_, by simp, by simp, by simp⟩
      · simp [linkpair_trailing_node, hnd, hl]
      · simp [linkpair_node_to_left, hnd, hl]
    | some l =>
      obtain ⟨ln, hln⟩ := hleft l hl
      refine ⟨pair_is_hint ln.p || bitset_intersects (pair_versions ln.p) (pair_versions nd.p),
        pair_is_hint ln.p || bitset_intersects (pair_versions ln.p) (pair_versions nd.p),
        ?_, ?_, ?_, ?_, by simp⟩
      · simp only [linkpair_trailing_node, Option.bind_eq_bind, Option.some_bind, hnd, hl, hln]
        split_ifs with hc <;> simp_all
      · simp only [linkpair_node_to_left, Option.bind_eq_bind, Option.some_bind, hnd, hl, hln]
        by_cases hh : pair_is_hint ln.p = true
        · simp [hh]
        · have e : (pair_versions nd.p ∩ pair_versions ln.p) =
              (pair_versions ln.p ∩ pair_versions nd.p) := Finset.inter_comm _ _
          simp [hh, bitset_intersects, e]
      · simp [hln, bitset_intersects_iff]
      · simp [hln, bitset_intersects_iff]
  obtain ⟨bt, bl, e1, e2, c1, c2, c3⟩ := hL
  have hR : ∃ br, linkpair_node_to_right h n = some br ∧
      (br = true ↔ ∃ r rn, nd.right = some r ∧ h[r]? = some rn ∧
        (pair_is_hint rn.p = true ∨ (pair_versions rn.p ∩ pair_versions nd.p).Nonempty)) ∧
      (nd.right = none → br = false) := by
    cases hr : nd.right with
    | none =>
      refine ⟨false, ?_, by simp, by simp⟩
      simp [linkpair_node_to_right, hnd, hr]
    | some r =>
      obtain ⟨rn, hrn⟩ := hright r hr
      refine ⟨pair_is_hint rn.p || bitset_intersects (pair_versions rn.p) (pair_versions nd.p),
        ?_, ?_, by simp⟩
      · simp only [linkpair_node_to_right, Option.bind_eq_bind, Option.some_bind, hnd, hr, hrn]
        by_cases hh : pair_is_hint rn.p = true
        · simp [hh]
        · have e : (pair_versions nd.p ∩ pair_versions rn.p) =
              (pair_versions rn.p ∩ pair_versions nd.p) := Finset.inter_comm _ _
          simp [hh, bitset_intersects, e]
      · simp [hrn, bitset_intersects_iff]
  obtain ⟨br, e3, c4, c5⟩ := hR
  exact ⟨bt, bl, br, e1, e2, e3, c1, c2, c4, c3, c5⟩

/-- The node `lp2` of the test list, between `lp1` and `lp3`. -/
theorem linkpair_node_predicates_witness :
    ∃ bt bl br, linkpair_trailing_node testHeap 1 = some bt ∧
      linkpair_node_to_left testHeap 1 = some bl ∧
      linkpair_node_to_right testHeap 1 = some br ∧
      (bt = true ↔ ∃ l ln, (some 0 : Option Nat) = some l ∧ testHeap[l]? = some ln ∧
        (pair_is_hint ln.p = true ∨ (pair_versions ln.p ∩ pair_versions p2).Nonempty)) ∧
      (bl = true ↔ ∃ l ln, (some 0 : Option Nat) = some l ∧ testHeap[l]? = some ln ∧
        (pair_is_hint ln.p = true ∨ (pair_versions ln.p ∩ pair_versions p2).Nonempty)) ∧
      (br = true ↔ ∃ r rn, (some 2 : Option Nat) = some r ∧ testHeap[r]? = some rn ∧
        (pair_is_hint rn.p = true ∨ (pair_versions rn.p ∩ pair_versions p2).Nonempty)) ∧
      ((some 0 : Option Nat) = none → bt = false ∧ bl = false) ∧
      ((some 2 : Option Nat) = none → br = false) :=
  linkpair_node_predicates testHeap 1
    { p := p2, left := some 0, right := some 2, st_off := 0 } rfl
    (fun l hl => by cases hl; exact ⟨_, rfl⟩) (fun r hr => by cases hr; exact ⟨_, rfl⟩)

/-- C12, as stated, fails: the run at address 2 of `overhangHeap` has a hint on its left;
`linkpair_trailing_node` returns 1 for it and `linkpair_free` returns 1 as well. -/
theorem linkpair_free_with_hint_on_left :
    (overhangHeap[1]?).map (fun c => pair_is_hint c.p) = some true ∧
      (overhangHeap[2]?).map LinkPair.left = some (some 1) ∧
      linkpair_trailing_node overhangHeap 2 = some true ∧
      linkpair_free overhangHeap 2 = some true := by
  decide

/-- C12, amended: `linkpair_free n` returns 1 exactly when `n` has no left neighbour, or
the left neighbour is a hint, or the left neighbour shares no version with `n`. It is the
negation of `linkpair_trailing_node n` whenever the left neighbour is absent or is no hint;
when the left neighbour is a hint both functions return 1. -/
theorem linkpair_free_spec (h : Heap) (n : Nat) (nd : LinkPair) (hnd : h[n]? = some nd)
    (hleft : ∀ l, nd.left = some l → ∃ ln, h[l]? = some ln) :
    ∃ bf bt, linkpair_free h n = some bf ∧ linkpair_trailing_node h n = some bt ∧
      (bf = true ↔ (nd.left = none ∨ ∃ l ln, nd.left = some l ∧ h[l]? = some ln ∧
        (pair_is_hint ln.p = true ∨
          ¬ (pair_versions ln.p ∩ pair_versions nd.p).Nonempty))) ∧
      ((∀ l ln, nd.left = some l → h[l]? = some ln → pair_is_hint ln.p = false) →
        (bf = true ↔ bt = false)) ∧
      (∀ l ln, nd.left = some l → h[l]? = some ln → pair_is_hint ln.p = true →
        bf = true ∧ bt = true) := by
  cases hl : nd.left with
  | none =>
    refine ⟨true, false, ?_, ?_, by simp, by simp, by simp⟩
    · simp [linkpair_free, hnd, hl]
    · simp [linkpair_trailing_node, hnd, hl]
  | some l =>
    obtain ⟨ln, hln⟩ := hleft l hl
    by_cases hh : pair_is_hint ln.p = true
    · refine ⟨true, true, ?_, ?_, ?_, ?_, ?_⟩
      · simp [linkpair_free, hnd, hl, hln, hh]
      · simp [linkpair_trailing_node, hnd, hl, hln, hh]
      · simp [hln, hh]
      · intro hc
        have := hc l ln rfl hln
        rw [hh] at this
        cases this
      · intro _ _ _ _ _
        exact ⟨rfl, rfl⟩
    · have hh1 : pair_is_hint ln.p = false := by simpa using hh
      refine ⟨!bitset_intersects (pair_versions ln.p) (pair_versions nd.p),
        bitset_intersects (pair_versions ln.p) (pair_versions nd.p), ?_, ?_, ?_, ?_, ?_⟩
      · simp [linkpair_free, hnd, hl, hln, hh1]
      · simp only [linkpair_trailing_node, Option.bind_eq_bind, Option.some_bind, hnd, hl, hln,
          hh1, Bool.false_or]
        split_ifs with hc <;> simp_all
      · simp [hln, hh1, bitset_intersects]
      · intro _
        cases bitset_intersects (pair_versions ln.p) (pair_versions nd.p) <;> simp
      · intro l1 ln1 e1 e2 e3
        cases e1
        rw [hln] at e2
        cases e2
        rw [hh1] at e3
        cases e3

/-- The node `lp2` of the test list: `lp1` on its left is no hint and shares no version. -/
theorem linkpair_free_spec_witness :
    ∃ bf bt, linkpair_free testHeap 1 = some bf ∧ linkpair_trailing_node testHeap 1 = some bt ∧
      (bf = true ↔ ((some 0 : Option Nat) = none ∨ ∃ l ln, (some 0 : Option Nat) = some l ∧
        testHeap[l]? = some ln ∧ (pair_is_hint ln.p = true ∨
          ¬ (pair_versions ln.p ∩ pair_versions p2).Nonempty))) ∧
      ((∀ l ln, (some 0 : Option Nat) = some l → testHeap[l]? = some ln →
        pair_is_hint ln.p = false) → (bf = true ↔ bt = false)) ∧
      (∀ l ln, (some 0 : Option Nat) = some l → testHeap[l]? = some ln →
        pair_is_hint ln.p = true → bf = true ∧ bt = true) :=
  linkpair_free_spec testHeap 1 { p := p2, left := some 0, right := some 2, st_off := 0 } rfl
    (fun l hl => by cases hl; exact ⟨_, rfl⟩)

theorem next_loop_of_Seg {h : Heap} (bs : BitSet) : ∀ (l : List Nat) (prev : Option Nat)
    (fuel : Nat), Seg h prev l none → l.length < fuel →
      linkpair_next_loop fuel h (headOr l none) bs = some (l.find? (hits h bs))
  | [], _, fuel, _, hf => by
    obtain ⟨k, rfl⟩ : ∃ k, fuel = k + 1 := ⟨fuel - 1, by simp at hf; omega⟩
    simp [headOr, linkpair_next_loop]
  | a :: rest, prev, fuel, hs, hf => by
    obtain ⟨k, rfl⟩ : ∃ k, fuel = k + 1 := ⟨fuel - 1, by simp at hf; omega⟩
    obtain ⟨ha, hst⟩ := hs
    obtain ⟨an, han, _, har⟩ := links_eq_some.1 ha
    have ih := next_loop_of_Seg bs rest (some a) k hst (by simp at hf; omega)
    show linkpair_next_loop (k + 1) h (some a) bs = _
    have hh : hits h bs a = bitset_intersects bs (pair_versions an.p) := by
      simp [hits, han]
    by_cases hc : bitset_intersects bs (pair_versions an.p) = true
    · simp [linkpair_next_loop, han, hc, List.find?_cons, hh]
    · have hc1 : bitset_intersects bs (pair_versions an.p) = false := by simpa using hc
      simp only [linkpair_next_loop, han, hc1, Bool.not_false, if_true, har, ih, List.find?_cons,
        hh]

/-- C13: `linkpair_next`. For a node `n` of a well-formed acyclic list and a version set
`bs`, with `l2` the nodes right of `n`, the call returns; the result is the first node of
`l2` whose version set intersects `bs`, every node between `n` and the result has a version
set disjoint from `bs`, and the result is `NULL` exactly when no node of `l2` intersects
`bs`. The function returns a pointer only: the heap and `bs` are read, never written. -/
theorem linkpair_next_spec (h : Heap) (l : List Nat) (n : Nat) (bs : BitSet)
    (hl : IsList h l) (hn : n ∈ l) :
    ∃ l1 l2 res, l = l1 ++ n :: l2 ∧ linkpair_next h n bs = some res ∧
      res = l2.find? (hits h bs) ∧
      (∀ m, res = some m → hits h bs m = true ∧
        ∃ mid rest, l2 = mid ++ m :: rest ∧ ∀ a ∈ mid, hits h bs a = false) ∧
      (res = none ↔ ∀ a ∈ l2, hits h bs a = false) := by
  obtain ⟨l1, l2, nd, rfl, _, _, _, _, _, _, s2, hnd, _, hnr⟩ := hl.cut hn
  have hlen : l2.length < h.length + 1 := by
    have h1 := hl.length_le
    simp only [List.length_append, List.length_cons] at h1
    omega
  have e := next_loop_of_Seg bs l2 (some n) (h.length + 1) s2 hlen
  refine ⟨l1, l2, l2.find? (hits h bs), rfl, ?_, rfl, ?_, ?_⟩
  · simp only [linkpair_next, Option.bind_eq_bind, Option.some_bind, hnd, hnr, e]
  · intro m hm
    obtain ⟨h1, mid, rest, h2, h3⟩ := List.find?_eq_some.1 hm
    exact ⟨h1, mid, rest, h2, fun a ha => by simpa using h3 a ha⟩
  · rw [List.find?_eq_none]
    constructor
    · intro hc a ha
      simpa using hc a ha
    · intro hc a ha
      simp [hc a ha]

/-- The scan from `lp1` of the test list with the version set {7,14}. -/
theorem linkpair_next_spec_witness :
    ∃ l1 l2 res, [0, 1, 2] = l1 ++ 0 :: l2 ∧ linkpair_next testHeap 0 bs5 = some res ∧
      res = l2.find? (hits testHeap bs5) ∧
      (∀ m, res = some m → hits testHeap bs5 m = true ∧
        ∃ mid rest, l2 = mid ++ m :: rest ∧ ∀ a ∈ mid, hits testHeap bs5 a = false) ∧
      (res = none ↔ ∀ a ∈ l2, hits testHeap bs5 a = false) :=
  linkpair_next_spec testHeap [0, 1, 2] 0 bs5 (by decide) (by decide)

/-- C14, as stated, fails: with `p1`, `p2`, `p3`, `p4` linked in this order, the scan from
`p1` with the version set {7,14} stops at the node wrapping `p3` (address 2), whose
versions {7,14,19} intersect {7,14}; it does not return the node wrapping `p4`
(address 3). -/
theorem linkpair_next_example_is_p3 :
    IsList exampleHeap [0, 1, 2, 3] ∧ linkpair_next exampleHeap 0 bs5 = some (some 2) ∧
      linkpair_next exampleHeap 0 bs5 ≠ some (some 3) := by
  decide

/-- C14, amended: in the list `p1`, `p2`, `p3`, `p4` the call `linkpair_next` from `p1` with
{7,14} returns the node wrapping `p3`, the first one right of `p1` whose versions
intersect {7,14}. In the list of `linkpair_test_next`, which is `lp1`, `lp4`, `lp3` after
`linkpair_replace(lp2, lp4)`, it returns the node wrapping `p4`. -/
theorem linkpair_next_example :
    (exampleHeap[2]?).map LinkPair.p = some p3 ∧
      linkpair_next exampleHeap 0 bs5 = some (some 2) ∧
      ((linkpair_replace testHeap 1 3).bind (fun h1 => (h1[3]?).map LinkPair.p)) = some p4 ∧
      ((linkpair_replace testHeap 1 3).bind (fun h1 => linkpair_next h1 0 bs5)) =
        some (some 3) := by
  decide

/-! ## Lemmas on the loops of `match.c` -/

/-- An index found by the loop of `next_pair` lies among the indices it looked at. -/
theorem next_pair_loop_bounds : ∀ (k : Nat) (pairs : List Pair) (i : Int) (bs : Option BitSet)
    (j : Int), next_pair_loop k pairs i bs = some j → j = -1 ∨ (i ≤ j ∧ j < i + k)
  | 0, _, _, _, j, h => by
    simp only [next_pair_loop, Option.some.injEq] at h
    exact Or.inl h.symm
  | k + 1, pairs, i, bs, j, h => by
    simp only [next_pair_loop, Option.bind_eq_bind] at h
    cases hb : bs with
    | none => simp [hb] at h
    | some b =>
      cases hp : pair_at pairs i with
      | none => simp [hb, hp] at h
      | some p =>
        simp only [hb, hp, Option.some_bind] at h
        split_ifs at h with hc
        · rcases next_pair_loop_bounds k pairs (i + 1) (some b) j h with e | ⟨e1, e2⟩
          · exact Or.inl e
          · refine Or.inr ⟨by omega, ?_⟩
            push_cast
            omega
        · simp only [Option.some.injEq] at h
          refine Or.inr ⟨by omega, ?_⟩
          push_cast
          omega

/-- The bound on the iterations of the loop of `match_follows` is never used up: one more
iteration allowed gives the same result. -/
theorem match_follows_loop_stable (first second : Match) : ∀ (f : Nat) (pd i : Int),
    (first.end_ - i + 2).toNat ≤ f + 1 →
      match_follows_loop (f + 1) first second pd i = match_follows_loop (f + 2) first second pd i
  | f, pd, i, hf => by
    rw [match_follows_loop, match_follows_loop]
    by_cases h1 : pd ≤ KDIST
    · simp only [h1, if_true, Option.bind_eq_bind]
      cases hn : next_pair first.pairs first.end_ (i + 1) first.bs with
      | none => rfl
      | some j =>
        simp only [Option.some_bind]
        by_cases h2 : j = -1
        · simp only [h2, ne_eq, not_true_eq_false, if_false]
        · rcases next_pair_loop_bounds _ _ _ _ _ hn with e | ⟨e1, e2⟩
          · exact absurd e h2
          · obtain ⟨g, rfl⟩ : ∃ g, f = g + 1 := ⟨f - 1, by omega⟩
            have key : ∀ pd1 : Int, match_follows_loop (g + 1) first second pd1 (j + 1) =
                match_follows_loop (g + 1 + 1) first second pd1 (j + 1) :=
              fun pd1 => match_follows_loop_stable first second g pd1 (j + 1) (by omega)
            simp only [h2, ne_eq, not_false_eq_true, if_true, key]
    · simp only [h1, if_false]

/-- The bound that `match_follows` gives its loop is enough: any larger bound gives the
same result. -/
theorem match_follows_loop_enough (first second : Match) (pd : Int) : ∀ n : Nat,
    match_follows_loop ((first.end_ - first.end_p).toNat + 2 + n) first second pd first.end_p =
      match_follows_loop ((first.end_ - first.end_p).toNat + 2) first second pd first.end_p
  | 0 => rfl
  | n + 1 => by
    have h := match_follows_loop_stable first second
      ((first.end_ - first.end_p).toNat + 1 + n) pd first.end_p (by omega)
    have e1 : (first.end_ - first.end_p).toNat + 1 + n + 1 =
        (first.end_ - first.end_p).toNat + 2 + n := by omega
    have e2 : (first.end_ - first.end_p).toNat + 1 + n + 2 =
        (first.end_ - first.end_p).toNat + 2 + (n + 1) := by omega
    rw [e1, e2] at h
    rw [← h]
    exact match_follows_loop_enough first second pd n

/-! ## Claims on matches -/

theorem wrap_int_of_range {x : Int} (h1 : INT_MIN ≤ x) (h2 : x ≤ INT_MAX) : wrap_int x = x := by
  simp only [INT_MIN, INT_MAX] at h1 h2
  simp only [wrap_int]
  omega

theorem wrap_int_range (x : Int) : INT_MIN ≤ wrap_int x ∧ wrap_int x ≤ INT_MAX := by
  simp only [INT_MIN, INT_MAX, wrap_int]
  omega

/-- A difference in `int` from a sum in `int` is the difference of the integers, reduced
once. -/
theorem wrap_int_sub_wrap (a b : Int) : wrap_int (a - wrap_int b) = wrap_int (a - b) := by
  simp only [wrap_int]
  omega

theorem wrap_int_wrap_add (a b : Int) : wrap_int (wrap_int a + b) = wrap_int (a + b) := by
  simp only [wrap_int]
  omega

/-- The result of `match_follows` when `second` starts in the run in which `first` ended:
the test on the two distances as `int` values. -/
theorem follows_same_run_eq (first second : Match) (hp : second.start_p = first.end_p) :
    match_follows first second =
      some (decide (wrap_int (second.start_pos - first.end_pos) ≤ 2 ∧
        0 ≤ wrap_int (second.st_off - (first.st_off + first.len)) ∧
        wrap_int (second.st_off - (first.st_off + first.len)) ≤ 2)) := by
  simp [match_follows, hp, KDIST, wrap_int_sub_wrap]

/-- C15, the code at the failing input: the match is at the first character of "pear"
(length 4, cursor 0), so the run has characters left; `match_advance` does not return the
character 'e' (101) at index 1 of that run: it scans on to the next run "orange", moves
`end_p` to 1 and `end_pos` to 0 and returns 'o' (111), whatever is stored after the runs. -/
theorem match_advance_in_run_scans :
    (pair_at advanceInput.pairs advanceInput.end_p).map
        (fun p => decide ((pair_len p : Int) > advanceInput.end_pos + 1)) = some true ∧
      (pair_at advanceInput.pairs advanceInput.end_p).bind
        (fun p => data_at (pair_data p) (advanceInput.end_pos + 1)) = some 101 ∧
      ∀ beyond : Int → List Nat,
        (match_advance beyond advanceInput).map (fun r => (r.1.end_p, r.1.end_pos, r.2)) =
          some (1, 0, 111) :=
  ⟨by decide, by decide, fun _ => rfl⟩

/-- C16, the code: for every match `m` the clone made by `match_clone` has the cursor of `m`
and the length 0, and its `st_off` is the `st_off` of `m` before the call; the sum
`m.st_off + m.len` is stored in the parent. At `cloneInput` (offset 10, length 3) the
clone has the offset 10, not 13. -/
theorem match_clone_keeps_st_off :
    (∀ m : Match, (match_clone m).2.start_p = m.end_p ∧ (match_clone m).2.end_p = m.end_p ∧
      (match_clone m).2.start_pos = m.end_pos ∧ (match_clone m).2.end_pos = m.end_pos ∧
      (match_clone m).2.len = 0 ∧ (match_clone m).2.st_off = m.st_off ∧
      (match_clone m).1.st_off = m.st_off + m.len) ∧
    (match_clone cloneInput).2.st_off = 10 ∧ cloneInput.st_off + cloneInput.len = 13 :=
  ⟨fun _ => ⟨rfl, rfl, rfl, rfl, rfl, rfl, rfl⟩, by decide, by decide⟩

/-- C17, as stated, fails: `overflowFirst` has the suffix-tree offset `INT_MAX` and the
length 1, `overflowSecond` starts in the same run at the same offset (`d = 0`) with the
suffix-tree offset `-INT_MAX`. The suffix-tree distance `s` is negative, and
`match_follows` returns 1: the sum and the difference are formed in `int` and wrap
around to the distance 1. -/
theorem match_follows_negative_distance_wraps :
    overflowSecond.start_p = overflowFirst.end_p ∧
      overflowSecond.start_pos - overflowFirst.end_pos = 0 ∧
      overflowSecond.st_off - (overflowFirst.st_off + overflowFirst.len) < 0 ∧
      match_follows overflowFirst overflowSecond = some true := by
  decide

/-- C17, amended: match chaining threshold in the same run. When `second` starts in the
run in which `first` ended, with the run distance `d = second.start_pos - first.end_pos`
and the suffix-tree distance `s = second.st_off - (first.st_off + first.len)`,
`match_follows` returns 1 exactly when the two distances, as the `int` values the code
forms, satisfy `d ≤ 2` and `0 ≤ s ≤ 2`. It returns 1 when `0 ≤ d ≤ 2` and `0 ≤ s ≤ 2`, and
0 when `d = 3`, when `s = 3`, and when `s < 0` is not below `INT_MIN`. -/
theorem match_follows_same_run (first second : Match) (hp : second.start_p = first.end_p) :
    match_follows first second =
        some (decide (wrap_int (second.start_pos - first.end_pos) ≤ 2 ∧
          0 ≤ wrap_int (second.st_off - (first.st_off + first.len)) ∧
          wrap_int (second.st_off - (first.st_off + first.len)) ≤ 2)) ∧
      (0 ≤ second.start_pos - first.end_pos → second.start_pos - first.end_pos ≤ 2 →
        0 ≤ second.st_off - (first.st_off + first.len) →
        second.st_off - (first.st_off + first.len) ≤ 2 →
        match_follows first second = some true) ∧
      (second.start_pos - first.end_pos = 3 ∨ second.st_off - (first.st_off + first.len) = 3 ∨
        (INT_MIN ≤ second.st_off - (first.st_off + first.len) ∧
          second.st_off - (first.st_off + first.len) < 0) →
        match_follows first second = some false) := by
  have e := follows_same_run_eq first second hp
  refine ⟨e, ?_, ?_⟩
  · intro h1 h2 h3 h4
    rw [e, wrap_int_of_range (by simp only [INT_MIN]; omega) (by simp only [INT_MAX]; omega),
      wrap_int_of_range (by simp only [INT_MIN]; omega) (by simp only [INT_MAX]; omega)]
    simp [h2, h3, h4]
  · intro hc
    rw [e]
    simp only [Option.some.injEq, decide_eq_false_iff_not]
    rcases hc with hc | hc | ⟨hc1, hc2⟩
    · rw [hc]
      intro hn
      exact absurd hn.1 (by decide)
    · rw [hc]
      intro hn
      exact absurd hn.2.2 (by decide)
    · rw [wrap_int_of_range hc1 (by simp only [INT_MAX]; omega)]
      omega

/-- The match `sameSecond` starts two characters after the end of `sameFirst` in "banana",
and one character later in the suffix tree. -/
theorem match_follows_same_run_witness :
    match_follows sameFirst sameSecond =
        some (decide (wrap_int (sameSecond.start_pos - sameFirst.end_pos) ≤ 2 ∧
          0 ≤ wrap_int (sameSecond.st_off - (sameFirst.st_off + sameFirst.len)) ∧
          wrap_int (sameSecond.st_off - (sameFirst.st_off + sameFirst.len)) ≤ 2)) ∧
      (0 ≤ sameSecond.start_pos - sameFirst.end_pos →
        sameSecond.start_pos - sameFirst.end_pos ≤ 2 →
        0 ≤ sameSecond.st_off - (sameFirst.st_off + sameFirst.len) →
        sameSecond.st_off - (sameFirst.st_off + sameFirst.len) ≤ 2 →
        match_follows sameFirst sameSecond = some true) ∧
      (sameSecond.start_pos - sameFirst.end_pos = 3 ∨
        sameSecond.st_off - (sameFirst.st_off + sameFirst.len) = 3 ∨
        (INT_MIN ≤ sameSecond.st_off - (sameFirst.st_off + sameFirst.len) ∧
          sameSecond.st_off - (sameFirst.st_off + sameFirst.len) < 0) →
        match_follows sameFirst sameSecond = some false) :=
  match_follows_same_run sameFirst sameSecond (by decide)

/-- C18, the code at the failing input: `gapFirst` ends at the only character of run 0 and
`gapSecond` starts at run 3; the runs 1 and 2 between them intersect the tracked set and
have the lengths 1 and 5. The loop of `match_follows` looks at the run 1, then moves `i` past
the run 2 without looking at it, and `match_follows` returns 1, although the skipped
lengths add up to 6, more than `KDIST`. -/
theorem match_follows_skips_a_run :
    gapSecond.start_p > gapFirst.end_p ∧ match_follows gapFirst gapSecond = some true ∧
      skipped_len gapFirst.pairs {1} gapFirst.end_p gapFirst.end_pos gapSecond.start_p = 6 ∧
      ¬ ((6 : Int) ≤ KDIST) := by
  decide

/-- C19, as stated, fails: for `overflowFirst` (suffix-tree offset `INT_MAX`, length 1) and
`overflowSecond` (suffix-tree offset `-INT_MAX`) the call `match_follows` returns 1, and
the suffix-tree distance `second.st_off - (first.st_off + first.len)` does not lie in
0..2: it is negative. -/
theorem match_follows_accepts_negative_distance :
    match_follows overflowFirst overflowSecond = some true ∧
      ¬ (0 ≤ overflowSecond.st_off - (overflowFirst.st_off + overflowFirst.len) ∧
        overflowSecond.st_off - (overflowFirst.st_off + overflowFirst.len) ≤ 2) := by
  decide

/-- C19, amended: for every pair of matches, `match_follows first second = 1` implies that
the suffix-tree distance, as the `int` value the code forms of
`second.st_off - (first.st_off + first.len)`, lies in 0..2. Whenever the distance itself
is an `int` value, `match_follows first second = 1` implies that it lies in 0..2: a
negative suffix-tree distance that is not below `INT_MIN` never qualifies. -/
theorem match_follows_st_dist (first second : Match)
    (hf : match_follows first second = some true) :
    (0 ≤ wrap_int (second.st_off - (first.st_off + first.len)) ∧
      wrap_int (second.st_off - (first.st_off + first.len)) ≤ 2) ∧
    (INT_MIN ≤ second.st_off - (first.st_off + first.len) →
      second.st_off - (first.st_off + first.len) ≤ INT_MAX →
      0 ≤ second.st_off - (first.st_off + first.len) ∧
        second.st_off - (first.st_off + first.len) ≤ 2) := by
  have key : 0 ≤ wrap_int (second.st_off - (first.st_off + first.len)) ∧
      wrap_int (second.st_off - (first.st_off + first.len)) ≤ 2 := by
    unfold match_follows at hf
    simp only [Option.bind_eq_bind, Option.some_bind, wrap_int_sub_wrap] at hf
    split_ifs at hf
    · simp only [Option.some.injEq, decide_eq_true_eq, KDIST] at hf
      exact ⟨hf.2.1, hf.2.2⟩
    · obtain ⟨p, _, hp⟩ := Option.bind_eq_some.1 hf
      obtain ⟨pd, _, hpd⟩ := Option.bind_eq_some.1 hp
      simp only [Option.some.injEq, decide_eq_true_eq, KDIST] at hpd
      exact ⟨hpd.2.1, hpd.2.2⟩
    · simp only [Option.some.injEq, decide_eq_true_eq, KDIST] at hf
      exact ⟨hf.2.1, hf.2.2⟩
  refine ⟨key, ?_⟩
  intro h1 h2
  rw [wrap_int_of_range h1 h2] at key
  exact key

/-- The matches `gapFirst` and `gapSecond`, for which `match_follows` returns 1. -/
theorem match_follows_st_dist_witness :
    (0 ≤ wrap_int (gapSecond.st_off - (gapFirst.st_off + gapFirst.len)) ∧
      wrap_int (gapSecond.st_off - (gapFirst.st_off + gapFirst.len)) ≤ 2) ∧
    (INT_MIN ≤ gapSecond.st_off - (gapFirst.st_off + gapFirst.len) →
      gapSecond.st_off - (gapFirst.st_off + gapFirst.len) ≤ INT_MAX →
      0 ≤ gapSecond.st_off - (gapFirst.st_off + gapFirst.len) ∧
        gapSecond.st_off - (gapFirst.st_off + gapFirst.len) ≤ 2) :=
  match_follows_st_dist gapFirst gapSecond (by decide)

/-- The function `match_advance` keeps `len`, in the scan. -/
theorem scan_len : ∀ (k : Nat) (i : Int) (m m1 : Match) (c : Nat),
    match_advance_scan k i m = some (m1, c) → m1.len = m.len
  | 0, i, m, m1, c, h => by
    simp only [match_advance_scan, Option.some.injEq, Prod.mk.injEq] at h
    obtain ⟨rfl, _⟩ := h
    rfl
  | k + 1, i, m, m1, c, h => by
    simp only [match_advance_scan, Option.bind_eq_bind] at h
    cases hp : pair_at m.pairs i with
    | none => simp [hp] at h
    | some p =>
      cases hb : m.bs with
      | none => simp [hp, hb] at h
      | some b =>
        simp only [hp, hb, Option.some_bind] at h
        split_ifs at h with h1 h2
        · cases hd : data_at (pair_data p) 0 with
          | none => simp [hd] at h
          | some d =>
            simp only [hd, Option.some_bind, Option.some.injEq, Prod.mk.injEq] at h
            obtain ⟨rfl, _⟩ := h
            rfl
        · exact (scan_len k (i + 1) _ m1 c h).trans rfl
        · exact scan_len k (i + 1) _ m1 c h

/-- The function `match_advance` keeps `len`. -/
theorem advance_len {beyond : Int → List Nat} {m m1 : Match} {c : Nat}
    (h : match_advance beyond m = some (m1, c)) : m1.len = m.len := by
  simp only [match_advance, Option.bind_eq_bind] at h
  cases hp : pair_at m.pairs m.end_p with
  | none => simp [hp] at h
  | some p =>
    simp only [hp, Option.some_bind] at h
    split_ifs at h with h1
    · exact (scan_len _ _ _ _ _ h).trans rfl
    · cases hd : data_at (pair_data p ++ beyond m.end_p) (wrap_int (m.end_pos + 1)) with
      | none => simp [hd] at h
      | some d =>
        simp only [hd, Option.some_bind, Option.some.injEq, Prod.mk.injEq] at h
        obtain ⟨rfl, _⟩ := h
        rfl

/-- After `k` accepted characters `len` has been incremented `k` times in `int`. -/
theorem acceptsN_len {Loc : Type} (adv : Loc → Nat → Option Loc) (beyond : Int → List Nat) :
    ∀ (k : Nat) (m : Match) (loc : Loc) (mk : Match) (lock : Loc),
      acceptsN adv beyond k m loc mk lock →
      (k = 0 → mk.len = m.len) ∧ (0 < k → mk.len = wrap_int (m.len + k))
  | 0, m, loc, mk, lock, h => by
    obtain ⟨rfl, _⟩ := h
    exact ⟨fun _ => rfl, fun hk => absurd hk (by omega)⟩
  | k + 1, m, loc, mk, lock, h => by
    obtain ⟨m0, loc0, ⟨ma, c, ha, _, _, rfl⟩, hrest⟩ := h
    obtain ⟨e0, e1⟩ := acceptsN_len adv beyond k _ loc0 mk lock hrest
    have e2 := advance_len ha
    refine ⟨fun hk => absurd hk (by omega), fun _ => ?_⟩
    rcases Nat.eq_zero_or_pos k with hk | hk
    · rw [e0 hk, hk]
      simp only [match_inc_len, e2]
      rfl
    · rw [e1 hk]
      simp only [match_inc_len, e2, wrap_int_wrap_add]
      congr 1
      push_cast
      omega

/-- Enough iterations: `k` accepted characters and then a stop give the result of the
loop for every bound above `k`. -/
theorem single_loop_of_accepts {Loc : Type} (adv : Loc → Nat → Option Loc)
    (beyond : Int → List Nat) : ∀ (k : Nat) (m : Match) (loc : Loc) (mk : Match) (lock : Loc)
    (m1 : Match) (fuel : Nat), acceptsN adv beyond k m loc mk lock →
      stops adv beyond mk lock m1 → k < fuel →
      match_single_loop adv beyond fuel m loc = some m1
  | 0, m, loc, mk, lock, m1, fuel, h, hs, hf => by
    obtain ⟨rfl, rfl⟩ := h
    obtain ⟨f, rfl⟩ : ∃ f, fuel = f + 1 := ⟨fuel - 1, by omega⟩
    obtain ⟨c, hc, hstop⟩ := hs
    simp only [match_single_loop, hc]
    rcases hstop with h0 | h0
    · simp [h0]
    · by_cases hz : c = 0
      · simp [hz]
      · simp [hz, h0]
  | k + 1, m, loc, mk, lock, m1, fuel, h, hs, hf => by
    obtain ⟨m0, loc0, ⟨ma, c, ha, hc, hadv, rfl⟩, hrest⟩ := h
    obtain ⟨f, rfl⟩ : ∃ f, fuel = f + 1 := ⟨fuel - 1, by omega⟩
    have ih := single_loop_of_accepts adv beyond k _ loc0 mk lock m1 f hrest hs (by omega)
    simp only [match_single_loop, ha, hc, ne_eq, not_false_eq_true, if_true, hadv, ih]

/-- A result of the loop comes from some number of accepted characters, below the bound,
and then a stop. -/
theorem accepts_of_single_loop {Loc : Type} (adv : Loc → Nat → Option Loc)
    (beyond : Int → List Nat) : ∀ (fuel : Nat) (m : Match) (loc : Loc) (m1 : Match),
    match_single_loop adv beyond fuel m loc = some m1 →
      ∃ k mk lock, k < fuel ∧ acceptsN adv beyond k m loc mk lock ∧ stops adv beyond mk lock m1
  | 0, m, loc, m1, h => by simp [match_single_loop] at h
  | f + 1, m, loc, m1, h => by
    simp only [match_single_loop] at h
    cases ha : match_advance beyond m with
    | none => simp [ha] at h
    | some r =>
      obtain ⟨ma, c⟩ := r
      simp only [ha] at h
      by_cases hc : c = 0
      · simp only [hc, ne_eq, not_true_eq_false, if_false, Option.some.injEq] at h
        subst h
        exact ⟨0, m, loc, by omega, ⟨rfl, rfl⟩, c, ha, Or.inl hc⟩
      · simp only [hc, ne_eq, not_false_eq_true, if_true] at h
        cases hadv : adv loc c with
        | none =>
          simp only [hadv, Option.some.injEq] at h
          subst h
          exact ⟨0, m, loc, by omega, ⟨rfl, rfl⟩, c, ha, Or.inr hadv⟩
        | some loc0 =>
          simp only [hadv] at h
          obtain ⟨k, mk, lock, hk0, hk, hs⟩ := accepts_of_single_loop adv beyond f _ loc0 m1 h
          exact ⟨k + 1, mk, lock, by omega, ⟨_, loc0, ⟨ma, c, ha, hc, hadv, rfl⟩, hk⟩, hs⟩

/-- At the last character of a run `match_advance` reads the code unit stored after the
run and stays in the run: at the last character of "pear", with a 0 stored after the
text, it returns the 0 and leaves `end_pos` at 4, and `match_single` returns 0 with the
length 0. -/
theorem match_advance_at_run_end :
    (match_advance zeroTerminated lastCharInput).map (fun r => (r.1.end_p, r.1.end_pos, r.2)) =
        some (0, 4, 0) ∧
      (match_single acceptAll () zeroTerminated 1 lastCharInput).map
        (fun r => (r.1.len, r.2)) = some (0, false) := by
  decide

/-- C20, as stated, fails: `cloneInput` enters with the length 3 at the last character but
one of the only run, `match_advance` returns the end marker 0 at once, no character is
accepted, and `match_single` returns 1 because the length 3 is positive. -/
theorem match_single_returns_old_len :
    cloneInput.len = 3 ∧
      (match_advance zeroTerminated cloneInput).map (fun r => r.2) = some 0 ∧
      (match_single acceptAll () zeroTerminated 1 cloneInput).map (fun r => (r.1.len, r.2)) =
        some (3, true) := by
  decide

/-- C20, amended: for every match `m`, every suffix-tree oracle and every content of the
storage after the runs, `match_single m` returns the match `m1` and the flag `r`, for a
bound on the iterations that is large enough, exactly when for some `k` the first `k`
calls of `match_advance` return characters other than the end marker which the suffix
tree accepts one after the other, and the next call returns the end marker or a rejected
character, leaving `m1`. It then returns this for every bound above `k`; `m1.len` is
`m.len` incremented `k` times, which is `m.len + k` as long as that is an `int`; and `r`
is 1 exactly when `m1.len` is positive: for a match that enters with the length 0,
exactly when `k > 0`. -/
theorem match_single_spec {Loc : Type} (adv : Loc → Nat → Option Loc) (root : Loc)
    (beyond : Int → List Nat) (m m1 : Match) (r : Bool) :
    ((∃ fuel, match_single adv root beyond fuel m = some (m1, r)) ↔
      ∃ k mk lock, acceptsN adv beyond k m root mk lock ∧ stops adv beyond mk lock m1 ∧
        r = decide (0 < m1.len)) ∧
    (∀ k mk lock, acceptsN adv beyond k m root mk lock → stops adv beyond mk lock m1 →
      (∀ fuel, k < fuel →
        match_single adv root beyond fuel m = some (m1, decide (0 < m1.len))) ∧
      (INT_MIN ≤ m.len → m.len + k ≤ INT_MAX → m1.len = m.len + k) ∧
      (m.len = 0 → (k : Int) ≤ INT_MAX → decide (0 < m1.len) = decide (0 < k))) := by
  have hret : ∀ k mk lock, acceptsN adv beyond k m root mk lock →
      stops adv beyond mk lock m1 → ∀ fuel, k < fuel →
      match_single adv root beyond fuel m = some (m1, decide (0 < m1.len)) := by
    intro k mk lock hk hs fuel hf
    have h2 := single_loop_of_accepts adv beyond k m root mk lock m1 fuel hk hs hf
    simp only [match_single, h2, Option.map_some', gt_iff_lt]
  have hlen : ∀ k mk lock, acceptsN adv beyond k m root mk lock →
      stops adv beyond mk lock m1 → INT_MIN ≤ m.len → m.len + k ≤ INT_MAX →
      m1.len = m.len + k := by
    intro k mk lock hk hs h1 h2
    obtain ⟨c, hc, _⟩ := hs
    rw [advance_len hc]
    obtain ⟨e0, e1⟩ := acceptsN_len adv beyond k m root mk lock hk
    rcases Nat.eq_zero_or_pos k with hk0 | hk0
    · rw [e0 hk0, hk0]
      simp
    · rw [e1 hk0]
      exact wrap_int_of_range (by omega) h2
  refine ⟨⟨?_, ?_⟩, ?_⟩
  · rintro ⟨fuel, h⟩
    simp only [match_single, Option.map_eq_some', Prod.mk.injEq] at h
    obtain ⟨m2, h2, rfl, rfl⟩ := h
    obtain ⟨k, mk, lock, _, hk, hs⟩ := accepts_of_single_loop adv beyond _ m root m2 h2
    exact ⟨k, mk, lock, hk, hs, by simp only [gt_iff_lt]⟩
  · rintro ⟨k, mk, lock, hk, hs, rfl⟩
    exact ⟨k + 1, hret k mk lock hk hs (k + 1) (by omega)⟩
  · intro k mk lock hk hs
    refine ⟨hret k mk lock hk hs, hlen k mk lock hk hs, ?_⟩
    intro h0 hkm
    have e := hlen k mk lock hk hs (by rw [h0]; decide) (by rw [h0]; omega)
    rw [e, h0]
    simp

/-- The match `advanceInput` with a suffix tree that accepts everything and a 0 stored
after every run: one character, the 'o' of "orange", is accepted, then the pairs end. -/
theorem match_single_spec_witness :
    (∃ k mk lock, acceptsN acceptAll zeroTerminated k advanceInput () mk lock ∧
      stops acceptAll zeroTerminated mk lock advanceFinal ∧
      true = decide (0 < advanceFinal.len)) ∧
    match_single acceptAll () zeroTerminated 2 advanceInput =
      some (advanceFinal, decide (0 < advanceFinal.len)) :=
  have w := match_single_spec acceptAll () zeroTerminated advanceInput advanceFinal true
  have h : ∃ k mk lock, acceptsN acceptAll zeroTerminated k advanceInput () mk lock ∧
      stops acceptAll zeroTerminated mk lock advanceFinal ∧
      true = decide (0 < advanceFinal.len) := w.1.1 ⟨2, by decide⟩
  ⟨h, by decide⟩

/-! ## Claims on chains of matches -/

/-- C29, as stated, fails: `farSecond`, as `match_create` makes it, starts in the run in
which `farFirst` ended, at the offset `INT_MIN`, before the offset 1 where `farFirst`
ended, with the suffix-tree distance 0; the run distance `INT_MIN - 1` wraps around to
`INT_MAX` and `match_follows` returns 0. -/
theorem match_follows_backwards_overflow :
    farSecond.start_p = farFirst.end_p ∧ farSecond.start_pos < farFirst.end_pos ∧
      farSecond.st_off - (farFirst.st_off + farFirst.len) = 0 ∧
      match_follows farFirst farSecond = some false := by
  decide

/-- C29, amended: backwards motion inside one run is accepted by the run-list test. When
`second` starts in the run in which `first` ended but before the point where `first`
ended, the run distance `second.start_pos - first.end_pos` is not below `INT_MIN`, and
the suffix-tree distance lies in 0..2, `match_follows` returns 1; when `second` starts in
an earlier run it returns 0, whatever the suffix-tree distance. -/
theorem match_follows_backwards (first second : Match) :
    (second.start_p = first.end_p → second.start_pos < first.end_pos →
      INT_MIN ≤ second.start_pos - first.end_pos →
      0 ≤ second.st_off - (first.st_off + first.len) →
      second.st_off - (first.st_off + first.len) ≤ 2 →
      match_follows first second = some true) ∧
    (second.start_p < first.end_p → match_follows first second = some false) := by
  constructor
  · intro hp hd hm h1 h2
    rw [follows_same_run_eq first second hp,
      wrap_int_of_range hm (by simp only [INT_MAX]; omega),
      wrap_int_of_range (by simp only [INT_MIN]; omega) (by simp only [INT_MAX]; omega)]
    have hd1 : second.start_pos - first.end_pos ≤ 2 := by omega
    simp [hd1, h1, h2]
  · intro hp
    have h1 : ¬ second.start_p = first.end_p := by omega
    have h2 : ¬ second.start_p > first.end_p := by omega
    simp [match_follows, h1, h2, KDIST, INT_MAX]

/-- The match `backSecond` starts at offset 0 of "banana", one character before the end
of `sameFirst`, and one character later in the suffix tree; seen from `gapSecond`, which
ends in run 3, the match `gapFirst` starts in the earlier run 0. -/
theorem match_follows_backwards_witness :
    match_follows sameFirst backSecond = some true ∧
      match_follows gapSecond gapFirst = some false :=
  ⟨(match_follows_backwards sameFirst backSecond).1 (by decide) (by decide) (by decide)
      (by decide) (by decide),
    (match_follows_backwards gapSecond gapFirst).2 (by decide)⟩

/-! ## Claims on `linkpair_to_pairs` and `linkpair_remove` -/

theorem right_steps_none (h : Heap) : ∀ k : Nat, right_steps h k none = none
  | 0 => rfl
  | _ + 1 => rfl

theorem right_steps_of_Seg {h : Heap} : ∀ (l : List Nat) (prev : Option Nat) (i : Nat),
    Seg h prev l none → right_steps h i (headOr l none) = l[i]?
  | [], _, i, _ => by simp [headOr, right_steps_none]
  | a :: rest, prev, 0, _ => by simp [headOr, right_steps]
  | a :: rest, prev, i + 1, hs => by
    obtain ⟨ha, hst⟩ := hs
    obtain ⟨an, han, _, har⟩ := links_eq_some.1 ha
    have ih := right_steps_of_Seg rest (some a) i hst
    show right_steps h (i + 1) (some a) = _
    simp only [right_steps, han, Option.some_bind, har, ih, List.getElem?_cons_succ]

theorem runs_get_of_Seg {h : Heap} : ∀ (l : List Nat) (prev : Option Nat) (i : Nat),
    Seg h prev l none → (runs h l)[i]? = (l[i]?).bind (fun a => (h[a]?).map LinkPair.p)
  | [], _, i, _ => by simp [runs]
  | a :: rest, prev, i, hs => by
    obtain ⟨ha, hst⟩ := hs
    obtain ⟨an, han, _, _⟩ := links_eq_some.1 ha
    have e : runs h (a :: rest) = an.p :: runs h rest := by simp [runs, han]
    rw [e]
    cases i with
    | zero => simp [han]
    | succ j =>
      simp only [List.getElem?_cons_succ]
      exact runs_get_of_Seg rest (some a) j hst

theorem runs_length_of_Seg {h : Heap} : ∀ (l : List Nat) (prev : Option Nat),
    Seg h prev l none → (runs h l).length = l.length
  | [], _, _ => by simp [runs]
  | a :: rest, prev, hs => by
    obtain ⟨ha, hst⟩ := hs
    obtain ⟨an, han, _, _⟩ := links_eq_some.1 ha
    have e : runs h (a :: rest) = an.p :: runs h rest := by simp [runs, han]
    rw [e, List.length_cons, List.length_cons, runs_length_of_Seg rest (some a) hst]

/-- C25: for a node `n` of a well-formed acyclic list, `linkpair_to_pairs n` returns a
sequence with exactly `linkpair_list_len n` elements, one for each node from `n` to the
end, and its element `i` is the run wrapped by the node reached from `n` by following
`right` links `i` times. -/
theorem linkpair_to_pairs_spec (h : Heap) (l : List Nat) (n : Nat) (hl : IsList h l)
    (hn : n ∈ l) :
    ∃ l1 l2 da, l = l1 ++ n :: l2 ∧ linkpair_to_pairs h (some n) = some da ∧
      linkpair_list_len h (some n) = some da.length ∧ da.length = (n :: l2).length ∧
      ∀ i, i < da.length → ∃ a c, right_steps h i (some n) = some a ∧ (n :: l2)[i]? = some a ∧
        h[a]? = some c ∧ da[i]? = some c.p := by
  obtain ⟨l1, l2, nd, rfl, _, _, _, _, _, _, s2, hnd, hnl, hnr⟩ := hl.cut hn
  have hs : Seg h (lastOr l1 none) (n :: l2) none :=
    ((Seg_append l1 (n :: l2) none none).1 hl.2).2
  have hlen : (n :: l2).length < h.length + 1 := by
    have h1 := hl.length_le
    simp only [List.length_append, List.length_cons] at h1 ⊢
    omega
  have e1 := list_len_loop_of_Seg (n :: l2) _ (h.length + 1) 0 hs hlen
  have e2 := to_pairs_loop_of_Seg (n :: l2) _ (h.length + 1) [] hs hlen
  have e3 := runs_length_of_Seg (n :: l2) _ hs
  have h1 : linkpair_list_len h (some n) = some (n :: l2).length := by
    simpa [linkpair_list_len, headOr] using e1
  refine ⟨l1, l2, runs h (n :: l2), rfl, ?_, ?_, e3, ?_⟩
  · have e4 : linkpair_to_pairs_loop (h.length + 1) h (some n) [] = some (runs h (n :: l2)) := by
      simpa [headOr] using e2
    simp only [linkpair_to_pairs, Option.bind_eq_bind, h1, Option.some_bind, e4]
  · rw [h1, e3]
  · intro i hi
    rw [e3] at hi
    have g1 := right_steps_of_Seg (n :: l2) _ i hs
    have g2 := runs_get_of_Seg (n :: l2) _ i hs
    obtain ⟨a, ha⟩ : ∃ a, (n :: l2)[i]? = some a := ⟨(n :: l2)[i], List.getElem?_eq_getElem hi⟩
    have hmem : a ∈ n :: l2 := List.mem_iff_getElem?.2 ⟨i, ha⟩
    have hlt := Seg_lt hs a hmem
    obtain ⟨c, hc⟩ : ∃ c, h[a]? = some c := ⟨h[a], List.getElem?_eq_getElem hlt⟩
    refine ⟨a, c, ?_, ha, hc, ?_⟩
    · rw [← ha]
      simpa [headOr] using g1
    · rw [g2, ha]
      simp [hc]

/-- The runs from `lp2` of the test list to its end. -/
theorem linkpair_to_pairs_spec_witness :
    ∃ l1 l2 da, [0, 1, 2] = l1 ++ 1 :: l2 ∧ linkpair_to_pairs testHeap (some 1) = some da ∧
      linkpair_list_len testHeap (some 1) = some da.length ∧ da.length = (1 :: l2).length ∧
      ∀ i, i < da.length → ∃ a c, right_steps testHeap i (some 1) = some a ∧
        (1 :: l2)[i]? = some a ∧ testHeap[a]? = some c ∧ da[i]? = some c.p :=
  linkpair_to_pairs_spec testHeap [0, 1, 2] 1 (by decide) (by decide)

/-- The call `linkpair_remove` on a node of a well-formed list. -/
theorem remove_list {h : Heap} {l : List Nat} {n : Nat} (hl : IsList h l) (hn : n ∈ l) :
    ∃ h1 l1 l2 nd, l = l1 ++ n :: l2 ∧ n ∉ l1 ∧ h[n]? = some nd ∧
      nd.left = lastOr l1 none ∧ nd.right = headOr l2 none ∧
      linkpair_remove h n = some h1 ∧ IsList h1 (l1 ++ l2) ∧
      (∀ b : Nat, (h1[b]?).map LinkPair.p = (h[b]?).map LinkPair.p) := by
  obtain ⟨l1, l2, nd, rfl, d1, d2, o1, o2, dj, s1, s2, hnd, hnl, hnr⟩ := hl.cut hn
  obtain ⟨h2, e2, hl2, p2⟩ := remove_cut d1 d2 o1 o2 dj s1 s2 hnd hnl hnr
  exact ⟨h2, l1, l2, nd, rfl, o1, hnd, hnl, hnr, e2, hl2, p2⟩

/-- C24: `linkpair_remove n`, for a node `n` of a well-formed list, completes; the former
neighbours of `n` are adjacent to each other, the list is the old list without `n`, one
node shorter and in the same order, with the same runs. When `linkpair_add_hint n v` has
inserted a new hint node before `n`, removing that hint gives back the original list, its
runs and its `linkpair_list_len`. -/
theorem linkpair_remove_spec (h : Heap) (l : List Nat) (n : Nat) (nd : LinkPair)
    (hl : IsList h l) (hn : n ∈ l) (hnd : h[n]? = some nd) :
    (∃ h1, linkpair_remove h n = some h1 ∧ IsList h1 (l.erase n) ∧
      (l.erase n).length + 1 = l.length ∧
      linkpair_list_len h1 (headOr (l.erase n) none) = some (l.length - 1) ∧
      runs h1 (l.erase n) = runs h (l.erase n) ∧
      (∀ a, nd.left = some a → ∃ c, h1[a]? = some c ∧ c.right = nd.right) ∧
      (∀ b, nd.right = some b → ∃ c, h1[b]? = some c ∧ c.left = nd.left)) ∧
    (∀ v li ln, nd.left = some li → h[li]? = some ln → pair_is_hint ln.p = false →
      v ∉ pair_versions ln.p →
      ∃ h2 h3 hn, linkpair_add_hint h n v = some h2 ∧ h2[h.length]? = some hn ∧
        pair_is_hint hn.p = true ∧ linkpair_remove h2 h.length = some h3 ∧ IsList h3 l ∧
        runs h3 l = runs h l ∧
        linkpair_list_len h3 (headOr l none) = linkpair_list_len h (headOr l none)) := by
  constructor
  · obtain ⟨h1, l1, l2, nd1, rfl, o1, hnd1, hnl, hnr, e1, hl1, p1⟩ := remove_list hl hn
    rw [hnd] at hnd1
    cases hnd1
    have he := erase_middle l2 o1
    obtain ⟨t1, t2⟩ := (Seg_append l1 l2 none none).1 hl1.2
    refine ⟨h1, e1, he.symm ▸ hl1, ?_, ?_, ?_, ?_, ?_⟩
    · rw [he]
      simp only [List.length_append, List.length_cons]
      omega
    · rw [he, list_len_of_IsList hl1]
      simp
    · exact runs_congr (fun b _ => p1 b)
    · intro a ha
      obtain ⟨c, hc, hcr⟩ := Seg_last_right t1 (hnl ▸ ha)
      exact ⟨c, hc, hcr.trans hnr.symm⟩
    · intro b hb
      obtain ⟨c, hc, hcl⟩ := Seg_head_left t2 (hnr ▸ hb)
      exact ⟨c, hc, hcl.trans hnl.symm⟩
  · intro v li ln hli hln hh hv
    obtain ⟨h5, e5, _, gr, ⟨n5, gn, _, gnp, _⟩, ⟨l5, gl, _, glp, _⟩, fr⟩ :=
      add_hint_fresh hnd hli hln hh hv
    obtain ⟨l1, l2, nd1, rfl, _, _, _, _, _, _, _, hnd1, hnl, _⟩ := hl.cut hn
    rw [hnd] at hnd1
    cases hnd1
    rw [hli] at hnl
    obtain ⟨t, rfl⟩ := lastOr_eq_some hnl.symm
    have hl0 : IsList h (t ++ li :: n :: l2) := by simpa using hl
    obtain ⟨h5a, e5a, hl5⟩ := add_hint_cut v hl0 hln
    rw [e5] at e5a
    cases e5a
    rw [if_neg (by simp [hh, hv])] at hl5
    have hlt := Seg_lt hl0.2
    have hmem : h.length ∈ t ++ li :: h.length :: n :: l2 := by simp
    obtain ⟨h6, k1, k2, ndr, ek, ok, _, _, _, e6, hl6, p6⟩ := remove_list hl5 hmem
    have hnot : h.length ∉ t ++ [li] := by
      intro hm
      have := hlt h.length (by
        rcases List.mem_append.1 hm with e | e
        · simp [e]
        · simp only [List.mem_singleton] at e
          simp [← e])
      omega
    have ek1 : (t ++ [li]) ++ h.length :: (n :: l2) = k1 ++ h.length :: k2 := by
      simpa using ek
    have hk : k1 ++ k2 = t ++ li :: n :: l2 := by
      have a1 := erase_middle (n :: l2) hnot
      have a2 := erase_middle k2 ok
      rw [ek1, a2] at a1
      simpa using a1
    have hl7 : IsList h6 (t ++ li :: n :: l2) := hk ▸ hl6
    have hl8 : IsList h6 (t ++ [li] ++ n :: l2) := by simpa using hl7
    have hruns : runs h6 (t ++ [li] ++ n :: l2) = runs h (t ++ [li] ++ n :: l2) := by
      apply runs_congr
      intro b hb
      rw [p6 b]
      by_cases eb1 : b = li
      · subst eb1
        rw [gl, hln, Option.map_some', Option.map_some', glp]
      · by_cases eb2 : b = n
        · subst eb2
          rw [gn, hnd, Option.map_some', Option.map_some', gnp]
        · rw [fr b eb1 eb2 (Seg_lt hl.2 b hb)]
    refine ⟨h5, h6, _, e5, gr, rfl, e6, hl8, hruns, ?_⟩
    rw [list_len_of_IsList hl8, list_len_of_IsList hl]

/-- The test `linkpair_test_hint` on the list `lp1`, `lp2`, `lp3`: the removal of `lp2`,
and the hint for the version 2 that is added before `lp2` and removed again. -/
theorem linkpair_remove_spec_witness :
    (∃ h1, linkpair_remove testHeap 1 = some h1 ∧ IsList h1 ([0, 1, 2].erase 1) ∧
      linkpair_list_len h1 (headOr ([0, 1, 2].erase 1) none) = some ([0, 1, 2].length - 1)) ∧
    (∃ h2 h3 hn, linkpair_add_hint testHeap 1 2 = some h2 ∧
      h2[testHeap.length]? = some hn ∧ pair_is_hint hn.p = true ∧
      linkpair_remove h2 testHeap.length = some h3 ∧ IsList h3 [0, 1, 2] ∧
      runs h3 [0, 1, 2] = runs testHeap [0, 1, 2] ∧
      linkpair_list_len h3 (headOr [0, 1, 2] none) =
        linkpair_list_len testHeap (headOr [0, 1, 2] none)) :=
  have w := linkpair_remove_spec testHeap [0, 1, 2] 1
    { p := p2, left := some 0, right := some 2, st_off := 0 } (by decide) (by decide) rfl
  ⟨let ⟨h1, a, b, _, c, _⟩ := w.1; ⟨h1, a, b, c⟩,
    w.2 2 0 { p := p1, left := none, right := some 1, st_off := 0 } rfl rfl (by decide)
      (by decide)⟩

/-! ## Claims on `linkpair_split` of child and parent runs, and on `linkpair_replace` by a node of the list -/

/-- C26, refuted by the code: `linkpair_split` on a child run and on a parent run returns
with the heap as it was, the same outcome shape as a split that succeeded; nothing is
reported. -/
theorem linkpair_split_child_parent_silent :
    (childHeap[0]?).map (fun c => pair_is_child c.p) = some true ∧
    (childHeap[1]?).map (fun c => pair_is_parent c.p) = some true ∧
    linkpair_split childHeap 0 2 = some childHeap ∧
    linkpair_split childHeap 1 2 = some childHeap ∧
    (∃ h1, linkpair_split testHeap 1 2 = some h1 ∧ h1 ≠ testHeap) := by
  refine ⟨by decide, by decide, by decide, by decide, ?_⟩
  exact ⟨_, rfl, by decide⟩

/-- A cell whose right link points at itself is never left by following right links. -/
theorem right_steps_self {h : Heap} {n : Nat} {nn : LinkPair} (hn : h[n]? = some nn)
    (hr : nn.right = some n) : ∀ k : Nat, right_steps h k (some n) = some n
  | 0 => rfl
  | k + 1 => by
    show right_steps h k ((h[n]?).bind LinkPair.right) = some n
    rw [hn, Option.some_bind, hr]
    exact right_steps_self hn hr k

/-- The loop of `linkpair_list_len` does not end on a cell whose right link points at
itself, whatever the bound on its iterations. -/
theorem list_len_loop_self {h : Heap} {n : Nat} {nn : LinkPair} (hn : h[n]? = some nn)
    (hr : nn.right = some n) :
    ∀ (fuel len : Nat), linkpair_list_len_loop fuel h (some n) len = none
  | 0, _ => rfl
  | fuel + 1, len => by
    simp only [linkpair_list_len_loop, hn, hr]
    exact list_len_loop_self hn hr fuel (len + 1)

/-- Right links followed from the head of a segment that leads into a self-loop stay in
the segment and the loop. -/
theorem right_steps_into_self {h : Heap} {n : Nat} {nn : LinkPair} (hn : h[n]? = some nn)
    (hr : nn.right = some n) : ∀ (l : List Nat) (prev : Option Nat) (k : Nat),
    Seg h prev l (some n) → ∃ a, right_steps h k (headOr l (some n)) = some a ∧ a ∈ l ++ [n]
  | [], _, k, _ => ⟨n, right_steps_self hn hr k, by simp⟩
  | a :: rest, _, 0, _ => ⟨a, rfl, by simp⟩
  | a :: rest, _, k + 1, hs => by
    obtain ⟨ha, hst⟩ := hs
    obtain ⟨an, han, _, har⟩ := links_eq_some.1 ha
    obtain ⟨b, hb, hm⟩ := right_steps_into_self hn hr rest (some a) k hst
    refine ⟨b, ?_, by simp only [List.cons_append, List.mem_cons]; exact Or.inr hm⟩
    show right_steps h k ((h[a]?).bind LinkPair.right) = some b
    rw [han, Option.some_bind, har]
    exact hb

/-- The loop of `linkpair_list_len` does not end when started at the head of a segment
that leads into a self-loop. -/
theorem list_len_loop_into_self {h : Heap} {n : Nat} {nn : LinkPair} (hn : h[n]? = some nn)
    (hr : nn.right = some n) : ∀ (l : List Nat) (prev : Option Nat) (fuel len : Nat),
    Seg h prev l (some n) → linkpair_list_len_loop fuel h (headOr l (some n)) len = none
  | [], _, fuel, len, _ => list_len_loop_self hn hr fuel len
  | a :: rest, _, 0, _, _ => rfl
  | a :: rest, _, fuel + 1, len, hs => by
    obtain ⟨ha, hst⟩ := hs
    obtain ⟨an, han, _, har⟩ := links_eq_some.1 ha
    simp only [headOr, linkpair_list_len_loop, han, har]
    exact list_len_loop_into_self hn hr rest (some a) fuel (len + 1) hst

/-- C30: in a well-formed list in which `new` is the right neighbour of `old`,
`linkpair_replace old new` completes and leaves `new` with its right link pointing at
`new` itself. The loop of `linkpair_list_len` from the head of the list (the first node,
or `new` when `old` was the first) does not end for any bound, `linkpair_list_len` has no
result, every number of right steps from the head arrives at a node before `new` or at
`new`, and never at a node that was right of `new`. -/
theorem linkpair_replace_by_right_neighbour (h : Heap) (l1 l2 : List Nat) (old new : Nat)
    (hl : IsList h (l1 ++ old :: new :: l2)) :
    ∃ h1 nn, linkpair_replace h old new = some h1 ∧ h1[new]? = some nn ∧
      nn.right = some new ∧ nn.left = lastOr l1 none ∧
      (∀ fuel len : Nat, linkpair_list_len_loop fuel h1 (headOr l1 (some new)) len = none) ∧
      linkpair_list_len h1 (headOr l1 (some new)) = none ∧
      (∀ k : Nat, ∃ a, right_steps h1 k (headOr l1 (some new)) = some a ∧ a ∈ l1 ++ [new]) ∧
      (∀ (k b : Nat), b ∈ l2 → right_steps h1 k (headOr l1 (some new)) ≠ some b) := by
  obtain ⟨hnd, hs⟩ := hl
  obtain ⟨s1, ho, _, _⟩ := (Seg_append l1 (old :: new :: l2) none none).1 hs
  obtain ⟨od, hod, hol, hor⟩ := links_eq_some.1 ho
  have hor1 : od.right = some new := hor
  obtain ⟨d1, d2, dj⟩ := List.nodup_append.1 hnd
  have o1 : old ∉ l1 := fun hm => dj hm (by simp)
  have n1 : new ∉ l1 := fun hm => dj hm (by simp)
  have hne : new ≠ old := fun e => by
    have := (List.nodup_cons.1 d2).1
    exact this (by simp [e])
  have n2 : new ∉ l2 := (List.nodup_cons.1 (List.nodup_cons.1 d2).2).1
  have hlt := Seg_lt hs
  obtain ⟨nn, hnn⟩ : ∃ nn, h[new]? = some nn := by
    have : new < h.length := hlt new (by simp)
    exact ⟨h[new], List.getElem?_eq_getElem this⟩
  obtain ⟨h1, e1, t1, _, f1, _⟩ := Seg_relink_right (some new) s1 d1
  have ho1 : h1[old]? = some od := (f1 old o1).trans hod
  have hn1 : h1[new]? = some nn := (f1 new n1).trans hnn
  rw [← hol] at e1
  have e2 : modifyIfPresent h1 od.right (fun x => { x with left := some new }) =
      some (h1.set new { nn with left := some new }) := by
    rw [hor1]
    exact modify_eq _ hn1
  have hn2 := get_set_self { nn with left := some new } hn1
  have ho2 : (h1.set new { nn with left := some new })[old]? = some od :=
    (get_set_ne _ hne).trans ho1
  have hn3 := get_set_self { nn with left := some new, right := od.right } hn2
  have ho3 := (get_set_ne { nn with left := some new, right := od.right } hne).trans ho2
  have hn4 := get_set_self { nn with left := od.left, right := od.right } hn3
  have ho4 := (get_set_ne { nn with left := od.left, right := od.right } hne).trans ho3
  have hne1 : old ≠ new := fun e => hne e.symm
  have hn5 := (get_set_ne { od with left := none, right := none } hne1).trans hn4
  have t5 : Seg ((((h1.set new { nn with left := some new }).set new
      { nn with left := some new, right := od.right }).set new
      { nn with left := od.left, right := od.right }).set old
      { od with left := none, right := none }) none l1 (some new) := by
    rw [Seg_set_of_not_mem o1, Seg_set_of_not_mem n1, Seg_set_of_not_mem n1,
      Seg_set_of_not_mem n1]
    exact t1
  have hsteps := right_steps_into_self hn5 hor1 l1 none
  refine ⟨_, _, ?_, hn5, hor1, hol, ?_, ?_, ?_, ?_⟩
  · simp only [linkpair_replace, Option.bind_eq_bind, Option.some_bind, hod, e1, ho1, e2, ho2,
      modify_eq _ hn2, ho3, modify_eq _ hn3, modify_eq _ ho4]
  · intro fuel len
    exact list_len_loop_into_self hn5 hor1 l1 none fuel len t5
  · exact list_len_loop_into_self hn5 hor1 l1 none _ 0 t5
  · intro k
    exact hsteps k t5
  · intro k b hb e
    obtain ⟨a, ha, hm⟩ := hsteps k t5
    rw [e] at ha
    cases ha
    rcases List.mem_append.1 hm with hm1 | hm1
    · exact dj hm1 (by simp [hb])
    · simp only [List.mem_singleton] at hm1
      exact n2 (hm1 ▸ hb)

/-- The list `p1`, `p2`, `p3`, `p4` of the spec's example with `old` = `p2` and
`new` = `p3`. -/
theorem linkpair_replace_by_right_neighbour_witness :
    IsList exampleHeap ([0] ++ 1 :: 2 :: [3]) ∧
    ∃ h1 nn, linkpair_replace exampleHeap 1 2 = some h1 ∧ h1[2]? = some nn ∧
      nn.right = some 2 ∧ nn.left = lastOr [0] none ∧
      (∀ fuel len : Nat, linkpair_list_len_loop fuel h1 (headOr [0] (some 2)) len = none) ∧
      linkpair_list_len h1 (headOr [0] (some 2)) = none ∧
      (∀ k : Nat, ∃ a, right_steps h1 k (headOr [0] (some 2)) = some a ∧ a ∈ [0] ++ [2]) ∧
      (∀ (k b : Nat), b ∈ [3] → right_steps h1 k (headOr [0] (some 2)) ≠ some b) :=
  ⟨by decide, linkpair_replace_by_right_neighbour exampleHeap [0] [3] 1 2 (by decide)⟩

/-! ## Claims on `linkpair_list_circular` -/

theorem unvisited_card_le (h : Heap) (hm : HashMap) : (unvisited h hm).card ≤ h.length := by
  unfold unvisited
  exact (Finset.card_filter_le _ _).trans (by simp)

/-- A key put for an allocated address that was not in the map leaves fewer addresses
unvisited. -/
theorem unvisited_put_lt {h : Heap} {hm : HashMap} {a : Nat} (ha : a < h.length)
    (hn : hashmap_contains hm (ascii_to_uchar (some a)) = false) :
    (unvisited h (hashmap_put hm (ascii_to_uchar (some a)))).card < (unvisited h hm).card := by
  have hn1 : ascii_to_uchar (some a) ∉ hm := by simpa [hashmap_contains] using hn
  apply Finset.card_lt_card
  rw [Finset.ssubset_iff_of_subset]
  · refine ⟨a, ?_, ?_⟩
    · simp [unvisited, ha, hn1]
    · simp [unvisited, hashmap_put]
  · intro b hb
    simp only [unvisited, hashmap_put, Finset.mem_filter, Finset.mem_range, List.mem_cons,
      not_or] at hb ⊢
    exact ⟨hb.1, hb.2.2⟩

/-- A walk that stays in a set of cells closed under the link and never meets `NULL`
finds a key twice. -/
theorem circular_loop_closed {h : Heap} {dir : LinkPair → Option Nat} {S : List Nat}
    (hS : ∀ a ∈ S, ∃ b ∈ S, (h[a]?).bind dir = some b) :
    ∀ (fuel : Nat) (hm : HashMap) (a : Nat), a ∈ S → (unvisited h hm).card < fuel →
      ∃ hm1, linkpair_list_circular_loop dir fuel h hm (some a) = some (true, hm1)
  | 0, _, _, _, hf => by omega
  | fuel + 1, hm, a, ha, hf => by
    obtain ⟨b, hb, hab⟩ := hS a ha
    obtain ⟨c, hc, hcb⟩ := Option.bind_eq_some.1 hab
    by_cases hin : hashmap_contains hm (ascii_to_uchar (some a)) = true
    · exact ⟨hm, by simp only [linkpair_list_circular_loop, hin, if_true]⟩
    · have hin1 : hashmap_contains hm (ascii_to_uchar (some a)) = false := by simpa using hin
      have hlt := unvisited_put_lt (lt_of_get hc) hin1
      obtain ⟨hm1, e1⟩ := circular_loop_closed hS fuel
        (hashmap_put hm (ascii_to_uchar (some a))) b hb (by omega)
      refine ⟨hm1, ?_⟩
      simp only [linkpair_list_circular_loop, hin1, hc, hcb]
      exact e1

/-- A walk inside a set of cells whose links lead to `NULL` or back into the set comes to
an end. -/
theorem circular_loop_total {h : Heap} {dir : LinkPair → Option Nat} {T : List Nat}
    (hT : ∀ a ∈ T, ∃ c, h[a]? = some c ∧ ∀ b, dir c = some b → b ∈ T) :
    ∀ (fuel : Nat) (hm : HashMap) (q : Option Nat), (∀ a, q = some a → a ∈ T) →
      (unvisited h hm).card < fuel →
      ∃ res hm1, linkpair_list_circular_loop dir fuel h hm q = some (res, hm1)
  | 0, _, _, _, hf => by omega
  | fuel + 1, hm, none, _, _ => ⟨false, hm, rfl⟩
  | fuel + 1, hm, some a, hq, hf => by
    obtain ⟨c, hc, hcT⟩ := hT a (hq a rfl)
    by_cases hin : hashmap_contains hm (ascii_to_uchar (some a)) = true
    · exact ⟨true, hm, by simp only [linkpair_list_circular_loop, hin, if_true]⟩
    · have hin1 : hashmap_contains hm (ascii_to_uchar (some a)) = false := by simpa using hin
      have hlt := unvisited_put_lt (lt_of_get hc) hin1
      obtain ⟨res, hm1, e1⟩ := circular_loop_total hT fuel
        (hashmap_put hm (ascii_to_uchar (some a))) (dir c) hcT (by omega)
      refine ⟨res, hm1, ?_⟩
      simp only [linkpair_list_circular_loop, hin1, hc]
      exact e1

/-- A node in a set of cells closed under right links is reported as circular. -/
theorem list_circular_of_right_closed (u_print : Option Nat → Key) {h : Heap} {S : List Nat}
    (hS : ∀ a ∈ S, ∃ b ∈ S, (h[a]?).bind LinkPair.right = some b) {lp : Nat} (hlp : lp ∈ S) :
    linkpair_list_circular u_print h lp = some true := by
  obtain ⟨b, hb, hab⟩ := hS lp hlp
  obtain ⟨c, hc, hcb⟩ := Option.bind_eq_some.1 hab
  obtain ⟨hm1, e1⟩ := circular_loop_closed hS (h.length + 1)
    (hashmap_put hashmap_create (u_print c.right)) b hb
    (Nat.lt_succ_of_le (unvisited_card_le h _))
  rw [← hcb] at e1
  simp only [linkpair_list_circular, hc, e1]

/-- A node in a set of cells closed under left links, in a heap whose right links from
that node lead to `NULL` or stay inside a set `T`, is reported as circular. -/
theorem list_circular_of_left_closed (u_print : Option Nat → Key) {h : Heap} {S T : List Nat}
    (hS : ∀ a ∈ S, ∃ b ∈ S, (h[a]?).bind LinkPair.left = some b)
    (hT : ∀ a ∈ T, ∃ c, h[a]? = some c ∧ ∀ b, c.right = some b → b ∈ T)
    {lp : Nat} (hlp : lp ∈ S) (hlpT : lp ∈ T) :
    linkpair_list_circular u_print h lp = some true := by
  obtain ⟨b, hb, hab⟩ := hS lp hlp
  obtain ⟨c, hc, hcb⟩ := Option.bind_eq_some.1 hab
  obtain ⟨c1, hc1, hcT⟩ := hT lp hlpT
  rw [hc] at hc1
  cases hc1
  obtain ⟨res, hm1, e1⟩ := circular_loop_total hT (h.length + 1)
    (hashmap_put hashmap_create (u_print c.right)) c.right hcT
    (Nat.lt_succ_of_le (unvisited_card_le h _))
  cases res with
  | true => simp only [linkpair_list_circular, hc, e1]
  | false =>
    obtain ⟨hm2, e2⟩ := circular_loop_closed hS (h.length + 1) hm1 b hb
      (Nat.lt_succ_of_le (unvisited_card_le h _))
    rw [← hcb] at e2
    simp only [linkpair_list_circular, hc, e1, e2]

/-- In a segment that ends before `x`, every right link leads to a later cell of the
segment or to `x`. -/
theorem Seg_right_into {h : Heap} {x : Nat} : ∀ (t : List Nat) (pv : Option Nat),
    Seg h pv t (some x) → ∀ a ∈ t, ∃ b ∈ t ++ [x], (h[a]?).bind LinkPair.right = some b
  | [], _, _ => by simp
  | a0 :: rest, pv, hs => by
    intro a ha
    obtain ⟨h0, hst⟩ := hs
    rcases List.mem_cons.1 ha with e | e
    · subst e
      obtain ⟨c, hc, _, hcr⟩ := links_eq_some.1 h0
      cases rest with
      | nil => exact ⟨x, by simp, by simp [hc, hcr, headOr]⟩
      | cons b r => exact ⟨b, by simp, by simp [hc, hcr, headOr]⟩
    · obtain ⟨b, hb, hab⟩ := Seg_right_into rest (some a0) hst a e
      exact ⟨b, by simp only [List.cons_append, List.mem_cons]; exact Or.inr hb, hab⟩

/-- In a segment that starts after `x`, every left link leads to an earlier cell of the
segment or to `x`. -/
theorem Seg_left_into {h : Heap} {nx : Option Nat} : ∀ (t : List Nat) (x : Nat),
    Seg h (some x) t nx → ∀ a ∈ t, ∃ b ∈ x :: t, (h[a]?).bind LinkPair.left = some b
  | [], _, _ => by simp
  | a0 :: rest, x, hs => by
    intro a ha
    obtain ⟨h0, hst⟩ := hs
    rcases List.mem_cons.1 ha with e | e
    · subst e
      obtain ⟨c, hc, hcl, _⟩ := links_eq_some.1 h0
      exact ⟨x, by simp, by simp [hc, hcl]⟩
    · obtain ⟨b, hb, hab⟩ := Seg_left_into rest a0 hst a e
      exact ⟨b, List.mem_cons_of_mem x hb, hab⟩

/-- In a segment that ends at `NULL`, every right link is `NULL` or leads to a cell of the
segment. -/
theorem Seg_right_total {h : Heap} : ∀ (l : List Nat) (pv : Option Nat),
    Seg h pv l none → ∀ a ∈ l, ∃ c, h[a]? = some c ∧ ∀ b, c.right = some b → b ∈ l
  | [], _, _ => by simp
  | a0 :: rest, pv, hs => by
    intro a ha
    obtain ⟨h0, hst⟩ := hs
    rcases List.mem_cons.1 ha with e | e
    · subst e
      obtain ⟨c, hc, _, hcr⟩ := links_eq_some.1 h0
      refine ⟨c, hc, ?_⟩
      intro b hb
      rw [hcr] at hb
      cases rest with
      | nil => simp [headOr] at hb
      | cons b1 r =>
        simp only [headOr, Option.some.injEq] at hb
        simp [hb]
    · obtain ⟨c, hc, hcT⟩ := Seg_right_total rest (some a0) hst a e
      exact ⟨c, hc, fun b hb => List.mem_cons_of_mem a0 (hcT b hb)⟩

/-- C22: take a well-formed list `l1 ++ l2`. When the right link of its last node is set
to the first node of `l2` (an earlier node, closing `l2` into a ring of right links),
`linkpair_list_circular` returns 1 on every node of `l2`. When instead the left link of
its first node is set to the last node of `l1` (a ring of left links only),
`linkpair_list_circular` returns 1 on every node of `l1`. This holds whatever key
`u_print` leaves in the buffer. -/
theorem linkpair_list_circular_ring (u_print : Option Nat → Key) (h : Heap) (l1 l2 : List Nat)
    (hl : IsList h (l1 ++ l2)) :
    (∀ first last h1, headOr l2 none = some first → lastOr l2 none = some last →
      modify h last (fun x => { x with right := some first }) = some h1 →
      ∀ n ∈ l2, linkpair_list_circular u_print h1 n = some true) ∧
    (∀ first last h1, headOr l1 none = some first → lastOr l1 none = some last →
      modify h first (fun x => { x with left := some last }) = some h1 →
      ∀ n ∈ l1, linkpair_list_circular u_print h1 n = some true) := by
  obtain ⟨hnd, hs⟩ := hl
  obtain ⟨d1, d2, _⟩ := List.nodup_append.1 hnd
  obtain ⟨s1, s2⟩ := (Seg_append l1 l2 none none).1 hs
  constructor
  · intro first last h1 hfirst hlast hmod n hn
    obtain ⟨t, rfl⟩ := lastOr_eq_some hlast
    obtain ⟨t1, ht1⟩ := headOr_eq_some hfirst
    obtain ⟨s3, hlk⟩ := (Seg_concat t last _ none).1 s2
    obtain ⟨c, hc, _, _⟩ := links_eq_some.1 hlk
    rw [modify_eq _ hc] at hmod
    cases hmod
    have hnt : last ∉ t := fun hm => by
      have := (List.nodup_append.1 d2).2.2 hm
      exact this (by simp)
    have s4 : Seg (h.set last { c with right := some first }) (lastOr l1 none) t (some last) :=
      (Seg_set_of_not_mem hnt).2 s3
    have hfm : first ∈ t ++ [last] := by
      rw [ht1]
      simp
    apply list_circular_of_right_closed u_print _ hn
    intro a ha
    rcases List.mem_append.1 ha with hat | hal
    · exact Seg_right_into t _ s4 a hat
    · simp only [List.mem_singleton] at hal
      subst hal
      exact ⟨first, hfm, by rw [get_set_self _ hc]; rfl⟩
  · intro first last h1 hfirst hlast hmod n hn
    obtain ⟨t, rfl⟩ := headOr_eq_some hfirst
    obtain ⟨t1, ht1⟩ := lastOr_eq_some hlast
    obtain ⟨hlk, s3⟩ := s1
    obtain ⟨c, hc, _, _⟩ := links_eq_some.1 hlk
    rw [modify_eq _ hc] at hmod
    cases hmod
    have hnt : first ∉ t := (List.nodup_cons.1 d1).1
    have s4 : Seg (h.set first { c with left := some last }) (some first) t (headOr l2 none) :=
      (Seg_set_of_not_mem hnt).2 s3
    have hlm : last ∈ first :: t := by
      rw [ht1]
      simp
    have hS : ∀ a ∈ first :: t, ∃ b ∈ first :: t,
        ((h.set first { c with left := some last })[a]?).bind LinkPair.left = some b := by
      intro a ha
      rcases List.mem_cons.1 ha with e | e
      · subst e
        exact ⟨last, hlm, by rw [get_set_self _ hc]; rfl⟩
      · exact Seg_left_into t first s4 a e
    have hT : ∀ a ∈ (first :: t) ++ l2, ∃ c1,
        (h.set first { c with left := some last })[a]? = some c1 ∧
        ∀ b, c1.right = some b → b ∈ (first :: t) ++ l2 := by
      intro a ha
      obtain ⟨c1, hc1, hcT⟩ := Seg_right_total _ none hs a ha
      by_cases e : first = a
      · subst e
        rw [hc] at hc1
        cases hc1
        exact ⟨_, get_set_self _ hc, hcT⟩
      · exact ⟨c1, (get_set_ne _ e).trans hc1, hcT⟩
    exact list_circular_of_left_closed u_print hS hT hn (List.mem_append_left l2 hn)

/-- The list `p1`, `p2`, `p3`, `p4` of the spec's example: closed into the ring `ringHeap`
of right links and probed at `p3`, and closed into the ring `leftRingHeap` of left links
and probed at `p2`. -/
theorem linkpair_list_circular_ring_witness :
    IsList exampleHeap ([0] ++ [1, 2, 3]) ∧ IsList exampleHeap ([0, 1, 2] ++ [3]) ∧
    linkpair_list_circular ascii_to_uchar ringHeap 2 = some true ∧
    linkpair_list_circular (fun _ => Key.other 0) leftRingHeap 1 = some true :=
  ⟨by decide, by decide,
    (linkpair_list_circular_ring ascii_to_uchar exampleHeap [0] [1, 2, 3] (by decide)).1
      1 3 ringHeap rfl rfl rfl 2 (by decide),
    (linkpair_list_circular_ring (fun _ => Key.other 0) exampleHeap [0, 1, 2] [3]
      (by decide)).2 0 2 leftRingHeap rfl rfl rfl 1 (by decide)⟩

/-- When `u_print` leaves the text of the pointer in the buffer, as `ascii_to_uchar` does,
the first loop finds the key of `lp->right` in the map at once: `linkpair_list_circular`
returns 1 on every node that has a right neighbour. -/
theorem list_circular_of_text_key {h : Heap} {n b : Nat} {nd : LinkPair}
    (hnd : h[n]? = some nd) (hr : nd.right = some b) :
    linkpair_list_circular ascii_to_uchar h n = some true := by
  simp [linkpair_list_circular, hnd, hr, linkpair_list_circular_loop, hashmap_put,
    hashmap_contains]

theorem take_length_takeWhile (q : Nat → Bool) : ∀ s : List Nat,
    s.take (s.takeWhile q).length = s.takeWhile q
  | [] => rfl
  | c :: t => by
    rw [List.takeWhile_cons]
    cases hq : q c with
    | false => rfl
    | true =>
      simp only [if_true, List.length_cons, List.take_succ_cons]
      rw [take_length_takeWhile q t]

theorem takeWhile_append_stop (q : Nat → Bool) (z : Nat) (hz : q z = false) :
    ∀ s : List Nat, (s ++ [z]).takeWhile q = s.takeWhile q
  | [] => by
    rw [List.nil_append, List.takeWhile_cons, hz]
    rfl
  | c :: t => by
    rw [List.cons_append, List.takeWhile_cons, List.takeWhile_cons,
      takeWhile_append_stop q z hz t]

theorem takeWhile_take (q : Nat → Bool) : ∀ (n : Nat) (s : List Nat),
    (s.take n).takeWhile q = (s.takeWhile q).take n
  | 0, _ => by simp
  | _ + 1, [] => by simp
  | n + 1, c :: t => by
    rw [List.take_succ_cons, List.takeWhile_cons, List.takeWhile_cons]
    cases hq : q c with
    | false => simp
    | true =>
      simp only [if_true, List.take_succ_cons]
      rw [takeWhile_take q n t]

theorem strlen_le (s : List Nat) : strlen s ≤ s.length :=
  (List.takeWhile_sublist _).length_le

/-- The string that `vsnprintf( str, 128, ... )` leaves in `str` is the first 127 bytes of
the rendered message. -/
theorem str_text (rendered : List Nat) :
    (vsnprintf 128 rendered).take (strlen (vsnprintf 128 rendered)) =
      (rendered.take (strlen rendered)).take 127 := by
  unfold strlen
  rw [take_length_takeWhile, take_length_takeWhile]
  unfold vsnprintf
  rw [takeWhile_append_stop _ 0 (by decide)]
  exact takeWhile_take _ 127 rendered

theorem str_text_length (rendered : List Nat) :
    strlen (vsnprintf 128 rendered) = ((rendered.take (strlen rendered)).take 127).length := by
  rw [← str_text, List.length_take, Nat.min_eq_left (strlen_le _)]

/-- The two writes of `plugin_log_add` when the test `strlen + pos < SCRATCH_LEN` has
passed: both lie inside the buffer. -/
theorem log_write (buf src : List Nat) (pos : Nat) (hfit : strlen src + pos < buf.length) :
    ∃ s1, memcpy buf (pos : Int) src (strlen src) = some s1 ∧
      store s1 ((pos : Int) + (strlen src : Int)) 0 =
        some (buf.take pos ++ src.take (strlen src) ++ 0 :: buf.drop (pos + strlen src + 1)) ∧
      (buf.take pos ++ src.take (strlen src) ++ 0 :: buf.drop (pos + strlen src + 1)).length =
        buf.length := by
  have hle := strlen_le src
  have hlen1 : (buf.take pos ++ src.take (strlen src)).length = pos + strlen src := by
    simp only [List.length_append, List.length_take]
    omega
  obtain ⟨b, hdrop⟩ : ∃ b, buf.drop (pos + strlen src) = b :: buf.drop (pos + strlen src + 1) :=
    ⟨_, List.drop_eq_getElem_cons (by omega)⟩
  have hlen2 : (buf.take pos ++ src.take (strlen src) ++ buf.drop (pos + strlen src)).length =
      buf.length := by
    simp only [List.length_append, List.length_take, List.length_drop]
    omega
  refine ⟨buf.take pos ++ src.take (strlen src) ++ buf.drop (pos + strlen src), ?_, ?_, ?_⟩
  · simp only [memcpy, Int.toNat_ofNat]
    rw [if_pos ⟨Int.ofNat_nonneg _, by omega, hle⟩]
  · have e : ((pos : Int) + (strlen src : Int)).toNat = pos + strlen src := by omega
    have hlt : pos + strlen src <
        (buf.take pos ++ src.take (strlen src) ++ buf.drop (pos + strlen src)).length := by
      rw [hlen2]
      omega
    simp only [store, e]
    rw [if_pos ⟨by omega, hlt⟩, hdrop]
    congr 1
    rw [List.set_append_right _ _ (by rw [hlen1]), hlen1, Nat.sub_self]
    rfl
  · simp only [List.length_append, List.length_take, List.length_cons, List.length_drop]
    omega

/-- One branch of `plugin_log_add`: the test, the two writes and the new `pos`, for the
string at `src`. -/
theorem log_branch (S : Nat) (buf src : List Nat) (pos : Nat) (hb : buf.length = S) :
    (if (strlen src : Int) + (pos : Int) < (S : Int) then
      match memcpy buf (pos : Int) src (strlen src) with
      | none => none
      | some s1 =>
        match store s1 ((pos : Int) + (strlen src : Int)) 0 with
        | none => none
        | some s2 => some (PluginLog.mk s2 ((pos : Int) + (strlen src : Int)))
    else some (PluginLog.mk buf (pos : Int))) =
    if (src.take (strlen src)).length + pos < S then
      some (PluginLog.mk
        (buf.take pos ++ src.take (strlen src) ++
          0 :: buf.drop (pos + (src.take (strlen src)).length + 1))
        ((pos : Int) + ((src.take (strlen src)).length : Nat)))
    else some (PluginLog.mk buf (pos : Int)) := by
  have hlen : (src.take (strlen src)).length = strlen src := by
    rw [List.length_take, Nat.min_eq_left (strlen_le src)]
  rw [hlen]
  by_cases hfit : strlen src + pos < S
  · obtain ⟨s1, e1, e2, _⟩ := log_write buf src pos (hb ▸ hfit)
    rw [if_pos (by omega), if_pos hfit]
    simp only [e1, e2]
  · rw [if_neg (by omega), if_neg hfit]

/-- The function `plugin_log_add` on a log over a buffer of `SCRATCH_LEN` bytes with a
`pos` that is not negative: the text `log_text` is appended whole and terminated, or the
log is left as it was. -/
theorem plugin_log_add_eq (S : Nat) (buf fmt rendered : List Nat) (pos : Nat)
    (hb : buf.length = S) :
    plugin_log_add S (PluginLog.mk buf (pos : Int)) fmt rendered =
      if (log_text fmt rendered).length + pos < S then
        some (PluginLog.mk
          (buf.take pos ++ log_text fmt rendered ++
            0 :: buf.drop (pos + (log_text fmt rendered).length + 1))
          ((pos : Int) + ((log_text fmt rendered).length : Nat)))
      else some (PluginLog.mk buf (pos : Int)) := by
  by_cases hc : (fmt.take (strlen fmt)).count 37 > 0
  · simp only [plugin_log_add, log_text, if_pos hc]
    exact log_branch S buf (vsnprintf 128 rendered) pos hb
  · simp only [plugin_log_add, log_text, if_neg hc]
    exact log_branch S buf fmt pos hb

set_option maxRecDepth 100000 in
/-- C27 as stated fails: over a buffer of 256 bytes, with `pos = 0`, the format "%s" and
a rendered message of 200 bytes (which fits, 200 + 0 < 256), `plugin_log_add` appends the
first 127 bytes only and advances `pos` by 127, neither the whole message nor nothing. -/
theorem plugin_log_add_truncates :
    (List.replicate 200 97).length + 0 < 256 ∧
    ∃ log1, plugin_log_add 256 (plugin_log_create (List.replicate 256 0)) fmtS
        (List.replicate 200 97) = some log1 ∧
      log1.pos = 127 ∧ log1.scratch.take 128 = List.replicate 127 97 ++ [0] := by
  refine ⟨by decide, _, rfl, rfl, ?_⟩
  decide

/-- The corrected C27: for a log over a buffer of `SCRATCH_LEN` bytes with `0 ≤ pos`, the
text to append is the message itself when the format has no `%`, and the first 127 bytes
of the rendered message when it has. When the length of this text plus `pos` is below
`SCRATCH_LEN`, `plugin_log_add` writes the whole text at `pos`, a 0 after it, and
advances `pos` by the length of the text, touching no other byte; otherwise it leaves
`pos` and the buffer as they were. -/
theorem plugin_log_add_whole_or_dropped (S : Nat) (log : PluginLog) (fmt rendered : List Nat)
    (h0 : 0 ≤ log.pos) (hb : log.scratch.length = S) :
    ((fmt.take (strlen fmt)).count 37 = 0 → log_text fmt rendered = fmt.take (strlen fmt)) ∧
    ((fmt.take (strlen fmt)).count 37 > 0 →
      log_text fmt rendered = (rendered.take (strlen rendered)).take 127) ∧
    (((log_text fmt rendered).length : Int) + log.pos < (S : Int) →
      ∃ log1, plugin_log_add S log fmt rendered = some log1 ∧
        log1.pos = log.pos + ((log_text fmt rendered).length : Int) ∧
        log1.scratch = log.scratch.take log.pos.toNat ++ log_text fmt rendered ++
          0 :: log.scratch.drop (log.pos.toNat + (log_text fmt rendered).length + 1)) ∧
    (¬ ((log_text fmt rendered).length : Int) + log.pos < (S : Int) →
      plugin_log_add S log fmt rendered = some log) := by
  obtain ⟨buf, pos⟩ := log
  obtain ⟨p, rfl⟩ := Int.eq_ofNat_of_zero_le h0
  have e := plugin_log_add_eq S buf fmt rendered p hb
  refine ⟨?_, ?_, ?_, ?_⟩
  · intro hc
    simp only [log_text, hc, gt_iff_lt, lt_self_iff_false, if_false]
  · intro hc
    simp only [log_text, if_pos hc]
    exact str_text rendered
  · intro hfit
    simp only at hfit
    rw [if_pos (by omega)] at e
    exact ⟨_, e, rfl, by simp⟩
  · intro hfit
    simp only at hfit
    rw [if_neg (by omega)] at e
    exact e

/-- The format "%s" with a message of three bytes, appended at `pos = 0` to a buffer of
eight bytes. -/
theorem plugin_log_add_whole_or_dropped_witness :
    log_text fmtS [104, 105, 33] = ([104, 105, 33].take (strlen [104, 105, 33])).take 127 ∧
    ∃ log1, plugin_log_add 8 (plugin_log_create (List.replicate 8 1)) fmtS [104, 105, 33] =
        some log1 ∧
      log1.pos = 0 + ((log_text fmtS [104, 105, 33]).length : Int) ∧
      log1.scratch = (List.replicate 8 1).take 0 ++ log_text fmtS [104, 105, 33] ++
        0 :: (List.replicate 8 1).drop (0 + (log_text fmtS [104, 105, 33]).length + 1) :=
  have w := plugin_log_add_whole_or_dropped 8 (plugin_log_create (List.replicate 8 1)) fmtS
    [104, 105, 33] (by decide) (by decide)
  ⟨w.2.1 (by decide), w.2.2.1 (by decide)⟩

/-- One call on a log within its bounds: the call completes (no byte is written outside
the buffer), the log stays within its bounds and `pos` moves as `LogStep` says. -/
theorem log_call_inv (S : Nat) (log : PluginLog) (c : LogCall) (hi : LogInv S log) :
    ∃ log1, plugin_log_call S log c = some log1 ∧ LogInv S log1 ∧ LogStep log c log1 := by
  obtain ⟨buf, pos⟩ := log
  obtain ⟨h0, h1, hb⟩ := hi
  obtain ⟨p, rfl⟩ := Int.eq_ofNat_of_zero_le h0
  simp only at h1 hb
  cases c with
  | add fmt rendered =>
    have e := plugin_log_add_eq S buf fmt rendered p hb
    by_cases hfit : (log_text fmt rendered).length + p < S
    · rw [if_pos hfit] at e
      refine ⟨_, e, ⟨by simp only; omega, by simp only; omega, ?_⟩, ?_⟩
      · simp only [List.length_append, List.length_take, List.length_cons, List.length_drop]
        omega
      · simp only [LogStep]
        omega
    · rw [if_neg hfit] at e
      exact ⟨_, e, ⟨h0, h1, hb⟩, le_refl _⟩
  | clear =>
    have hlt : 0 < buf.length := by omega
    refine ⟨PluginLog.mk (buf.set 0 0) 0, ?_, ⟨le_refl _, by simp only; omega, ?_⟩, rfl⟩
    · simp [plugin_log_call, plugin_log_clear, store, hlt]
    · simp only [List.length_set]
      exact hb

/-- A sequence of calls on a log within its bounds. -/
theorem log_calls_inv (S : Nat) : ∀ (calls : List LogCall) (log : PluginLog), LogInv S log →
    ∃ states, plugin_log_calls S log calls = some states ∧ states.length = calls.length ∧
      (∀ st ∈ states, LogInv S st) ∧ LogSteps log calls states
  | [], _, _ => ⟨[], rfl, rfl, by simp, trivial⟩
  | c :: cs, log, hi => by
    obtain ⟨log1, e1, i1, s1⟩ := log_call_inv S log c hi
    obtain ⟨rest, e2, l2, i2, s2⟩ := log_calls_inv S cs log1 i1
    refine ⟨log1 :: rest, ?_, by simp [l2], ?_, ⟨s1, s2⟩⟩
    · simp only [plugin_log_calls, e1, e2]
    · intro st hst
      rcases List.mem_cons.1 hst with e | e
      · exact e ▸ i1
      · exact i2 st e

/-- C28: on a log created over a buffer of `SCRATCH_LEN` bytes (`SCRATCH_LEN` positive),
every sequence of `plugin_log_add` and `plugin_log_clear` calls completes without a write
at an index that is not below `SCRATCH_LEN`; after every call `0 ≤ pos < SCRATCH_LEN`
holds and the buffer still has `SCRATCH_LEN` bytes; `plugin_log_add` never decreases
`pos` and `plugin_log_clear` sets it to 0. -/
theorem plugin_log_bounded (S : Nat) (hS : 0 < S) (buffer : List Nat)
    (hb : buffer.length = S) (calls : List LogCall) :
    ∃ states, plugin_log_calls S (plugin_log_create buffer) calls = some states ∧
      states.length = calls.length ∧ (∀ st ∈ states, LogInv S st) ∧
      LogSteps (plugin_log_create buffer) calls states :=
  log_calls_inv S calls (plugin_log_create buffer)
    ⟨le_refl _, by simp only [plugin_log_create]; omega, hb⟩

/-- A buffer of eight bytes: a message that fits, one that is dropped, a clear, and a
formatted message. -/
theorem plugin_log_bounded_witness :
    ∃ states, plugin_log_calls 8 (plugin_log_create (List.replicate 8 1))
        [LogCall.add [104, 105, 0] [], LogCall.add fmtPlain [], LogCall.clear,
          LogCall.add fmtS [104, 105, 33]] = some states ∧
      states.length = [LogCall.add [104, 105, 0] [], LogCall.add fmtPlain [], LogCall.clear,
          LogCall.add fmtS [104, 105, 33]].length ∧ (∀ st ∈ states, LogInv 8 st) ∧
      LogSteps (plugin_log_create (List.replicate 8 1))
        [LogCall.add [104, 105, 0] [], LogCall.add fmtPlain [], LogCall.clear,
          LogCall.add fmtS [104, 105, 33]] states :=
  plugin_log_bounded 8 (by decide) (List.replicate 8 1) (by decide) _

end NMerge
